import Mathlib

/-!
# Lock variants of `28_locks.c` and the shared-counter benchmark

The five locks (`spinlock_t`, `cas_lock_t`, `ticket_lock_t`, `yield_lock_t`,
`queue_lock_t`) and the harness (`worker`, `run_test`) are embedded as an
interleaving transition system.

* Every access to a shared variable is one atomic step of one thread; `counter++` is a
  read followed by a write.  C `int`s are integers wrapped to 32 bits (`wrap32`).
* A schedule is a list of labels.  `Label.run t pick` lets thread `t` take its next step
  (`pick` is the waiter a `pthread_cond_signal` unblocks), `Label.spurious t` is a spurious
  wake-up of thread `t` from `pthread_cond_wait`.  A thread blocked on `q_mutex` or in the
  wait set of the condition variable has no step.
* `Reachable cfg type prev` are the states of a run of `run_test` for the variant `type`,
  with the macros `cfg` and the globals `prev` left by whatever ran before.
* The `History` component records the order of the ticket lock events; no step reads it.

The definitions come first, the theorems follow: the invariants of the flag locks, of the
ticket lock and of the queue lock, the progress measure, and the schedules on which the
queue lock loses mutual exclusion.
-/

namespace Locks

/-! ## Machine integers and the atomic built-ins -/

/-- Value of a C `int` after two's complement wrap-around. -/
def wrap32 (x : Int) : Int := (x + 2147483648) % 4294967296 - 2147483648

/-- Built-in `__sync_lock_test_and_set(ptr, v)`: the previous contents and the new contents. -/
def sync_lock_test_and_set (cell v : Int) : Int × Int := (cell, v)

/-- Built-in `__sync_val_compare_and_swap(ptr, old, new)`: the previous contents and the new contents. -/
def sync_val_compare_and_swap (cell oldv newv : Int) : Int × Int :=
  (cell, if cell = oldv then newv else cell)

/-- Built-in `__sync_fetch_and_add(ptr, v)`: the previous contents and the new contents. -/
def sync_fetch_and_add (cell v : Int) : Int × Int := (cell, wrap32 (cell + v))

/-! ## Lock types -/

/-- Type `spinlock_t`. -/
structure spinlock_t where
  flag : Int
  deriving DecidableEq, Repr

/-- Type `cas_lock_t`. -/
structure cas_lock_t where
  flag : Int
  deriving DecidableEq, Repr

/-- Type `ticket_lock_t`. -/
structure ticket_lock_t where
  ticket : Int
  turn : Int
  deriving DecidableEq, Repr

/-- Type `yield_lock_t`. -/
structure yield_lock_t where
  flag : Int
  deriving DecidableEq, Repr

/-- Type `queue_lock_t`.  The condition variable is the list of threads blocked on it,
the mutex is its owner. -/
structure queue_lock_t where
  flag : Int
  guard : Int
  cond : List Nat
  q_mutex : Option Nat
  deriving DecidableEq, Repr

/-- Function `spinlock_init`. -/
def spinlock_init (_lock : spinlock_t) : spinlock_t := { flag := 0 }

/-- One evaluation of the loop condition of `spinlock_lock`: the lock afterwards and
whether the loop repeats. -/
def spinlock_lock (lock : spinlock_t) : spinlock_t × Bool :=
  let r := sync_lock_test_and_set lock.flag 1
  ({ flag := r.2 }, decide (r.1 = 1))

/-- Function `spinlock_unlock` (`__sync_lock_release` stores 0). -/
def spinlock_unlock (_lock : spinlock_t) : spinlock_t := { flag := 0 }

/-- Function `cas_init`. -/
def cas_init (_lock : cas_lock_t) : cas_lock_t := { flag := 0 }

/-- One evaluation of the loop condition of `cas_lock`: the lock afterwards and
whether the loop repeats. -/
def cas_lock (lock : cas_lock_t) : cas_lock_t × Bool :=
  let r := sync_val_compare_and_swap lock.flag 0 1
  ({ flag := r.2 }, decide (r.1 = 1))

/-- Function `cas_unlock`. -/
def cas_unlock (_lock : cas_lock_t) : cas_lock_t := { flag := 0 }

/-- Function `ticket_init`. -/
def ticket_init (_lock : ticket_lock_t) : ticket_lock_t := { ticket := 0, turn := 0 }

/-- First statement of `ticket_lock`: the fetch-and-add on `ticket`; the lock afterwards
and the value stored in `myturn`. -/
def ticket_lock_draw (lock : ticket_lock_t) : ticket_lock_t × Int :=
  let r := sync_fetch_and_add lock.ticket 1
  ({ lock with ticket := r.2 }, r.1)

/-- Loop condition of `ticket_lock`: whether the wait loop repeats. -/
def ticket_lock_wait (lock : ticket_lock_t) (myturn : Int) : Bool :=
  decide (lock.turn ≠ myturn)

/-- Function `ticket_unlock`. -/
def ticket_unlock (lock : ticket_lock_t) : ticket_lock_t :=
  { lock with turn := (sync_fetch_and_add lock.turn 1).2 }

/-- Function `yield_init`. -/
def yield_init (_lock : yield_lock_t) : yield_lock_t := { flag := 0 }

/-- One evaluation of the loop condition of `yield_lock`: the lock afterwards and
whether the loop body (`sched_yield`) runs. -/
def yield_lock (lock : yield_lock_t) : yield_lock_t × Bool :=
  let r := sync_lock_test_and_set lock.flag 1
  ({ flag := r.2 }, decide (r.1 = 1))

/-- Function `yield_unlock`. -/
def yield_unlock (_lock : yield_lock_t) : yield_lock_t := { flag := 0 }

/-- Function `queue_lock_init`. -/
def queue_lock_init (_m : queue_lock_t) : queue_lock_t :=
  { flag := 0, guard := 0, cond := [], q_mutex := none }

/-! ## Threads and the shared state -/

/-- The constant `enum LockType`. -/
inductive LockType
  | SPIN | CAS | TICKET | YIELD | QUEUE
  deriving DecidableEq, Repr

/-- Position of a worker thread.  The positions inside the lock functions are one per
access to shared memory. -/
inductive PC
  /-- The `for` condition `i < NUM_ITERATIONS` of `worker`. -/
  | loopTest
  /-- Loop condition of `spinlock_lock`, `cas_lock` or `yield_lock`. -/
  | acquire
  /-- Call of `sched_yield` in `yield_lock`. -/
  | yielding
  /-- Fetch-and-add of `ticket_lock`. -/
  | ticketDraw
  /-- Wait loop of `ticket_lock`. -/
  | ticketWait
  /-- In `queue_lock`: test-and-set loop on `guard`. -/
  | qGuardLock
  /-- In `queue_lock`: `if (m->flag == 0)`. -/
  | qTestFlag
  /-- In `queue_lock`: `m->flag = 1` of the fast path. -/
  | qSetFlagFast
  /-- In `queue_lock`: `m->guard = 0` of the fast path. -/
  | qGuardRelFast
  /-- In `queue_lock`: `pthread_mutex_lock(&m->q_mutex)`. -/
  | qMutexLock
  /-- In `queue_lock`: `m->guard = 0` of the slow path. -/
  | qGuardRelSlow
  /-- In `queue_lock`: `while (m->flag == 1)`. -/
  | qWhileTest
  /-- In `queue_lock`: entry of `pthread_cond_wait` (release the mutex and block). -/
  | qCondWait
  /-- In `queue_lock`: inside `pthread_cond_wait` (blocked, then re-acquiring the mutex). -/
  | qWaiting
  /-- In `queue_lock`: `m->flag = 1` after the wait loop. -/
  | qSetFlagSlow
  /-- In `queue_lock`: `pthread_mutex_unlock(&m->q_mutex)`. -/
  | qMutexUnlockSlow
  /-- The read of `counter++`. -/
  | counterRead
  /-- The write of `counter++`. -/
  | counterWrite
  /-- Store of 0 in `spinlock_unlock`, `cas_unlock` or `yield_unlock`. -/
  | release
  /-- Fetch-and-add of `ticket_unlock`. -/
  | ticketRelease
  /-- In `queue_unlock`: test-and-set loop on `guard`. -/
  | uGuardLock
  /-- In `queue_unlock`: `m->flag = 0`. -/
  | uClearFlag
  /-- In `queue_unlock`: `pthread_mutex_lock(&m->q_mutex)`. -/
  | uMutexLock
  /-- In `queue_unlock`: `pthread_cond_signal(&m->cond)`. -/
  | uSignal
  /-- In `queue_unlock`: `pthread_mutex_unlock(&m->q_mutex)`. -/
  | uMutexUnlock
  /-- In `queue_unlock`: `m->guard = 0`. -/
  | uGuardRel
  /-- The `i++` of the `for` loop of `worker`. -/
  | loopIncr
  /-- The worker has executed `return NULL`. -/
  | done
  deriving DecidableEq, Repr

/-- Local state of a worker thread: position, loop index `i` (it never exceeds
`NUM_ITERATIONS`, see `reachable_index_le`, so it is kept as a natural number), the local
`myturn` of `ticket_lock` and the value read by `counter++`. -/
structure Thread where
  pc : PC
  i : Nat
  myturn : Int
  tmp : Int
  deriving DecidableEq, Repr

/-- History of the ticket lock events of a run, written by the steps and never read by
them: the threads in the order of their fetch-and-add on `ticket`, the values they
captured, the threads in the order they left the wait loop, and the threads in the
order of their fetch-and-add on `turn`. -/
structure History where
  draws : List Nat
  drawn : List Int
  grants : List Nat
  releases : List Nat
  deriving DecidableEq, Repr

/-- The global variables of `28_locks.c`. -/
structure Shared where
  counter : Int
  current_test_type : LockType
  spin_lock_var : spinlock_t
  cas_lock_var : cas_lock_t
  ticket_lock_var : ticket_lock_t
  yield_lock_var : yield_lock_t
  queue_lock_var : queue_lock_t
  hist : History
  deriving DecidableEq, Repr

/-- Global variables together with the local state of every thread. -/
structure State where
  sh : Shared
  threads : Nat → Thread

/-- The macros `NUM_THREADS` and `NUM_ITERATIONS`. -/
structure Config where
  NUM_THREADS : Nat
  NUM_ITERATIONS : Nat
  deriving DecidableEq, Repr

/-- The configuration of the source file. -/
def sourceConfig : Config := { NUM_THREADS := 4, NUM_ITERATIONS := 100000 }

/-- Replace the local state of thread `t`. -/
def upd (f : Nat → Thread) (t : Nat) (th : Thread) : Nat → Thread :=
  fun u => if u = t then th else f u

/-- Position of a worker at the call of the lock function of the selected variant. -/
def lockEntry : LockType → PC
  | .SPIN => .acquire
  | .CAS => .acquire
  | .TICKET => .ticketDraw
  | .YIELD => .acquire
  | .QUEUE => .qGuardLock

/-- Position of a worker at the call of the unlock function of the selected variant. -/
def unlockEntry : LockType → PC
  | .SPIN => .release
  | .CAS => .release
  | .TICKET => .ticketRelease
  | .YIELD => .release
  | .QUEUE => .uGuardLock

/-- Steps of `spinlock_lock` and `spinlock_unlock`. -/
def spin_step (sh : Shared) (th : Thread) : Option (Shared × Thread) :=
  match th.pc with
  | .acquire =>
    let r := spinlock_lock sh.spin_lock_var
    some ({ sh with spin_lock_var := r.1 },
          { th with pc := if r.2 then .acquire else .counterRead })
  | .release =>
    some ({ sh with spin_lock_var := spinlock_unlock sh.spin_lock_var },
          { th with pc := .loopIncr })
  | _ => none

/-- Steps of `cas_lock` and `cas_unlock`. -/
def cas_step (sh : Shared) (th : Thread) : Option (Shared × Thread) :=
  match th.pc with
  | .acquire =>
    let r := cas_lock sh.cas_lock_var
    some ({ sh with cas_lock_var := r.1 },
          { th with pc := if r.2 then .acquire else .counterRead })
  | .release =>
    some ({ sh with cas_lock_var := cas_unlock sh.cas_lock_var },
          { th with pc := .loopIncr })
  | _ => none

/-- Steps of `yield_lock` and `yield_unlock`. -/
def yield_step (sh : Shared) (th : Thread) : Option (Shared × Thread) :=
  match th.pc with
  | .acquire =>
    let r := yield_lock sh.yield_lock_var
    some ({ sh with yield_lock_var := r.1 },
          { th with pc := if r.2 then .yielding else .counterRead })
  | .yielding => some (sh, { th with pc := .acquire })
  | .release =>
    some ({ sh with yield_lock_var := yield_unlock sh.yield_lock_var },
          { th with pc := .loopIncr })
  | _ => none

/-- Steps of `ticket_lock` and `ticket_unlock` by thread `t`. -/
def ticket_step (t : Nat) (sh : Shared) (th : Thread) : Option (Shared × Thread) :=
  match th.pc with
  | .ticketDraw =>
    let r := ticket_lock_draw sh.ticket_lock_var
    some ({ sh with ticket_lock_var := r.1,
                    hist := { sh.hist with draws := sh.hist.draws ++ [t],
                                           drawn := sh.hist.drawn ++ [r.2] } },
          { th with myturn := r.2, pc := .ticketWait })
  | .ticketWait =>
    if ticket_lock_wait sh.ticket_lock_var th.myturn then some (sh, th)
    else some ({ sh with hist := { sh.hist with grants := sh.hist.grants ++ [t] } },
               { th with pc := .counterRead })
  | .ticketRelease =>
    some ({ sh with ticket_lock_var := ticket_unlock sh.ticket_lock_var,
                    hist := { sh.hist with releases := sh.hist.releases ++ [t] } },
          { th with pc := .loopIncr })
  | _ => none

/-- Steps of `queue_lock` and `queue_unlock` by thread `t`; `pick` is the waiter that
`pthread_cond_signal` unblocks when there is one. -/
def queue_step (t pick : Nat) (sh : Shared) (th : Thread) : Option (Shared × Thread) :=
  let m := sh.queue_lock_var
  match th.pc with
  | .qGuardLock =>
    let r := sync_lock_test_and_set m.guard 1
    some ({ sh with queue_lock_var := { m with guard := r.2 } },
          { th with pc := if r.1 = 1 then .qGuardLock else .qTestFlag })
  | .qTestFlag =>
    some (sh, { th with pc := if m.flag = 0 then .qSetFlagFast else .qMutexLock })
  | .qSetFlagFast =>
    some ({ sh with queue_lock_var := { m with flag := 1 } }, { th with pc := .qGuardRelFast })
  | .qGuardRelFast =>
    some ({ sh with queue_lock_var := { m with guard := 0 } }, { th with pc := .counterRead })
  | .qMutexLock =>
    if m.q_mutex = none then
      some ({ sh with queue_lock_var := { m with q_mutex := some t } },
            { th with pc := .qGuardRelSlow })
    else none
  | .qGuardRelSlow =>
    some ({ sh with queue_lock_var := { m with guard := 0 } }, { th with pc := .qWhileTest })
  | .qWhileTest =>
    some (sh, { th with pc := if m.flag = 1 then .qCondWait else .qSetFlagSlow })
  | .qCondWait =>
    some ({ sh with queue_lock_var := { m with q_mutex := none, cond := m.cond ++ [t] } },
          { th with pc := .qWaiting })
  | .qWaiting =>
    if t ∈ m.cond then none
    else if m.q_mutex = none then
      some ({ sh with queue_lock_var := { m with q_mutex := some t } },
            { th with pc := .qWhileTest })
    else none
  | .qSetFlagSlow =>
    some ({ sh with queue_lock_var := { m with flag := 1 } },
          { th with pc := .qMutexUnlockSlow })
  | .qMutexUnlockSlow =>
    some ({ sh with queue_lock_var := { m with q_mutex := none } },
          { th with pc := .counterRead })
  | .uGuardLock =>
    let r := sync_lock_test_and_set m.guard 1
    some ({ sh with queue_lock_var := { m with guard := r.2 } },
          { th with pc := if r.1 = 1 then .uGuardLock else .uClearFlag })
  | .uClearFlag =>
    some ({ sh with queue_lock_var := { m with flag := 0 } }, { th with pc := .uMutexLock })
  | .uMutexLock =>
    if m.q_mutex = none then
      some ({ sh with queue_lock_var := { m with q_mutex := some t } },
            { th with pc := .uSignal })
    else none
  | .uSignal =>
    if m.cond = [] then some (sh, { th with pc := .uMutexUnlock })
    else if pick ∈ m.cond then
      some ({ sh with queue_lock_var := { m with cond := m.cond.erase pick } },
            { th with pc := .uMutexUnlock })
    else none
  | .uMutexUnlock =>
    some ({ sh with queue_lock_var := { m with q_mutex := none } },
          { th with pc := .uGuardRel })
  | .uGuardRel =>
    some ({ sh with queue_lock_var := { m with guard := 0 } }, { th with pc := .loopIncr })
  | _ => none

/-- One atomic step of `worker` run by thread `t`. -/
def worker (cfg : Config) (t pick : Nat) (sh : Shared) (th : Thread) :
    Option (Shared × Thread) :=
  match th.pc with
  | .loopTest =>
    if th.i < cfg.NUM_ITERATIONS then
      some (sh, { th with pc := lockEntry sh.current_test_type })
    else some (sh, { th with pc := .done })
  | .counterRead => some (sh, { th with tmp := sh.counter, pc := .counterWrite })
  | .counterWrite =>
    some ({ sh with counter := wrap32 (th.tmp + 1) },
          { th with pc := unlockEntry sh.current_test_type })
  | .loopIncr => some (sh, { th with i := th.i + 1, pc := .loopTest })
  | .done => none
  | _ =>
    match sh.current_test_type with
    | .SPIN => spin_step sh th
    | .CAS => cas_step sh th
    | .TICKET => ticket_step t sh th
    | .YIELD => yield_step sh th
    | .QUEUE => queue_step t pick sh th

/-- A spurious wake-up of thread `t` blocked in `pthread_cond_wait`. -/
def spuriousWake (t : Nat) (sh : Shared) : Option Shared :=
  if sh.current_test_type = .QUEUE ∧ t ∈ sh.queue_lock_var.cond then
    some { sh with queue_lock_var :=
      { sh.queue_lock_var with cond := sh.queue_lock_var.cond.erase t } }
  else none

/-- Scheduler decisions: thread `t` runs its next atomic step (`pick` resolves the
choice of `pthread_cond_signal`), or thread `t` wakes spuriously. -/
inductive Label
  | run (t pick : Nat)
  | spurious (t : Nat)
  deriving DecidableEq, Repr

/-- One step of the system. -/
def step (cfg : Config) (s : State) : Label → Option State
  | .run t pick =>
    if t < cfg.NUM_THREADS then
      match worker cfg t pick s.sh (s.threads t) with
      | some r => some { sh := r.1, threads := upd s.threads t r.2 }
      | none => none
    else none
  | .spurious t =>
    match spuriousWake t s.sh with
    | some sh => some { s with sh := sh }
    | none => none

/-- Run a schedule. -/
def run (cfg : Config) (s : State) : List Label → Option State
  | [] => some s
  | l :: ls =>
    match step cfg s l with
    | some s' => run cfg s' ls
    | none => none

/-- The global variables at program start. -/
def programStart : Shared :=
  { counter := 0, current_test_type := .SPIN,
    spin_lock_var := { flag := 0 }, cas_lock_var := { flag := 0 },
    ticket_lock_var := { ticket := 0, turn := 0 }, yield_lock_var := { flag := 0 },
    queue_lock_var := { flag := 0, guard := 0, cond := [], q_mutex := none },
    hist := { draws := [], drawn := [], grants := [], releases := [] } }

/-- The part of `run_test` before the threads are created, run on the globals `prev`
left by whatever ran before. -/
def run_test_setup (type : LockType) (prev : Shared) : Shared :=
  let s0 := { prev with counter := 0, current_test_type := type,
                        hist := { draws := [], drawn := [], grants := [], releases := [] } }
  match type with
  | .SPIN => { s0 with spin_lock_var := spinlock_init s0.spin_lock_var }
  | .CAS => { s0 with cas_lock_var := cas_init s0.cas_lock_var }
  | .TICKET => { s0 with ticket_lock_var := ticket_init s0.ticket_lock_var }
  | .YIELD => { s0 with yield_lock_var := yield_init s0.yield_lock_var }
  | .QUEUE => { s0 with queue_lock_var := queue_lock_init s0.queue_lock_var }

/-- A thread at the entry of `worker`. -/
def workerEntry : Thread := { pc := .loopTest, i := 0, myturn := 0, tmp := 0 }

/-- State of `run_test` when the workers are created. -/
def run_test (type : LockType) (prev : Shared) : State :=
  { sh := run_test_setup type prev, threads := fun _ => workerEntry }

/-- States a run of `run_test` passes through. -/
inductive Reachable (cfg : Config) (type : LockType) (prev : Shared) : State → Prop
  | init : Reachable cfg type prev (run_test type prev)
  | step {s s' : State} (l : Label) :
      Reachable cfg type prev s → step cfg s l = some s' → Reachable cfg type prev s'

/-- All workers have returned: `pthread_join` has succeeded for every thread. -/
def Finished (cfg : Config) (s : State) : Prop :=
  ∀ t, t < cfg.NUM_THREADS → (s.threads t).pc = .done

/-- The steps of `queue_step`, one constructor per outcome. -/
inductive QStep (t pick : Nat) (sh : Shared) (th : Thread) : Shared → Thread → Prop
  | guardSpin (pc : PC) : (th.pc = .qGuardLock ∨ th.pc = .uGuardLock) →
      sh.queue_lock_var.guard = 1 → pc = th.pc →
      QStep t pick sh th
        { sh with queue_lock_var := { sh.queue_lock_var with guard := 1 } } { th with pc := pc }
  | qGuardLock : th.pc = .qGuardLock → sh.queue_lock_var.guard ≠ 1 →
      QStep t pick sh th
        { sh with queue_lock_var := { sh.queue_lock_var with guard := 1 } }
        { th with pc := .qTestFlag }
  | qTestFree : th.pc = .qTestFlag → sh.queue_lock_var.flag = 0 →
      QStep t pick sh th sh { th with pc := .qSetFlagFast }
  | qTestHeld : th.pc = .qTestFlag → sh.queue_lock_var.flag ≠ 0 →
      QStep t pick sh th sh { th with pc := .qMutexLock }
  | qSetFlagFast : th.pc = .qSetFlagFast →
      QStep t pick sh th
        { sh with queue_lock_var := { sh.queue_lock_var with flag := 1 } }
        { th with pc := .qGuardRelFast }
  | qGuardRelFast : th.pc = .qGuardRelFast →
      QStep t pick sh th
        { sh with queue_lock_var := { sh.queue_lock_var with guard := 0 } }
        { th with pc := .counterRead }
  | qMutexLock : th.pc = .qMutexLock → sh.queue_lock_var.q_mutex = none →
      QStep t pick sh th
        { sh with queue_lock_var := { sh.queue_lock_var with q_mutex := some t } }
        { th with pc := .qGuardRelSlow }
  | qGuardRelSlow : th.pc = .qGuardRelSlow →
      QStep t pick sh th
        { sh with queue_lock_var := { sh.queue_lock_var with guard := 0 } }
        { th with pc := .qWhileTest }
  | qWhileHeld : th.pc = .qWhileTest → sh.queue_lock_var.flag = 1 →
      QStep t pick sh th sh { th with pc := .qCondWait }
  | qWhileFree : th.pc = .qWhileTest → sh.queue_lock_var.flag ≠ 1 →
      QStep t pick sh th sh { th with pc := .qSetFlagSlow }
  | qCondWait : th.pc = .qCondWait →
      QStep t pick sh th
        { sh with queue_lock_var :=
          { sh.queue_lock_var with q_mutex := none, cond := sh.queue_lock_var.cond ++ [t] } }
        { th with pc := .qWaiting }
  | qWake : th.pc = .qWaiting → t ∉ sh.queue_lock_var.cond →
      sh.queue_lock_var.q_mutex = none →
      QStep t pick sh th
        { sh with queue_lock_var := { sh.queue_lock_var with q_mutex := some t } }
        { th with pc := .qWhileTest }
  | qSetFlagSlow : th.pc = .qSetFlagSlow →
      QStep t pick sh th
        { sh with queue_lock_var := { sh.queue_lock_var with flag := 1 } }
        { th with pc := .qMutexUnlockSlow }
  | qMutexUnlockSlow : th.pc = .qMutexUnlockSlow →
      QStep t pick sh th
        { sh with queue_lock_var := { sh.queue_lock_var with q_mutex := none } }
        { th with pc := .counterRead }
  | uGuardLock : th.pc = .uGuardLock → sh.queue_lock_var.guard ≠ 1 →
      QStep t pick sh th
        { sh with queue_lock_var := { sh.queue_lock_var with guard := 1 } }
        { th with pc := .uClearFlag }
  | uClearFlag : th.pc = .uClearFlag →
      QStep t pick sh th
        { sh with queue_lock_var := { sh.queue_lock_var with flag := 0 } }
        { th with pc := .uMutexLock }
  | uMutexLock : th.pc = .uMutexLock → sh.queue_lock_var.q_mutex = none →
      QStep t pick sh th
        { sh with queue_lock_var := { sh.queue_lock_var with q_mutex := some t } }
        { th with pc := .uSignal }
  | uSignalNone : th.pc = .uSignal → sh.queue_lock_var.cond = [] →
      QStep t pick sh th sh { th with pc := .uMutexUnlock }
  | uSignalWake : th.pc = .uSignal → pick ∈ sh.queue_lock_var.cond →
      QStep t pick sh th
        { sh with queue_lock_var :=
          { sh.queue_lock_var with cond := sh.queue_lock_var.cond.erase pick } }
        { th with pc := .uMutexUnlock }
  | uMutexUnlock : th.pc = .uMutexUnlock →
      QStep t pick sh th
        { sh with queue_lock_var := { sh.queue_lock_var with q_mutex := none } }
        { th with pc := .uGuardRel }
  | uGuardRel : th.pc = .uGuardRel →
      QStep t pick sh th
        { sh with queue_lock_var := { sh.queue_lock_var with guard := 0 } }
        { th with pc := .loopIncr }

/-! ## Predicates on states -/

/-- The three locks made of one `flag`. -/
def isFlagLock : LockType → Bool
  | .SPIN | .CAS | .YIELD => true
  | _ => false

/-- Flag of the lock selected by `current_test_type`, for the three flag locks. -/
def flagOf (sh : Shared) : Int :=
  match sh.current_test_type with
  | .SPIN => sh.spin_lock_var.flag
  | .CAS => sh.cas_lock_var.flag
  | .YIELD => sh.yield_lock_var.flag
  | _ => 0

/-- A thread holds a flag lock when it has left the acquire loop and has not yet
performed the store of 0 of the unlock function. -/
def PC.holdsFlag : PC → Bool
  | .counterRead | .counterWrite | .release => true
  | _ => false

/-- The invariant of a flag lock: `flag` is 0 or 1, it is 1 exactly when exactly one
thread holds the lock, and it is 0 exactly when no thread does. -/
def FlagLockInv (cfg : Config) (flag : Int) (s : State) : Prop :=
  (flag = 0 ∨ flag = 1) ∧
  (flag = 1 ↔ ∃! t, t < cfg.NUM_THREADS ∧ (s.threads t).pc.holdsFlag = true) ∧
  (flag = 0 ↔ ∀ t, t < cfg.NUM_THREADS → (s.threads t).pc.holdsFlag = false)

/-- Ownership form of the flag lock invariant: some `o` is the holder, if any. -/
structure FlagOwn (cfg : Config) (type : LockType) (s : State) : Prop where
  ty : s.sh.current_test_type = type
  idle : ∀ t, cfg.NUM_THREADS ≤ t → s.threads t = workerEntry
  own : ∃ o : Option Nat, flagOf s.sh = (if o.isSome then 1 else 0) ∧
    ∀ t, (s.threads t).pc.holdsFlag = true ↔ o = some t

/-- The state a schedule leads to, or the start state when the schedule cannot run. -/
def stateAfter (cfg : Config) (s : State) (ls : List Label) : State :=
  (run cfg s ls).getD s

/-- Shorthand for the label that lets thread `t` run one step. -/
def go (t : Nat) : Label := .run t 0

/-- The states a schedule passes through, up to the first label that cannot run. -/
def trace (cfg : Config) (s : State) : List Label → List State
  | [] => [s]
  | l :: ls =>
    s :: (match step cfg s l with
      | some s' => trace cfg s' ls
      | none => [])

/-- What is observed of a state of the test-and-set benchmark: flag, counter and the
position and locals of every thread. -/
def spinView (s : State) : Int × Int × (Nat → Thread) :=
  (s.sh.spin_lock_var.flag, s.sh.counter, s.threads)

/-- What is observed of a state of the compare-and-swap benchmark: flag, counter and the
position and locals of every thread. -/
def casView (s : State) : Int × Int × (Nat → Thread) :=
  (s.sh.cas_lock_var.flag, s.sh.counter, s.threads)

/-- Simulation relation between the globals of the CAS and the test-and-set benchmark. -/
def CasSpinRel (sh1 sh2 : Shared) : Prop :=
  sh1.current_test_type = .CAS ∧ sh2.current_test_type = .SPIN ∧
  sh1.cas_lock_var.flag = sh2.spin_lock_var.flag ∧
  (sh1.cas_lock_var.flag = 0 ∨ sh1.cas_lock_var.flag = 1) ∧
  sh1.counter = sh2.counter

/-- The steps of `ticket_step`, one constructor per outcome. -/
inductive TStep (t : Nat) (sh : Shared) (th : Thread) : Shared → Thread → Prop
  | draw : th.pc = .ticketDraw →
      TStep t sh th
        { sh with
          ticket_lock_var := { sh.ticket_lock_var with
            ticket := wrap32 (sh.ticket_lock_var.ticket + 1) },
          hist := { sh.hist with draws := sh.hist.draws ++ [t],
                                 drawn := sh.hist.drawn ++ [sh.ticket_lock_var.ticket] } }
        { th with myturn := sh.ticket_lock_var.ticket, pc := .ticketWait }
  | spin : th.pc = .ticketWait → sh.ticket_lock_var.turn ≠ th.myturn → TStep t sh th sh th
  | grant : th.pc = .ticketWait → sh.ticket_lock_var.turn = th.myturn →
      TStep t sh th
        { sh with hist := { sh.hist with grants := sh.hist.grants ++ [t] } }
        { th with pc := .counterRead }
  | release : th.pc = .ticketRelease →
      TStep t sh th
        { sh with
          ticket_lock_var := { sh.ticket_lock_var with
            turn := wrap32 (sh.ticket_lock_var.turn + 1) },
          hist := { sh.hist with releases := sh.hist.releases ++ [t] } }
        { th with pc := .loopIncr }

/-- A thread has drawn a ticket and has not yet completed `ticket_unlock`. -/
def PC.outstanding : PC → Bool
  | .ticketWait | .counterRead | .counterWrite | .ticketRelease => true
  | _ => false

/-- A thread is past the wait loop of `ticket_lock` and has not yet completed
`ticket_unlock`. -/
def PC.pastWait : PC → Bool
  | .counterRead | .counterWrite | .ticketRelease => true
  | _ => false

/-- The threads whose ticket has not been served yet, in the order of their tickets. -/
def pending (s : State) : List Nat :=
  s.sh.hist.draws.drop s.sh.hist.releases.length

/-- The invariant of the ticket lock. -/
structure TicketInv (cfg : Config) (s : State) : Prop where
  ty : s.sh.current_test_type = .TICKET
  idle : ∀ t, cfg.NUM_THREADS ≤ t → s.threads t = workerEntry
  tk : s.sh.ticket_lock_var.ticket = wrap32 s.sh.hist.draws.length
  tn : s.sh.ticket_lock_var.turn = wrap32 s.sh.hist.releases.length
  le : s.sh.hist.releases.length ≤ s.sh.hist.draws.length
  nd : (pending s).Nodup
  mem : ∀ t, t ∈ pending s ↔ (s.threads t).pc.outstanding = true
  my : ∀ (k t : Nat), (pending s)[k]? = some t →
    (s.threads t).myturn = wrap32 ((s.sh.hist.releases.length + k : Nat) : Int)
  past : ∀ t, (s.threads t).pc.pastWait = true → (pending s).head? = some t
  gr : s.sh.hist.grants = s.sh.hist.draws.take s.sh.hist.grants.length
  gl1 : (∃ t, (s.threads t).pc.pastWait = true) →
    s.sh.hist.grants.length = s.sh.hist.releases.length + 1
  gl0 : (∀ t, (s.threads t).pc.pastWait = false) →
    s.sh.hist.grants.length = s.sh.hist.releases.length
  dv : s.sh.hist.drawn = (List.range s.sh.hist.draws.length).map (fun k : Nat => wrap32 (k : Int))

/-- Thread `t` of the ticket benchmark is at the loop test with index `i` and no ticket is
pending. -/
def TicketIdle (s : State) (t i : Nat) : Prop :=
  s.sh.current_test_type = .TICKET ∧ (s.threads t).pc = .loopTest ∧ (s.threads t).i = i ∧
  s.sh.ticket_lock_var.turn = s.sh.ticket_lock_var.ticket

/-- A benchmark with 2 threads and 2^30 + 1 iterations per thread. -/
def wrapConfig : Config := { NUM_THREADS := 2, NUM_ITERATIONS := 1073741825 }

/-- Thread 0 runs 2^30 iterations, thread 1 runs 2^30 - 1 iterations, then thread 0 and
thread 1 each start an iteration and draw a ticket. -/
def wrapSchedule : List Label :=
  List.replicate (7 * 1073741824) (go 0) ++ List.replicate (7 * 1073741823) (go 1) ++
  [go 0, go 0, go 1, go 1]

/-! ## Progress measure and the invariant of the queue lock -/

/-- Labels that are steps of a thread (not spurious wake-ups). -/
def Label.isRun : Label → Bool
  | .run _ _ => true
  | .spurious _ => false

/-- Number of steps left in the current iteration along the path without waiting;
`waiting` tells whether the thread is in the wait set of the condition variable. -/
def weight (waiting : Bool) : PC → Nat
  | .loopTest => 30
  | .acquire => 29
  | .yielding => 30
  | .ticketDraw => 29
  | .ticketWait => 28
  | .qGuardLock => 29
  | .qTestFlag => 28
  | .qSetFlagFast => 27
  | .qGuardRelFast => 26
  | .qMutexLock => 27
  | .qGuardRelSlow => 26
  | .qWhileTest => 24
  | .qCondWait => 23
  | .qWaiting => if waiting then 22 else 25
  | .qSetFlagSlow => 23
  | .qMutexUnlockSlow => 22
  | .counterRead => 21
  | .counterWrite => 20
  | .release => 19
  | .ticketRelease => 19
  | .uGuardLock => 19
  | .uClearFlag => 18
  | .uMutexLock => 17
  | .uSignal => 16
  | .uMutexUnlock => 12
  | .uGuardRel => 11
  | .loopIncr => 10
  | .done => 0

/-- Bound on the work thread `t` has left. -/
def remaining (cfg : Config) (sh : Shared) (t : Nat) (th : Thread) : Nat :=
  if th.pc = .done then 0
  else (cfg.NUM_ITERATIONS - th.i) * 32 + weight (decide (t ∈ sh.queue_lock_var.cond)) th.pc

/-- Bound on the work all threads have left. -/
def potential (cfg : Config) (s : State) : Nat :=
  Finset.sum (Finset.range cfg.NUM_THREADS) (fun t => remaining cfg s.sh t (s.threads t))

/-- Some thread can take a step that brings the run closer to its end. -/
def Progress (cfg : Config) (s : State) : Prop :=
  ∃ t pick s', step cfg s (.run t pick) = some s' ∧ potential cfg s' < potential cfg s

/-- A thread holds `guard`: between its successful test-and-set and its store of 0. -/
def PC.holdsGuard : PC → Bool
  | .qTestFlag | .qSetFlagFast | .qGuardRelFast | .qMutexLock | .qGuardRelSlow
  | .uClearFlag | .uMutexLock | .uSignal | .uMutexUnlock | .uGuardRel => true
  | _ => false

/-- A thread owns `q_mutex`. -/
def PC.holdsMutex : PC → Bool
  | .qGuardRelSlow | .qWhileTest | .qCondWait | .qSetFlagSlow | .qMutexUnlockSlow
  | .uSignal | .uMutexUnlock => true
  | _ => false

/-- The next step of the thread reads or writes `flag` of the queue lock. -/
def PC.accessesFlag : PC → Bool
  | .qTestFlag | .qSetFlagFast | .qWhileTest | .qSetFlagSlow | .uClearFlag => true
  | _ => false

/-- A thread holds the queue lock: it has returned from `queue_lock` and has not yet
cleared `flag` in `queue_unlock`. -/
def PC.holdsQueue : PC → Bool
  | .counterRead | .counterWrite | .uGuardLock | .uClearFlag => true
  | _ => false

/-- A thread has stored 1 in `flag` and not yet 0. -/
def PC.setFlag : PC → Bool
  | .qGuardRelFast | .qMutexUnlockSlow | .counterRead | .counterWrite | .uGuardLock
  | .uClearFlag => true
  | _ => false

/-- Positions of a worker of the queue benchmark. -/
def PC.queueValid : PC → Bool
  | .acquire | .yielding | .ticketDraw | .ticketWait | .release | .ticketRelease => false
  | _ => true

/-- Positions of a worker of a flag lock benchmark. -/
def PC.flagValid : PC → Bool
  | .loopTest | .acquire | .yielding | .counterRead | .counterWrite | .release | .loopIncr
  | .done => true
  | _ => false

/-- Positions of a worker of the ticket benchmark. -/
def PC.ticketValid : PC → Bool
  | .loopTest | .ticketDraw | .ticketWait | .counterRead | .counterWrite | .ticketRelease
  | .loopIncr | .done => true
  | _ => false

/-- A thread of the queue benchmark that will signal the condition variable or store 1
in `flag` without being woken first. -/
def active (s : State) (t : Nat) : Prop :=
  (s.threads t).pc.setFlag = true ∨ (s.threads t).pc = .uMutexLock ∨
  (s.threads t).pc = .uSignal ∨ (s.threads t).pc = .qWhileTest ∨
  (s.threads t).pc = .qSetFlagSlow ∨
  ((s.threads t).pc = .qWaiting ∧ t ∉ s.sh.queue_lock_var.cond)

/-- Thread `t` is blocked in `pthread_cond_wait`, waiting for a signal. -/
def blockedInCondWait (s : State) (t : Nat) : Prop :=
  (s.threads t).pc = .qWaiting ∧ t ∈ s.sh.queue_lock_var.cond

/-- Thread `t` is blocked on `q_mutex`, owned by another thread. -/
def blockedOnMutex (s : State) (t : Nat) : Prop :=
  ((s.threads t).pc = .qMutexLock ∨ (s.threads t).pc = .uMutexLock ∨
    ((s.threads t).pc = .qWaiting ∧ t ∉ s.sh.queue_lock_var.cond)) ∧
  s.sh.queue_lock_var.q_mutex ≠ none

/-- The invariant of the queue lock. -/
structure QueueInv (cfg : Config) (s : State) : Prop where
  ty : s.sh.current_test_type = .QUEUE
  idle : ∀ t, cfg.NUM_THREADS ≤ t → s.threads t = workerEntry
  valid : ∀ t, (s.threads t).pc.queueValid = true
  gown : ∃ g : Option Nat, s.sh.queue_lock_var.guard = (if g.isSome then 1 else 0) ∧
    ∀ t, (s.threads t).pc.holdsGuard = true ↔ g = some t
  mown : ∀ t, (s.threads t).pc.holdsMutex = true ↔ s.sh.queue_lock_var.q_mutex = some t
  cnd : s.sh.queue_lock_var.cond.Nodup ∧
    ∀ t, t ∈ s.sh.queue_lock_var.cond → (s.threads t).pc = .qWaiting
  flagH : s.sh.queue_lock_var.flag = 1 → ∃ t, (s.threads t).pc.setFlag = true
  wake : (s.sh.queue_lock_var.cond ≠ [] ∨ ∃ t, (s.threads t).pc = .qCondWait) →
    ∃ u, active s u

/-- Thread `t` can take a step that moves it to another position, other than into the
`sched_yield` of a failed attempt. -/
def advances (cfg : Config) (s : State) (t pick : Nat) : Bool :=
  match worker cfg t pick s.sh (s.threads t) with
  | some r => decide (r.2.pc ≠ (s.threads t).pc) && decide (r.2.pc ≠ .yielding)
  | none => false

/-- Positions of the queue lock functions whose next step needs neither `guard` nor
`q_mutex` nor a signal. -/
def PC.queueFree : PC → Bool
  | .qTestFlag | .qSetFlagFast | .qGuardRelFast | .qGuardRelSlow | .qWhileTest | .qCondWait
  | .qSetFlagSlow | .qMutexUnlockSlow | .uClearFlag | .uSignal | .uMutexUnlock
  | .uGuardRel => true
  | _ => false

/-! ## Schedules of the queue benchmark -/

/-- Thread 0 takes the queue lock on the fast path; thread 1 finds it held and takes
the slow path up to the first evaluation of `while (m->flag == 1)`. -/
def slowPathSchedule : List Label :=
  [go 0, go 0, go 0, go 0, go 0,
   go 1, go 1, go 1, go 1, go 1]

/-- Thread 0 takes the queue lock; thread 1 blocks in `pthread_cond_wait`; thread 0
increments the counter, unlocks (waking thread 1) and starts its next iteration up to
`if (m->flag == 0)`; thread 1 re-acquires `q_mutex` and leaves the wait loop; then both
store 1 in `flag` and return from `queue_lock`. -/
def raceSchedule : List Label :=
  slowPathSchedule ++
  [go 1, go 1,
   go 0, go 0, go 0, go 0, go 0, .run 0 1, go 0, go 0, go 0, go 0, go 0, go 0,
   go 1, go 1,
   go 0, go 0, go 1, go 1]

/-- After `raceSchedule` both threads read the counter, both write it, and thread 0
clears `flag` in `queue_unlock` while thread 1 is still before its `queue_unlock`. -/
def lostFlagSchedule : List Label :=
  raceSchedule ++ [go 0, go 1, go 0, go 1, go 0, go 0]

/-- After `lostFlagSchedule` thread 0 and then thread 1 complete the iteration; then
threads 0, 1, 2 and 3 run their remaining iterations one thread after the other, and
every thread leaves the loop. -/
def lostUpdateSchedule : List Label :=
  lostFlagSchedule ++ [go 0, go 0, go 0, go 0, go 0] ++ List.replicate 7 (go 1) ++
  List.replicate (14 * 99998) (go 0) ++ List.replicate (14 * 99999) (go 1) ++
  List.replicate (14 * 100000) (go 2) ++ List.replicate (14 * 100000) (go 3) ++
  [go 0, go 1, go 2, go 3]

/-- The queue lock is free and nobody is inside the lock functions. -/
def QueueFree (s : State) : Prop :=
  s.sh.current_test_type = .QUEUE ∧ s.sh.queue_lock_var.flag = 0 ∧
  s.sh.queue_lock_var.guard = 0 ∧ s.sh.queue_lock_var.cond = [] ∧
  s.sh.queue_lock_var.q_mutex = none

/-- Thread `t` is at the loop test with index `i`. -/
def AtLoop (s : State) (t i : Nat) : Prop :=
  (s.threads t).pc = .loopTest ∧ (s.threads t).i = i

/-! ## The final value of the counter -/

/-- A thread has written the counter in the current iteration and not yet incremented
`i` (benchmarks other than the queue benchmark). -/
def PC.afterWrite : PC → Bool
  | .release | .ticketRelease | .loopIncr => true
  | _ => false

/-- A thread is inside `counter++`. -/
def PC.inIncrement : PC → Bool
  | .counterRead | .counterWrite => true
  | _ => false

/-- Number of increments of the counter a thread has performed. -/
def increments (th : Thread) : Nat :=
  th.i + (if th.pc.afterWrite then 1 else 0)

/-- The invariant of the counter: it is the number of increments performed, a thread
about to write it has read its current value, and no thread runs more than
`NUM_ITERATIONS` iterations. -/
structure CounterInv (cfg : Config) (s : State) : Prop where
  total : s.sh.counter =
    ((Finset.sum (Finset.range cfg.NUM_THREADS) (fun t => increments (s.threads t)) : Nat) : Int)
  fresh : ∀ t, (s.threads t).pc = .counterWrite → (s.threads t).tmp = s.sh.counter
  bound : ∀ t, (s.threads t).i ≤ cfg.NUM_ITERATIONS
  fin : ∀ t, (s.threads t).pc = .done → (s.threads t).i = cfg.NUM_ITERATIONS

/-! ## Steps and runs -/

@[simp] theorem upd_same (f : Nat → Thread) (t : Nat) (th : Thread) : upd f t th t = th := by
  simp [upd]

theorem upd_other (f : Nat → Thread) {t u : Nat} (th : Thread) (h : u ≠ t) :
    upd f t th u = f u := by
  simp [upd, h]

theorem step_run_inv {cfg : Config} {s s' : State} {t pick : Nat}
    (h : step cfg s (.run t pick) = some s') :
    t < cfg.NUM_THREADS ∧ ∃ sh' th', worker cfg t pick s.sh (s.threads t) = some (sh', th') ∧
      s' = { sh := sh', threads := upd s.threads t th' } := by
  simp only [step] at h
  split at h
  · rename_i ht
    split at h
    · rename_i r hr
      refine ⟨ht, r.1, r.2, ?_, ?_⟩
      · simpa using hr
      · simpa using h.symm
    · simp at h
  · simp at h

theorem step_spurious_inv {cfg : Config} {s s' : State} {t : Nat}
    (h : step cfg s (.spurious t) = some s') :
    s.sh.current_test_type = .QUEUE ∧ t ∈ s.sh.queue_lock_var.cond ∧
      s' = { s with sh := { s.sh with queue_lock_var :=
        { s.sh.queue_lock_var with cond := s.sh.queue_lock_var.cond.erase t } } } := by
  simp only [step, spuriousWake] at h
  split at h
  · rename_i sh hsh
    split at hsh
    · rename_i hc
      simp at hsh h
      subst hsh
      exact ⟨hc.1, hc.2, h.symm⟩
    · simp at hsh
  · simp at h

/-- The steps of `worker` outside the lock functions. -/
theorem worker_cases {cfg : Config} {t pick : Nat} {sh sh' : Shared} {th th' : Thread}
    (h : worker cfg t pick sh th = some (sh', th')) :
    (th.pc = .loopTest ∧ th.i < cfg.NUM_ITERATIONS ∧ sh' = sh ∧
        th' = { th with pc := lockEntry sh.current_test_type }) ∨
    (th.pc = .loopTest ∧ ¬ th.i < cfg.NUM_ITERATIONS ∧ sh' = sh ∧
        th' = { th with pc := .done }) ∨
    (th.pc = .counterRead ∧ sh' = sh ∧ th' = { th with tmp := sh.counter, pc := .counterWrite }) ∨
    (th.pc = .counterWrite ∧ sh' = { sh with counter := wrap32 (th.tmp + 1) } ∧
        th' = { th with pc := unlockEntry sh.current_test_type }) ∨
    (th.pc = .loopIncr ∧ sh' = sh ∧ th' = { th with i := th.i + 1, pc := .loopTest }) ∨
    (th.pc ≠ .loopTest ∧ th.pc ≠ .counterRead ∧ th.pc ≠ .counterWrite ∧ th.pc ≠ .loopIncr ∧
      th.pc ≠ .done ∧
      ((sh.current_test_type = .SPIN ∧ spin_step sh th = some (sh', th')) ∨
       (sh.current_test_type = .CAS ∧ cas_step sh th = some (sh', th')) ∨
       (sh.current_test_type = .TICKET ∧ ticket_step t sh th = some (sh', th')) ∨
       (sh.current_test_type = .YIELD ∧ yield_step sh th = some (sh', th')) ∨
       (sh.current_test_type = .QUEUE ∧ queue_step t pick sh th = some (sh', th')))) := by
  unfold worker at h
  split at h
  · rename_i hpc
    split at h <;> simp at h <;> obtain ⟨rfl, rfl⟩ := h <;> simp [hpc, *]
  · rename_i hpc; simp at h; obtain ⟨rfl, rfl⟩ := h; simp [hpc]
  · rename_i hpc; simp at h; obtain ⟨rfl, rfl⟩ := h; simp [hpc]
  · rename_i hpc; simp at h; obtain ⟨rfl, rfl⟩ := h; simp [hpc]
  · simp at h
  · rename_i h1 h2 h3 h4 h5
    right; right; right; right; right
    refine ⟨h1, h2, h3, h4, h5, ?_⟩
    split at h <;> simp_all

/-- Every step of `queue_step` is one of the outcomes of `QStep`. -/
theorem queue_step_inv {t pick : Nat} {sh sh' : Shared} {th th' : Thread}
    (h : queue_step t pick sh th = some (sh', th')) : QStep t pick sh th sh' th' := by
  unfold queue_step at h
  dsimp only at h
  split at h
  · rename_i hpc
    simp only [sync_lock_test_and_set, Option.some.injEq, Prod.mk.injEq] at h
    obtain ⟨rfl, rfl⟩ := h
    by_cases hg : sh.queue_lock_var.guard = 1
    · simp only [hg, if_true]
      exact QStep.guardSpin _ (Or.inl hpc) hg hpc.symm
    · simp only [hg, if_false]
      exact QStep.qGuardLock hpc hg
  · rename_i hpc
    simp only [Option.some.injEq, Prod.mk.injEq] at h
    obtain ⟨rfl, rfl⟩ := h
    by_cases hf : sh.queue_lock_var.flag = 0
    · simp only [hf, if_true]; exact QStep.qTestFree hpc hf
    · simp only [hf, if_false]; exact QStep.qTestHeld hpc hf
  · rename_i hpc
    simp only [Option.some.injEq, Prod.mk.injEq] at h
    obtain ⟨rfl, rfl⟩ := h
    exact QStep.qSetFlagFast hpc
  · rename_i hpc
    simp only [Option.some.injEq, Prod.mk.injEq] at h
    obtain ⟨rfl, rfl⟩ := h
    exact QStep.qGuardRelFast hpc
  · rename_i hpc
    split at h
    · rename_i hm
      simp only [Option.some.injEq, Prod.mk.injEq] at h
      obtain ⟨rfl, rfl⟩ := h
      exact QStep.qMutexLock hpc hm
    · simp at h
  · rename_i hpc
    simp only [Option.some.injEq, Prod.mk.injEq] at h
    obtain ⟨rfl, rfl⟩ := h
    exact QStep.qGuardRelSlow hpc
  · rename_i hpc
    simp only [Option.some.injEq, Prod.mk.injEq] at h
    obtain ⟨rfl, rfl⟩ := h
    by_cases hf : sh.queue_lock_var.flag = 1
    · simp only [hf, if_true]; exact QStep.qWhileHeld hpc hf
    · simp only [hf, if_false]; exact QStep.qWhileFree hpc hf
  · rename_i hpc
    simp only [Option.some.injEq, Prod.mk.injEq] at h
    obtain ⟨rfl, rfl⟩ := h
    exact QStep.qCondWait hpc
  · rename_i hpc
    split at h
    · simp at h
    · rename_i hc
      split at h
      · rename_i hm
        simp only [Option.some.injEq, Prod.mk.injEq] at h
        obtain ⟨rfl, rfl⟩ := h
        exact QStep.qWake hpc hc hm
      · simp at h
  · rename_i hpc
    simp only [Option.some.injEq, Prod.mk.injEq] at h
    obtain ⟨rfl, rfl⟩ := h
    exact QStep.qSetFlagSlow hpc
  · rename_i hpc
    simp only [Option.some.injEq, Prod.mk.injEq] at h
    obtain ⟨rfl, rfl⟩ := h
    exact QStep.qMutexUnlockSlow hpc
  · rename_i hpc
    simp only [sync_lock_test_and_set, Option.some.injEq, Prod.mk.injEq] at h
    obtain ⟨rfl, rfl⟩ := h
    by_cases hg : sh.queue_lock_var.guard = 1
    · simp only [hg, if_true]
      exact QStep.guardSpin _ (Or.inr hpc) hg hpc.symm
    · simp only [hg, if_false]
      exact QStep.uGuardLock hpc hg
  · rename_i hpc
    simp only [Option.some.injEq, Prod.mk.injEq] at h
    obtain ⟨rfl, rfl⟩ := h
    exact QStep.uClearFlag hpc
  · rename_i hpc
    split at h
    · rename_i hm
      simp only [Option.some.injEq, Prod.mk.injEq] at h
      obtain ⟨rfl, rfl⟩ := h
      exact QStep.uMutexLock hpc hm
    · simp at h
  · rename_i hpc
    split at h
    · rename_i hc
      simp only [Option.some.injEq, Prod.mk.injEq] at h
      obtain ⟨rfl, rfl⟩ := h
      exact QStep.uSignalNone hpc hc
    · split at h
      · rename_i hm
        simp only [Option.some.injEq, Prod.mk.injEq] at h
        obtain ⟨rfl, rfl⟩ := h
        exact QStep.uSignalWake hpc hm
      · simp at h
  · rename_i hpc
    simp only [Option.some.injEq, Prod.mk.injEq] at h
    obtain ⟨rfl, rfl⟩ := h
    exact QStep.uMutexUnlock hpc
  · rename_i hpc
    simp only [Option.some.injEq, Prod.mk.injEq] at h
    obtain ⟨rfl, rfl⟩ := h
    exact QStep.uGuardRel hpc
  · simp at h

/-- No step changes `current_test_type` within a run. -/
theorem worker_type {cfg : Config} {t pick : Nat} {sh sh' : Shared} {th th' : Thread}
    (h : worker cfg t pick sh th = some (sh', th')) :
    sh'.current_test_type = sh.current_test_type := by
  rcases worker_cases h with ⟨_, _, rfl, rfl⟩ | ⟨_, _, rfl, rfl⟩ | ⟨_, rfl, rfl⟩ |
    ⟨_, rfl, rfl⟩ | ⟨_, rfl, rfl⟩ | ⟨_, _, _, _, _, hl⟩
  · rfl
  · rfl
  · rfl
  · rfl
  · rfl
  · rcases hl with ⟨_, hl⟩ | ⟨_, hl⟩ | ⟨_, hl⟩ | ⟨_, hl⟩ | ⟨_, hl⟩
    · unfold spin_step at hl
      split at hl <;> simp at hl <;> obtain ⟨rfl, rfl⟩ := hl <;> rfl
    · unfold cas_step at hl
      split at hl <;> simp at hl <;> obtain ⟨rfl, rfl⟩ := hl <;> rfl
    · unfold ticket_step at hl
      split at hl
      · simp at hl; obtain ⟨rfl, rfl⟩ := hl; rfl
      · split at hl <;> simp at hl <;> obtain ⟨rfl, rfl⟩ := hl <;> rfl
      · simp at hl; obtain ⟨rfl, rfl⟩ := hl; rfl
      · simp at hl
    · unfold yield_step at hl
      split at hl <;> simp at hl <;> obtain ⟨rfl, rfl⟩ := hl <;> rfl
    · cases queue_step_inv hl <;> rfl

/-- Induction over the states of a run, one label at a time. -/
theorem Reachable.rec_on_steps {cfg : Config} {type : LockType} {prev : Shared}
    (P : State → Prop) (h0 : P (run_test type prev))
    (hrun : ∀ (s : State) (t pick : Nat) (sh' : Shared) (th' : Thread),
      Reachable cfg type prev s → P s → t < cfg.NUM_THREADS →
      worker cfg t pick s.sh (s.threads t) = some (sh', th') →
      P { sh := sh', threads := upd s.threads t th' })
    (hsp : ∀ (s : State) (t : Nat), Reachable cfg type prev s → P s →
      s.sh.current_test_type = .QUEUE → t ∈ s.sh.queue_lock_var.cond →
      P { s with sh := { s.sh with queue_lock_var :=
        { s.sh.queue_lock_var with cond := s.sh.queue_lock_var.cond.erase t } } })
    {s : State} (hs : Reachable cfg type prev s) : P s := by
  induction hs with
  | init => exact h0
  | step l hr hstep ih =>
    cases l with
    | run t pick =>
      obtain ⟨ht, sh', th', hw, rfl⟩ := step_run_inv hstep
      exact hrun _ t pick sh' th' hr ih ht hw
    | spurious t =>
      obtain ⟨hq, hm, rfl⟩ := step_spurious_inv hstep
      exact hsp _ t hr ih hq hm

theorem run_test_type (type : LockType) (prev : Shared) :
    (run_test type prev).sh.current_test_type = type := by
  cases type <;> rfl

/-- Within a run `current_test_type` is the variant passed to `run_test`. -/
theorem reachable_type {cfg : Config} {type : LockType} {prev : Shared} {s : State}
    (hs : Reachable cfg type prev s) : s.sh.current_test_type = type := by
  refine Reachable.rec_on_steps (fun s => s.sh.current_test_type = type)
    (run_test_type type prev) ?_ ?_ hs
  · intro s t pick sh' th' _ ih _ hw
    simpa [worker_type hw] using ih
  · intro s t _ ih _ _
    simpa using ih

/-- Threads beyond `NUM_THREADS` never move. -/
theorem reachable_idle {cfg : Config} {type : LockType} {prev : Shared} {s : State}
    (hs : Reachable cfg type prev s) :
    ∀ t, cfg.NUM_THREADS ≤ t → s.threads t = workerEntry := by
  refine Reachable.rec_on_steps (fun s => ∀ t, cfg.NUM_THREADS ≤ t → s.threads t = workerEntry)
    (fun _ _ => rfl) ?_ ?_ hs
  · intro s t pick sh' th' _ ih ht _ u hu
    have : u ≠ t := by omega
    simpa [upd_other _ _ this] using ih u hu
  · intro s t _ ih _ _ u hu
    exact ih u hu

/-- A schedule that runs from a reachable state ends in a reachable state. -/
theorem reachable_run {cfg : Config} {type : LockType} {prev : Shared} {s s' : State}
    (ls : List Label) (hs : Reachable cfg type prev s) (h : run cfg s ls = some s') :
    Reachable cfg type prev s' := by
  induction ls generalizing s with
  | nil => simp [run] at h; subst h; exact hs
  | cons l ls ih =>
    simp only [run] at h
    split at h
    · rename_i s1 hs1
      exact ih (Reachable.step l hs hs1) h
    · simp at h

/-- Running two schedules one after the other. -/
theorem run_append {cfg : Config} {s s1 s2 : State} {l1 l2 : List Label}
    (h1 : run cfg s l1 = some s1) (h2 : run cfg s1 l2 = some s2) :
    run cfg s (l1 ++ l2) = some s2 := by
  induction l1 generalizing s with
  | nil => simp [run] at h1; subst h1; simpa using h2
  | cons l ls ih =>
    rw [List.cons_append]
    simp only [run] at h1 ⊢
    cases hst : step cfg s l with
    | none => simp [hst] at h1
    | some s' =>
      simp only [hst] at h1 ⊢
      exact ih h1

/-! ## The flag locks -/

/-- Steps of a worker under one of the three flag locks, in terms of the selected flag. -/
theorem flag_step_cases {cfg : Config} {t pick : Nat} {sh sh' : Shared} {th th' : Thread}
    (hf : isFlagLock sh.current_test_type = true)
    (h : worker cfg t pick sh th = some (sh', th')) :
    sh'.current_test_type = sh.current_test_type ∧ sh'.hist = sh.hist ∧
    ((th.pc = .loopTest ∧ th.i < cfg.NUM_ITERATIONS ∧ sh' = sh ∧ th' = { th with pc := .acquire }) ∨
     (th.pc = .loopTest ∧ ¬ th.i < cfg.NUM_ITERATIONS ∧ sh' = sh ∧ th' = { th with pc := .done }) ∨
     (th.pc = .counterRead ∧ sh' = sh ∧ th' = { th with tmp := sh.counter, pc := .counterWrite }) ∨
     (th.pc = .counterWrite ∧ sh'.counter = wrap32 (th.tmp + 1) ∧ flagOf sh' = flagOf sh ∧
        th' = { th with pc := .release }) ∨
     (th.pc = .loopIncr ∧ sh' = sh ∧ th' = { th with i := th.i + 1, pc := .loopTest }) ∨
     (th.pc = .acquire ∧ flagOf sh = 1 ∧ flagOf sh' = 1 ∧ sh'.counter = sh.counter ∧
        th' = { th with pc := if sh.current_test_type = .YIELD then .yielding else .acquire }) ∨
     (th.pc = .acquire ∧ flagOf sh ≠ 1 ∧ sh'.counter = sh.counter ∧
        flagOf sh' = (if sh.current_test_type = .CAS ∧ flagOf sh ≠ 0 then flagOf sh else 1) ∧
        th' = { th with pc := .counterRead }) ∨
     (th.pc = .yielding ∧ sh.current_test_type = .YIELD ∧ sh' = sh ∧
        th' = { th with pc := .acquire }) ∨
     (th.pc = .release ∧ flagOf sh' = 0 ∧ sh'.counter = sh.counter ∧
        th' = { th with pc := .loopIncr })) := by
  rcases worker_cases h with ⟨h1, h2, rfl, rfl⟩ | ⟨h1, h2, rfl, rfl⟩ | ⟨h1, rfl, rfl⟩ |
    ⟨h1, rfl, rfl⟩ | ⟨h1, rfl, rfl⟩ | ⟨n1, n2, n3, n4, n5, hl⟩
  · refine ⟨rfl, rfl, Or.inl ⟨h1, h2, rfl, ?_⟩⟩
    cases hty : sh'.current_test_type <;> simp_all [isFlagLock, lockEntry]
  · exact ⟨rfl, rfl, Or.inr (Or.inl ⟨h1, h2, rfl, rfl⟩)⟩
  · exact ⟨rfl, rfl, Or.inr (Or.inr (Or.inl ⟨h1, rfl, rfl⟩))⟩
  · refine ⟨rfl, rfl, Or.inr (Or.inr (Or.inr (Or.inl ⟨h1, rfl, ?_, ?_⟩)))⟩
    · simp [flagOf]
    · cases hty : sh.current_test_type <;> simp_all [isFlagLock, unlockEntry]
  · exact ⟨rfl, rfl, Or.inr (Or.inr (Or.inr (Or.inr (Or.inl ⟨h1, rfl, rfl⟩))))⟩
  · rcases hl with ⟨hty, hl⟩ | ⟨hty, hl⟩ | ⟨hty, hl⟩ | ⟨hty, hl⟩ | ⟨hty, hl⟩
    · unfold spin_step at hl
      split at hl
      · rename_i hpc
        simp [spinlock_lock, sync_lock_test_and_set] at hl
        obtain ⟨rfl, rfl⟩ := hl
        by_cases hfl : sh.spin_lock_var.flag = 1 <;> simp [flagOf, hty, hpc, hfl]
      · rename_i hpc
        simp [spinlock_unlock] at hl
        obtain ⟨rfl, rfl⟩ := hl
        simp [flagOf, hty, hpc]
      · simp at hl
    · unfold cas_step at hl
      split at hl
      · rename_i hpc
        simp [cas_lock, sync_val_compare_and_swap] at hl
        obtain ⟨rfl, rfl⟩ := hl
        by_cases hfl : sh.cas_lock_var.flag = 1
        · simp [flagOf, hty, hpc, hfl]
        · by_cases hf0 : sh.cas_lock_var.flag = 0 <;> simp [flagOf, hty, hpc, hfl, hf0]
      · rename_i hpc
        simp [cas_unlock] at hl
        obtain ⟨rfl, rfl⟩ := hl
        simp [flagOf, hty, hpc]
      · simp at hl
    · simp [hty, isFlagLock] at hf
    · unfold yield_step at hl
      split at hl
      · rename_i hpc
        simp [yield_lock, sync_lock_test_and_set] at hl
        obtain ⟨rfl, rfl⟩ := hl
        by_cases hfl : sh.yield_lock_var.flag = 1 <;> simp [flagOf, hty, hpc, hfl]
      · rename_i hpc
        simp at hl
        obtain ⟨rfl, rfl⟩ := hl
        simp [hty, hpc]
      · rename_i hpc
        simp [yield_unlock] at hl
        obtain ⟨rfl, rfl⟩ := hl
        simp [flagOf, hty, hpc]
      · simp at hl
    · simp [hty, isFlagLock] at hf

theorem flagOf_run_test {type : LockType} (prev : Shared) (h : isFlagLock type = true) :
    flagOf (run_test type prev).sh = 0 := by
  cases type <;> simp [isFlagLock] at h <;> rfl

/-- A step that keeps thread `t` on the same side of the lock keeps the owner. -/
theorem own_keep {threads : Nat → Thread} {o : Option Nat} {t : Nat} {th' : Thread}
    (hown : ∀ u, (threads u).pc.holdsFlag = true ↔ o = some u)
    (hpc : th'.pc.holdsFlag = (threads t).pc.holdsFlag) :
    ∀ u, (upd threads t th' u).pc.holdsFlag = true ↔ o = some u := by
  intro u
  by_cases hu : u = t
  · subst hu; simp [hpc, hown]
  · simp [upd_other _ _ hu, hown]

/-- Ownership invariant of the three flag locks. -/
theorem flag_own {cfg : Config} {type : LockType} {prev : Shared} {s : State}
    (hf : isFlagLock type = true) (hs : Reachable cfg type prev s) : FlagOwn cfg type s := by
  refine ⟨reachable_type hs, reachable_idle hs, ?_⟩
  refine @Reachable.rec_on_steps cfg type prev
    (fun s => ∃ o : Option Nat, flagOf s.sh = (if o.isSome then 1 else 0) ∧
      ∀ t, (s.threads t).pc.holdsFlag = true ↔ o = some t) ?_ ?_ ?_ s hs
  · exact ⟨none, by simp [flagOf_run_test prev hf], fun t => by simp [run_test, workerEntry, PC.holdsFlag]⟩
  · intro s t pick sh' th' hr ih ht hw
    obtain ⟨o, hfl, hown⟩ := ih
    have hty := reachable_type hr
    have hf' : isFlagLock s.sh.current_test_type = true := by rw [hty]; exact hf
    obtain ⟨hty', -, hc⟩ := flag_step_cases hf' hw
    rcases hc with ⟨h1, h2, rfl, rfl⟩ | ⟨h1, h2, rfl, rfl⟩ | ⟨h1, rfl, rfl⟩ |
      ⟨h1, h2, h3, rfl⟩ | ⟨h1, rfl, rfl⟩ | ⟨h1, h2, h3, h4, rfl⟩ | ⟨h1, h2, h3, h4, rfl⟩ |
      ⟨h1, h2, rfl, rfl⟩ | ⟨h1, h2, h3, rfl⟩
    · exact ⟨o, hfl, own_keep hown (by simp [h1, PC.holdsFlag])⟩
    · exact ⟨o, hfl, own_keep hown (by simp [h1, PC.holdsFlag])⟩
    · exact ⟨o, hfl, own_keep hown (by simp [h1, PC.holdsFlag])⟩
    · exact ⟨o, by simpa [h3] using hfl, own_keep hown (by simp [h1, PC.holdsFlag])⟩
    · exact ⟨o, hfl, own_keep hown (by simp [h1, PC.holdsFlag])⟩
    · refine ⟨o, by simpa [h3, h2] using hfl, own_keep hown ?_⟩
      by_cases hy : s.sh.current_test_type = .YIELD <;> simp [h1, hy, PC.holdsFlag]
    · have ho : o = none := by
        cases o with
        | none => rfl
        | some x => simp at hfl; exact absurd hfl h2
      subst ho
      have h0 : flagOf s.sh = 0 := by simpa using hfl
      refine ⟨some t, by simp [h4, h0], ?_⟩
      intro u
      by_cases hu : u = t
      · subst hu; simp [PC.holdsFlag]
      · have := hown u
        simp only [reduceCtorEq, iff_false] at this
        simp [upd_other _ _ hu, this, Ne.symm hu]
    · exact ⟨o, hfl, own_keep hown (by simp [h1, PC.holdsFlag])⟩
    · have ho : o = some t := (hown t).1 (by simp [h1, PC.holdsFlag])
      subst ho
      refine ⟨none, by simp [h2], ?_⟩
      intro u
      by_cases hu : u = t
      · subst hu; simp [PC.holdsFlag]
      · have := hown u
        simp [upd_other _ _ hu, this, Ne.symm hu]
  · intro s t hr ih hq hm
    have hty := reachable_type hr
    rw [hty] at hq
    subst hq
    simp [isFlagLock] at hf

/-- The ownership form implies the flag lock invariant `FlagLockInv`. -/
theorem flagLockInv_of_own {cfg : Config} {type : LockType} {s : State}
    (h : FlagOwn cfg type s) : FlagLockInv cfg (flagOf s.sh) s := by
  obtain ⟨o, hfl, hown⟩ := h.own
  have hidle := h.idle
  have hlt : ∀ t, (s.threads t).pc.holdsFlag = true → t < cfg.NUM_THREADS := by
    intro t ht
    by_contra hge
    have := hidle t (by omega)
    rw [this] at ht
    simp [workerEntry, PC.holdsFlag] at ht
  cases o with
  | none =>
    have h0 : flagOf s.sh = 0 := by simpa using hfl
    have hno : ∀ t, (s.threads t).pc.holdsFlag = false := by
      intro t
      have := hown t
      simp only [reduceCtorEq, iff_false] at this
      simpa using this
    refine ⟨Or.inl h0, ?_, ?_⟩
    · constructor
      · intro h1; omega
      · rintro ⟨t, ⟨-, ht⟩, -⟩
        rw [hno t] at ht
        simp at ht
    · simp [h0, hno]
  | some x =>
    have h1 : flagOf s.sh = 1 := by simpa using hfl
    have hx : (s.threads x).pc.holdsFlag = true := (hown x).2 rfl
    refine ⟨Or.inr h1, ?_, ?_⟩
    · simp only [h1, true_iff]
      refine ⟨x, ⟨hlt x hx, hx⟩, ?_⟩
      rintro y ⟨-, hy⟩
      have := (hown y).1 hy
      simpa using this.symm
    · constructor
      · intro h0; omega
      · intro hall
        have := hall x (hlt x hx)
        rw [hx] at this
        simp at this

theorem flagOf_spin {sh : Shared} (h : sh.current_test_type = .SPIN) :
    flagOf sh = sh.spin_lock_var.flag := by simp [flagOf, h]

theorem flagOf_cas {sh : Shared} (h : sh.current_test_type = .CAS) :
    flagOf sh = sh.cas_lock_var.flag := by simp [flagOf, h]

theorem flagOf_yield {sh : Shared} (h : sh.current_test_type = .YIELD) :
    flagOf sh = sh.yield_lock_var.flag := by simp [flagOf, h]

/-- Under the CAS lock a step that takes `flag` from 0 to 1 is a successful
compare-and-swap of a thread in the acquire loop. -/
theorem cas_flag_rise {cfg : Config} {prev : Shared} {s s' : State} {l : Label}
    (hs : Reachable cfg .CAS prev s) (hstep : step cfg s l = some s')
    (h0 : s.sh.cas_lock_var.flag = 0) (h1 : s'.sh.cas_lock_var.flag = 1) :
    ∃ t pick, l = .run t pick ∧ (s.threads t).pc = .acquire ∧
      sync_val_compare_and_swap s.sh.cas_lock_var.flag 0 1 = (0, 1) ∧
      (s'.threads t).pc = .counterRead := by
  have hty := reachable_type hs
  cases l with
  | spurious t =>
    obtain ⟨hq, -, -⟩ := step_spurious_inv hstep
    rw [hty] at hq
    cases hq
  | run t pick =>
    obtain ⟨ht, sh', th', hw, rfl⟩ := step_run_inv hstep
    have hf' : isFlagLock s.sh.current_test_type = true := by rw [hty]; rfl
    obtain ⟨hty', -, hc⟩ := flag_step_cases hf' hw
    have e0 : flagOf s.sh = 0 := by rw [flagOf_cas hty, h0]
    have e1 : flagOf sh' = 1 := by rw [flagOf_cas (hty'.trans hty)]; exact h1
    refine ⟨t, pick, rfl, ?_⟩
    rcases hc with ⟨_, _, rfl, rfl⟩ | ⟨_, _, rfl, rfl⟩ | ⟨_, rfl, rfl⟩ |
      ⟨_, _, h3, rfl⟩ | ⟨_, rfl, rfl⟩ | ⟨_, h2, _, _, rfl⟩ | ⟨hpc, _, _, _, rfl⟩ |
      ⟨_, _, rfl, rfl⟩ | ⟨_, h2, _, rfl⟩
    · omega
    · omega
    · omega
    · omega
    · omega
    · omega
    · exact ⟨hpc, by simp [sync_val_compare_and_swap, h0], by simp⟩
    · omega
    · omega

/-- C4: for each of the test-and-set, compare-and-swap and yield locks, in every state
of a run the flag is 0 or 1, it is 1 exactly when exactly one thread holds the lock
(has left the acquire loop and not yet stored 0 in unlock), it is 0 exactly when no
thread holds it, and under the CAS lock the flag goes from 0 to 1 only by a successful
compare-and-swap(0 -> 1) of a thread in the acquire loop. -/
theorem C4_flag_lock_invariant (cfg : Config) (type : LockType) (prev : Shared) (s : State)
    (hs : Reachable cfg type prev s) :
    (type = .SPIN → FlagLockInv cfg s.sh.spin_lock_var.flag s) ∧
    (type = .CAS → FlagLockInv cfg s.sh.cas_lock_var.flag s ∧
      ∀ l s', step cfg s l = some s' → s.sh.cas_lock_var.flag = 0 →
        s'.sh.cas_lock_var.flag = 1 →
        ∃ t pick, l = .run t pick ∧ (s.threads t).pc = .acquire ∧
          sync_val_compare_and_swap s.sh.cas_lock_var.flag 0 1 = (0, 1) ∧
          (s'.threads t).pc = .counterRead) ∧
    (type = .YIELD → FlagLockInv cfg s.sh.yield_lock_var.flag s) := by
  refine ⟨?_, ?_, ?_⟩
  · rintro rfl
    have h := flagLockInv_of_own (flag_own (by rfl) hs)
    rwa [flagOf_spin (reachable_type hs)] at h
  · rintro rfl
    have h := flagLockInv_of_own (flag_own (by rfl) hs)
    rw [flagOf_cas (reachable_type hs)] at h
    exact ⟨h, fun l s' hstep h0 h1 => cas_flag_rise hs hstep h0 h1⟩
  · rintro rfl
    have h := flagLockInv_of_own (flag_own (by rfl) hs)
    rwa [flagOf_yield (reachable_type hs)] at h

theorem run_stateAfter {cfg : Config} {s : State} {ls : List Label}
    (h : (run cfg s ls).isSome = true) : run cfg s ls = some (stateAfter cfg s ls) := by
  unfold stateAfter
  cases hr : run cfg s ls with
  | none => simp [hr] at h
  | some x => rfl

/-- A schedule that runs from the start of `run_test` leads to a state of the run. -/
theorem reachable_stateAfter {cfg : Config} {type : LockType} {prev : Shared}
    {ls : List Label} (h : (run cfg (run_test type prev) ls).isSome = true) :
    Reachable cfg type prev (stateAfter cfg (run_test type prev) ls) :=
  reachable_run ls Reachable.init (run_stateAfter h)

/-- Witness of C4: the CAS benchmark of the source after thread 0 has entered the
critical section and thread 1 has failed one compare-and-swap. -/
theorem C4_flag_lock_invariant_witness :
    Reachable sourceConfig .CAS programStart
      (stateAfter sourceConfig (run_test .CAS programStart) [go 0, go 0, go 1, go 1]) ∧
    FlagLockInv sourceConfig
      (stateAfter sourceConfig (run_test .CAS programStart)
        [go 0, go 0, go 1, go 1]).sh.cas_lock_var.flag
      (stateAfter sourceConfig (run_test .CAS programStart) [go 0, go 0, go 1, go 1]) :=
  ⟨reachable_stateAfter (by decide),
   ((C4_flag_lock_invariant sourceConfig .CAS programStart _
      (reachable_stateAfter (by decide))).2.1 rfl).1⟩

/-! ## Compare-and-swap against test-and-set -/

/-- One step of a thread with the same local state under the two locks. -/
theorem worker_cas_spin (cfg : Config) (t pick : Nat) {sh1 sh2 : Shared} (th : Thread)
    (hr : CasSpinRel sh1 sh2) :
    match worker cfg t pick sh1 th, worker cfg t pick sh2 th with
    | none, none => True
    | some r1, some r2 => r1.2 = r2.2 ∧ CasSpinRel r1.1 r2.1
    | _, _ => False := by
  obtain ⟨h1, h2, hfl, h01, hc⟩ := hr
  by_cases hi : th.i < cfg.NUM_ITERATIONS <;> rcases h01 with h0 | h0 <;>
    cases hpc : th.pc <;>
    simp [worker, cas_step, spin_step, hpc, h1, h2, lockEntry, unlockEntry, CasSpinRel,
      cas_lock, spinlock_lock, cas_unlock, spinlock_unlock, sync_val_compare_and_swap,
      sync_lock_test_and_set, hc, ← hfl, h0, hi]

/-- The two benchmarks move in lockstep under every label. -/
theorem step_cas_spin (cfg : Config) {s1 s2 : State} (l : Label)
    (hr : CasSpinRel s1.sh s2.sh) (hth : s1.threads = s2.threads) :
    match step cfg s1 l, step cfg s2 l with
    | none, none => True
    | some s1', some s2' => CasSpinRel s1'.sh s2'.sh ∧ s1'.threads = s2'.threads
    | _, _ => False := by
  cases l with
  | spurious t =>
    simp [step, spuriousWake, hr.1, hr.2.1]
  | run t pick =>
    by_cases ht : t < cfg.NUM_THREADS
    · have hw := worker_cas_spin cfg t pick (s1.threads t) hr
      simp only [step, ht, if_true, ← hth]
      cases e1 : worker cfg t pick s1.sh (s1.threads t) with
      | none =>
        cases e2 : worker cfg t pick s2.sh (s1.threads t) with
        | none => simp
        | some r2 => simp [e1, e2] at hw
      | some r1 =>
        cases e2 : worker cfg t pick s2.sh (s1.threads t) with
        | none => simp [e1, e2] at hw
        | some r2 =>
          simp only [e1, e2] at hw
          simp [hw.1, hw.2]
    · simp [step, ht]

theorem trace_cas_spin {cfg : Config} (ls : List Label) {s1 s2 : State}
    (hr : CasSpinRel s1.sh s2.sh) (hth : s1.threads = s2.threads) :
    (trace cfg s1 ls).map casView = (trace cfg s2 ls).map spinView := by
  induction ls generalizing s1 s2 with
  | nil => simp [trace, casView, spinView, hr.2.2.1, hr.2.2.2.2, hth]
  | cons l ls ih =>
    have hv : casView s1 = spinView s2 := by
      simp [casView, spinView, hr.2.2.1, hr.2.2.2.2, hth]
    have hst := step_cas_spin cfg l hr hth
    cases e1 : step cfg s1 l with
    | none =>
      cases e2 : step cfg s2 l with
      | none => simp [trace, e1, e2, hv]
      | some x2 => simp [e1, e2] at hst
    | some x1 =>
      cases e2 : step cfg s2 l with
      | none => simp [e1, e2] at hst
      | some x2 =>
        simp only [e1, e2] at hst
        simp [trace, e1, e2, hv, ih hst.1 hst.2]

/-- C9: on the flag values of an initialised lock (0 and 1) one acquire attempt of
`cas_lock` and one of `spinlock_lock` take the same decision and leave the same flag,
`cas_unlock` and `spinlock_unlock` leave the same flag, and for every schedule the CAS
benchmark and the test-and-set benchmark pass through the same sequence of
(flag, counter, per-thread state) observations. -/
theorem C9_cas_equivalent_to_test_and_set (cfg : Config) (prev1 prev2 : Shared)
    (ls : List Label) :
    ((cas_lock { flag := 0 }).2 = (spinlock_lock { flag := 0 }).2 ∧
      (cas_lock { flag := 0 }).1.flag = (spinlock_lock { flag := 0 }).1.flag) ∧
    ((cas_lock { flag := 1 }).2 = (spinlock_lock { flag := 1 }).2 ∧
      (cas_lock { flag := 1 }).1.flag = (spinlock_lock { flag := 1 }).1.flag) ∧
    (∀ v : Int, (cas_unlock { flag := v }).flag = (spinlock_unlock { flag := v }).flag) ∧
    (trace cfg (run_test .CAS prev1) ls).map casView =
      (trace cfg (run_test .SPIN prev2) ls).map spinView := by
  refine ⟨by decide, by decide, fun v => rfl, ?_⟩
  apply trace_cas_spin
  · simp [CasSpinRel, run_test, run_test_setup, cas_init, spinlock_init]
  · rfl

/-- C10 (as stated) fails: with `flag == 2` the compare-and-swap fails and leaves the flag
unchanged, yet the loop of `cas_lock` is left. -/
theorem C10_counterexample :
    (cas_lock { flag := 2 }).2 = false ∧ (cas_lock { flag := 2 }).1 = { flag := 2 } ∧
    sync_val_compare_and_swap 2 0 1 = (2, 2) := by
  decide

/-- C10 (amended): an acquire attempt of `cas_lock` with `flag == v` repeats the loop
exactly when `v == 1`, and sets the flag to 1 when `v == 0` and leaves it unchanged
otherwise; in a run of the CAS benchmark the flag is 0 or 1, so a thread in the acquire
loop leaves it exactly when the flag is 0, that step changes the flag from 0 to 1, and
with flag 1 the attempt fails, the flag stays 1 and the thread stays in the loop. -/
theorem C10_cas_lock_attempt (v : Int) (cfg : Config) (prev : Shared) (s s' : State)
    (t pick : Nat) (hs : Reachable cfg .CAS prev s)
    (hstep : step cfg s (.run t pick) = some s') (hpc : (s.threads t).pc = .acquire) :
    ((cas_lock { flag := v }).2 = true ↔ v = 1) ∧
    (cas_lock { flag := v }).1.flag = (if v = 0 then 1 else v) ∧
    (s.sh.cas_lock_var.flag = 0 ∨ s.sh.cas_lock_var.flag = 1) ∧
    ((s'.threads t).pc = .counterRead ↔ s.sh.cas_lock_var.flag = 0) ∧
    (s.sh.cas_lock_var.flag = 0 → s'.sh.cas_lock_var.flag = 1) ∧
    (s.sh.cas_lock_var.flag = 1 →
      s'.sh.cas_lock_var.flag = 1 ∧ (s'.threads t).pc = .acquire) := by
  have hty := reachable_type hs
  have hinv := flagLockInv_of_own (flag_own (by rfl) hs)
  rw [flagOf_cas hty] at hinv
  have h01 := hinv.1
  obtain ⟨ht, sh', th', hw, rfl⟩ := step_run_inv hstep
  refine ⟨by simp [cas_lock, sync_val_compare_and_swap], ?_, h01, ?_⟩
  · by_cases hv : v = 0 <;> simp [cas_lock, sync_val_compare_and_swap, hv]
  · simp only [worker, hpc, hty, cas_step, cas_lock, sync_val_compare_and_swap,
      Option.some.injEq, Prod.mk.injEq] at hw
    obtain ⟨rfl, rfl⟩ := hw
    rcases h01 with h0 | h0 <;> simp [h0]

/-- Witness of C10: thread 1 of the source benchmark in the acquire loop while thread 0
holds the lock. -/
theorem C10_cas_lock_attempt_witness :
    Reachable sourceConfig .CAS programStart
      (stateAfter sourceConfig (run_test .CAS programStart) [go 0, go 0, go 1]) ∧
    step sourceConfig (stateAfter sourceConfig (run_test .CAS programStart) [go 0, go 0, go 1])
      (.run 1 0) =
      some (stateAfter sourceConfig (run_test .CAS programStart) [go 0, go 0, go 1, go 1]) ∧
    ((stateAfter sourceConfig (run_test .CAS programStart) [go 0, go 0, go 1]).threads 1).pc
      = .acquire ∧
    (stateAfter sourceConfig (run_test .CAS programStart)
      [go 0, go 0, go 1]).sh.cas_lock_var.flag = 1 ∧
    (stateAfter sourceConfig (run_test .CAS programStart)
      [go 0, go 0, go 1, go 1]).sh.cas_lock_var.flag = 1 ∧
    ((stateAfter sourceConfig (run_test .CAS programStart)
      [go 0, go 0, go 1, go 1]).threads 1).pc = .acquire :=
  ⟨reachable_stateAfter (by decide), rfl, by decide, by decide,
   (C10_cas_lock_attempt 1 sourceConfig programStart _ _ 1 0
      (@reachable_stateAfter _ _ _ [go 0, go 0, go 1] (by decide))
      (show step sourceConfig
        (stateAfter sourceConfig (run_test .CAS programStart) [go 0, go 0, go 1]) (.run 1 0) =
        some (stateAfter sourceConfig (run_test .CAS programStart) [go 0, go 0, go 1, go 1])
        from rfl)
      (by decide)).2.2.2.2.2 (by decide)⟩

/-! ## The ticket lock -/

/-- Every step of `ticket_step` is one of the outcomes of `TStep`. -/
theorem ticket_step_inv {t : Nat} {sh sh' : Shared} {th th' : Thread}
    (h : ticket_step t sh th = some (sh', th')) : TStep t sh th sh' th' := by
  unfold ticket_step at h
  split at h
  · rename_i hpc
    simp only [ticket_lock_draw, sync_fetch_and_add, Option.some.injEq, Prod.mk.injEq] at h
    obtain ⟨rfl, rfl⟩ := h
    exact TStep.draw hpc
  · rename_i hpc
    split at h
    · rename_i hw
      simp only [Option.some.injEq, Prod.mk.injEq] at h
      obtain ⟨rfl, rfl⟩ := h
      exact TStep.spin hpc (by simpa [ticket_lock_wait] using hw)
    · rename_i hw
      simp only [Option.some.injEq, Prod.mk.injEq] at h
      obtain ⟨rfl, rfl⟩ := h
      exact TStep.grant hpc (by simpa [ticket_lock_wait] using hw)
  · rename_i hpc
    simp only [ticket_unlock, sync_fetch_and_add, Option.some.injEq, Prod.mk.injEq] at h
    obtain ⟨rfl, rfl⟩ := h
    exact TStep.release hpc
  · simp at h

theorem wrap32_succ (x : Int) : wrap32 (wrap32 x + 1) = wrap32 (x + 1) := by
  unfold wrap32; omega

/-- Within a window of 2^32 consecutive numbers, wrapped values are distinct. -/
theorem wrap32_inj_window {a b : Nat} (h : wrap32 (a : Int) = wrap32 (b : Int))
    (hab : a < b + 4294967296) (hba : b < a + 4294967296) : a = b := by
  unfold wrap32 at h; omega

theorem wrap32_small {a : Nat} (h : a < 2147483648) : wrap32 (a : Int) = a := by
  unfold wrap32; omega

theorem outstanding_lt {cfg : Config} {s : State}
    (hidle : ∀ t, cfg.NUM_THREADS ≤ t → s.threads t = workerEntry) {t : Nat}
    (h : (s.threads t).pc.outstanding = true) : t < cfg.NUM_THREADS := by
  by_contra hge
  rw [hidle t (by omega)] at h
  simp [workerEntry, PC.outstanding] at h

theorem pastWait_outstanding {pc : PC} (h : pc.pastWait = true) : pc.outstanding = true := by
  cases pc <;> simp_all [PC.pastWait, PC.outstanding]

/-- At most `NUM_THREADS` tickets are pending. -/
theorem pending_length_le {cfg : Config} {s : State} (h : TicketInv cfg s) :
    (pending s).length ≤ cfg.NUM_THREADS := by
  have hsub : (pending s).toFinset ⊆ Finset.range cfg.NUM_THREADS := by
    intro t ht
    simp only [List.mem_toFinset] at ht
    simpa using outstanding_lt h.idle ((h.mem t).1 ht)
  have := Finset.card_le_card hsub
  rwa [List.toFinset_card_of_nodup h.nd, Finset.card_range] at this

theorem draws_length_eq {cfg : Config} {s : State} (h : TicketInv cfg s) :
    s.sh.hist.draws.length = s.sh.hist.releases.length + (pending s).length := by
  have := h.le
  simp [pending]
  omega

/-- A step that changes neither the lock, nor the history, nor the side of the lock the
thread is on keeps the invariant. -/
theorem ticket_keep {cfg : Config} {s : State} {t : Nat} {sh' : Shared} {th' : Thread}
    (h : TicketInv cfg s) (ht : t < cfg.NUM_THREADS)
    (hty : sh'.current_test_type = s.sh.current_test_type)
    (hl : sh'.ticket_lock_var = s.sh.ticket_lock_var) (hh : sh'.hist = s.sh.hist)
    (ho : th'.pc.outstanding = (s.threads t).pc.outstanding)
    (hp : th'.pc.pastWait = (s.threads t).pc.pastWait)
    (hm : th'.myturn = (s.threads t).myturn) :
    TicketInv cfg { sh := sh', threads := upd s.threads t th' } := by
  have hpend : pending { sh := sh', threads := upd s.threads t th' } = pending s := by
    simp [pending, hh]
  have hpw : ∀ u, ((upd s.threads t th') u).pc.pastWait = (s.threads u).pc.pastWait := by
    intro u
    by_cases hu : u = t
    · subst hu; simp [hp]
    · simp [upd_other _ _ hu]
  constructor
  · simpa [hty] using h.ty
  · intro u hu
    have : u ≠ t := by omega
    simpa [upd_other _ _ this] using h.idle u hu
  · simpa [hl, hh] using h.tk
  · simpa [hl, hh] using h.tn
  · simpa [hh] using h.le
  · rw [hpend]; exact h.nd
  · intro u
    rw [hpend]
    by_cases hu : u = t
    · subst hu; simpa [ho] using h.mem u
    · simpa [upd_other _ _ hu] using h.mem u
  · intro k u hk
    rw [hpend] at hk
    have := h.my k u hk
    by_cases hu : u = t
    · subst hu; simpa [hm, hh] using this
    · simpa [upd_other _ _ hu, hh] using this
  · intro u hu
    rw [hpend]
    rw [hpw] at hu
    exact h.past u hu
  · simpa [hh] using h.gr
  · rintro ⟨u, hu⟩
    rw [hpw] at hu
    simpa [hh] using h.gl1 ⟨u, hu⟩
  · intro hall
    simp only [hpw] at hall
    simpa [hh] using h.gl0 hall
  · simpa [hh] using h.dv

theorem ticket_draw_step {cfg : Config} {s : State} {t : Nat} {sh' : Shared} {th' : Thread}
    (h : TicketInv cfg s) (ht : t < cfg.NUM_THREADS) (hpc : (s.threads t).pc = .ticketDraw)
    (hty : sh'.current_test_type = s.sh.current_test_type)
    (htk : sh'.ticket_lock_var.ticket = wrap32 (s.sh.ticket_lock_var.ticket + 1))
    (htn : sh'.ticket_lock_var.turn = s.sh.ticket_lock_var.turn)
    (hd : sh'.hist.draws = s.sh.hist.draws ++ [t])
    (hdr : sh'.hist.drawn = s.sh.hist.drawn ++ [s.sh.ticket_lock_var.ticket])
    (hg : sh'.hist.grants = s.sh.hist.grants)
    (hr : sh'.hist.releases = s.sh.hist.releases)
    (hpc' : th'.pc = .ticketWait) (hmy : th'.myturn = s.sh.ticket_lock_var.ticket) :
    TicketInv cfg { sh := sh', threads := upd s.threads t th' } := by
  have hlen := draws_length_eq h
  have htn' : t ∉ pending s := by
    intro hm
    have := (h.mem t).1 hm
    simp [hpc, PC.outstanding] at this
  have hpend : pending { sh := sh', threads := upd s.threads t th' } = pending s ++ [t] := by
    simp only [pending, hd, hr]
    exact List.drop_append_of_le_length h.le
  have hpw : ∀ u, ((upd s.threads t th') u).pc.pastWait = (s.threads u).pc.pastWait := by
    intro u
    by_cases hu : u = t
    · subst hu; simp [hpc, hpc', PC.pastWait]
    · simp [upd_other _ _ hu]
  have hgl : s.sh.hist.grants.length ≤ s.sh.hist.draws.length := by
    have := congrArg List.length h.gr
    simp at this
    omega
  constructor
  · simpa [hty] using h.ty
  · intro u hu
    have : u ≠ t := by omega
    simpa [upd_other _ _ this] using h.idle u hu
  · simp only [htk, hd, List.length_append, List.length_singleton]
    rw [h.tk, wrap32_succ]; push_cast; rfl
  · simpa [htn, hr] using h.tn
  · simp only [hd, hr, List.length_append, List.length_singleton]
    have := h.le; omega
  · rw [hpend]
    exact List.Nodup.append h.nd (List.nodup_singleton t) (by simpa using htn')
  · intro u
    rw [hpend]
    by_cases hu : u = t
    · subst hu; simp [hpc', PC.outstanding]
    · simp [upd_other _ _ hu, hu, h.mem u]
  · intro k u hk
    rw [hpend] at hk
    simp only [hr]
    by_cases hkl : k < (pending s).length
    · rw [List.getElem?_append_left hkl] at hk
      have hu : u ≠ t := by
        rintro rfl
        exact htn' (List.getElem?_mem hk)
      simpa [upd_other _ _ hu] using h.my k u hk
    · rw [List.getElem?_append_right (by omega)] at hk
      have hk0 : k - (pending s).length = 0 := by
        by_contra hne
        have : 1 ≤ k - (pending s).length := by omega
        rw [List.getElem?_eq_none (by simpa using this)] at hk
        simp at hk
      rw [hk0] at hk
      simp at hk
      subst hk
      have hkk : k = (pending s).length := by omega
      simp only [upd_same, hmy]
      rw [h.tk, hlen, hkk]
  · intro u hu
    rw [hpw] at hu
    rw [hpend]
    have := h.past u hu
    cases hp : pending s with
    | nil => simp [hp] at this
    | cons x xs => simpa [hp] using this
  · simp only [hg, hd]
    rw [List.take_append_of_le_length hgl]
    exact h.gr
  · rintro ⟨u, hu⟩
    rw [hpw] at hu
    simpa [hg, hr] using h.gl1 ⟨u, hu⟩
  · intro hall
    simp only [hpw] at hall
    simpa [hg, hr] using h.gl0 hall
  · simp only [hdr, hd, List.length_append, List.length_singleton, List.range_succ,
      List.map_append, List.map_singleton]
    rw [h.dv, h.tk]

/-- A thread whose ticket equals `turn` is the first of the pending threads. -/
theorem pending_head_of_turn {cfg : Config} {s : State} {t : Nat}
    (hN : cfg.NUM_THREADS ≤ 4294967296) (h : TicketInv cfg s)
    (ho : (s.threads t).pc.outstanding = true)
    (hturn : s.sh.ticket_lock_var.turn = (s.threads t).myturn) :
    (pending s).head? = some t := by
  obtain ⟨k, hk⟩ := List.getElem?_of_mem ((h.mem t).2 ho)
  have hmy := h.my k t hk
  have hlen := pending_length_le h
  have hkl : k < (pending s).length := by
    by_contra hge
    rw [List.getElem?_eq_none (by omega)] at hk
    simp at hk
  rw [← hturn, h.tn] at hmy
  have : s.sh.hist.releases.length = s.sh.hist.releases.length + k :=
    wrap32_inj_window hmy (by omega) (by omega)
  have hk0 : k = 0 := by omega
  subst hk0
  rw [List.head?_eq_getElem?]
  exact hk

theorem ticket_grant_step {cfg : Config} {s : State} {t : Nat} {sh' : Shared} {th' : Thread}
    (hN : cfg.NUM_THREADS ≤ 4294967296)
    (h : TicketInv cfg s) (ht : t < cfg.NUM_THREADS) (hpc : (s.threads t).pc = .ticketWait)
    (hturn : s.sh.ticket_lock_var.turn = (s.threads t).myturn)
    (hty : sh'.current_test_type = s.sh.current_test_type)
    (hl : sh'.ticket_lock_var = s.sh.ticket_lock_var)
    (hd : sh'.hist.draws = s.sh.hist.draws)
    (hdr : sh'.hist.drawn = s.sh.hist.drawn)
    (hg : sh'.hist.grants = s.sh.hist.grants ++ [t])
    (hr : sh'.hist.releases = s.sh.hist.releases)
    (hpc' : th'.pc = .counterRead) (hmy : th'.myturn = (s.threads t).myturn) :
    TicketInv cfg { sh := sh', threads := upd s.threads t th' } := by
  have hhead := pending_head_of_turn hN h (by simp [hpc, PC.outstanding]) hturn
  have hnone : ∀ u, (s.threads u).pc.pastWait = false := by
    intro u
    by_contra hu
    simp only [Bool.not_eq_false] at hu
    have := h.past u hu
    rw [hhead] at this
    simp only [Option.some.injEq] at this
    subst this
    simp [hpc, PC.pastWait] at hu
  have hgl := h.gl0 hnone
  have hpend : pending { sh := sh', threads := upd s.threads t th' } = pending s := by
    simp only [pending, hd, hr]
  have hdR : s.sh.hist.draws[s.sh.hist.releases.length]? = some t := by
    have := hhead
    rw [List.head?_eq_getElem?, pending, List.getElem?_drop] at this
    simpa using this
  constructor
  · simpa [hty] using h.ty
  · intro u hu
    have : u ≠ t := by omega
    simpa [upd_other _ _ this] using h.idle u hu
  · simpa [hl, hd] using h.tk
  · simpa [hl, hr] using h.tn
  · simpa [hd, hr] using h.le
  · rw [hpend]; exact h.nd
  · intro u
    rw [hpend]
    by_cases hu : u = t
    · subst hu
      simp only [upd_same, hpc', PC.outstanding, iff_true]
      exact (h.mem u).2 (by simp [hpc, PC.outstanding])
    · simpa [upd_other _ _ hu] using h.mem u
  · intro k u hk
    rw [hpend] at hk
    have := h.my k u hk
    by_cases hu : u = t
    · subst hu; simpa [hmy, hr] using this
    · simpa [upd_other _ _ hu, hr] using this
  · intro u hu
    rw [hpend]
    by_cases hut : u = t
    · subst hut; exact hhead
    · simp only [upd_other _ _ hut, hnone u] at hu
      simp at hu
  · simp only [hg, hd, List.length_append, List.length_singleton]
    rw [hgl, List.take_succ, hdR, ← hgl, ← h.gr]
    rfl
  · intro _
    simp [hg, hr, hgl]
  · intro hall
    have := hall t
    simp [hpc', PC.pastWait] at this
  · simpa [hdr, hd] using h.dv

theorem ticket_release_step {cfg : Config} {s : State} {t : Nat} {sh' : Shared} {th' : Thread}
    (h : TicketInv cfg s) (ht : t < cfg.NUM_THREADS) (hpc : (s.threads t).pc = .ticketRelease)
    (hty : sh'.current_test_type = s.sh.current_test_type)
    (htk : sh'.ticket_lock_var.ticket = s.sh.ticket_lock_var.ticket)
    (htn : sh'.ticket_lock_var.turn = wrap32 (s.sh.ticket_lock_var.turn + 1))
    (hd : sh'.hist.draws = s.sh.hist.draws)
    (hdr : sh'.hist.drawn = s.sh.hist.drawn)
    (hg : sh'.hist.grants = s.sh.hist.grants)
    (hr : sh'.hist.releases = s.sh.hist.releases ++ [t])
    (hpc' : th'.pc = .loopIncr) :
    TicketInv cfg { sh := sh', threads := upd s.threads t th' } := by
  have hpast : (s.threads t).pc.pastWait = true := by simp [hpc, PC.pastWait]
  have hhead := h.past t hpast
  have hlen := draws_length_eq h
  obtain ⟨rest, hrest⟩ : ∃ rest, pending s = t :: rest := by
    cases hp : pending s with
    | nil => simp [hp] at hhead
    | cons x xs =>
      simp [hp] at hhead
      exact ⟨xs, by rw [hhead]⟩
  have hpend : pending { sh := sh', threads := upd s.threads t th' } = rest := by
    simp only [pending, hd, hr, List.length_append, List.length_singleton]
    rw [← List.tail_drop]
    have : List.drop s.sh.hist.releases.length s.sh.hist.draws = t :: rest := hrest
    rw [this]
    rfl
  have hnd := h.nd
  rw [hrest, List.nodup_cons] at hnd
  have honly : ∀ u, (s.threads u).pc.pastWait = true → u = t := by
    intro u hu
    have := h.past u hu
    rw [hhead] at this
    simpa using this.symm
  have hnone : ∀ u, ((upd s.threads t th') u).pc.pastWait = false := by
    intro u
    by_cases hu : u = t
    · subst hu; simp [hpc', PC.pastWait]
    · rw [upd_other _ _ hu]
      by_contra hc
      simp only [Bool.not_eq_false] at hc
      exact hu (honly u hc)
  constructor
  · simpa [hty] using h.ty
  · intro u hu
    have : u ≠ t := by omega
    simpa [upd_other _ _ this] using h.idle u hu
  · simpa [htk, hd] using h.tk
  · simp only [htn, hr, List.length_append, List.length_singleton]
    rw [h.tn, wrap32_succ]; push_cast; rfl
  · simp only [hd, hr, List.length_append, List.length_singleton]
    rw [hrest] at hlen
    simp at hlen
    omega
  · rw [hpend]; exact hnd.2
  · intro u
    rw [hpend]
    by_cases hu : u = t
    · subst hu
      simp [hpc', PC.outstanding, hnd.1]
    · have := h.mem u
      rw [hrest] at this
      simpa [upd_other _ _ hu, hu] using this
  · intro k u hk
    rw [hpend] at hk
    have hu : u ≠ t := by
      rintro rfl
      exact hnd.1 (List.getElem?_mem hk)
    have hk' : (pending s)[k + 1]? = some u := by
      rw [hrest]; simpa using hk
    have := h.my (k + 1) u hk'
    simp only [upd_other _ _ hu, hr, List.length_append, List.length_singleton]
    rw [this]
    congr 1
    push_cast
    omega
  · intro u hu
    rw [hnone u] at hu
    simp at hu
  · simpa [hg, hd] using h.gr
  · rintro ⟨u, hu⟩
    rw [hnone u] at hu
    simp at hu
  · intro _
    simp only [hg, hr, List.length_append, List.length_singleton]
    exact h.gl1 ⟨t, hpast⟩
  · simpa [hdr, hd] using h.dv

theorem ticket_inv_init (cfg : Config) (prev : Shared) :
    TicketInv cfg (run_test .TICKET prev) := by
  constructor <;>
    simp [run_test, run_test_setup, ticket_init, pending, workerEntry, PC.outstanding,
      PC.pastWait, wrap32]

/-- The ticket lock invariant holds in every state of a run with at most 2^32 threads. -/
theorem ticket_inv {cfg : Config} {prev : Shared} {s : State}
    (hN : cfg.NUM_THREADS ≤ 4294967296) (hs : Reachable cfg .TICKET prev s) :
    TicketInv cfg s := by
  refine @Reachable.rec_on_steps cfg .TICKET prev (TicketInv cfg) (ticket_inv_init cfg prev)
    ?_ ?_ s hs
  · intro s t pick sh' th' hr ih ht hw
    have hty := ih.ty
    rcases worker_cases hw with ⟨h1, h2, rfl, rfl⟩ | ⟨h1, h2, rfl, rfl⟩ | ⟨h1, rfl, rfl⟩ |
      ⟨h1, rfl, rfl⟩ | ⟨h1, rfl, rfl⟩ | ⟨n1, n2, n3, n4, n5, hl⟩
    · exact ticket_keep ih ht rfl rfl rfl (by simp [h1, hty, lockEntry, PC.outstanding])
        (by simp [h1, hty, lockEntry, PC.pastWait]) rfl
    · exact ticket_keep ih ht rfl rfl rfl (by simp [h1, PC.outstanding])
        (by simp [h1, PC.pastWait]) rfl
    · exact ticket_keep ih ht rfl rfl rfl (by simp [h1, PC.outstanding])
        (by simp [h1, PC.pastWait]) rfl
    · exact ticket_keep ih ht rfl rfl rfl (by simp [h1, hty, unlockEntry, PC.outstanding])
        (by simp [h1, hty, unlockEntry, PC.pastWait]) rfl
    · exact ticket_keep ih ht rfl rfl rfl (by simp [h1, PC.outstanding])
        (by simp [h1, PC.pastWait]) rfl
    · rcases hl with ⟨hc, hl⟩ | ⟨hc, hl⟩ | ⟨hc, hl⟩ | ⟨hc, hl⟩ | ⟨hc, hl⟩
      · rw [hty] at hc; cases hc
      · rw [hty] at hc; cases hc
      · cases ticket_step_inv hl with
        | draw hpc => exact ticket_draw_step ih ht hpc rfl rfl rfl rfl rfl rfl rfl rfl rfl
        | spin hpc hne => exact ticket_keep ih ht rfl rfl rfl rfl rfl rfl
        | grant hpc heq => exact ticket_grant_step hN ih ht hpc heq rfl rfl rfl rfl rfl rfl rfl rfl
        | release hpc => exact ticket_release_step ih ht hpc rfl rfl rfl rfl rfl rfl rfl rfl
      · rw [hty] at hc; cases hc
      · rw [hty] at hc; cases hc
  · intro s t hr ih hq hm
    rw [ih.ty] at hq
    cases hq

/-- Position of an outstanding thread among the pending tickets. -/
theorem pending_index {cfg : Config} {s : State} {t : Nat} (h : TicketInv cfg s)
    (ho : (s.threads t).pc.outstanding = true) :
    ∃ k, k < (pending s).length ∧ (pending s)[k]? = some t ∧
      s.sh.hist.draws[s.sh.hist.releases.length + k]? = some t ∧
      (s.threads t).myturn = wrap32 ((s.sh.hist.releases.length + k : Nat) : Int) := by
  obtain ⟨k, hk⟩ := List.getElem?_of_mem ((h.mem t).2 ho)
  have hkl : k < (pending s).length := by
    by_contra hge
    rw [List.getElem?_eq_none (by omega)] at hk
    simp at hk
  refine ⟨k, hkl, hk, ?_, h.my k t hk⟩
  rw [pending, List.getElem?_drop] at hk
  exact hk

/-- C3: in every state of a run of the ticket benchmark with at most 2^32 threads (the
`int` thread count of `run_test` is below 2^31), the tickets of the threads that have
drawn a ticket and not yet completed `ticket_unlock` are pairwise distinct, at most one
of them has `myturn == turn`, and at most one thread is past the wait loop. -/
theorem C3_ticket_mutual_exclusion (cfg : Config) (prev : Shared) (s : State)
    (hN : cfg.NUM_THREADS ≤ 4294967296) (hs : Reachable cfg .TICKET prev s) :
    (∀ t u, (s.threads t).pc.outstanding = true → (s.threads u).pc.outstanding = true →
      (s.threads t).myturn = (s.threads u).myturn → t = u) ∧
    (∀ t u, (s.threads t).pc.outstanding = true → (s.threads u).pc.outstanding = true →
      (s.threads t).myturn = s.sh.ticket_lock_var.turn →
      (s.threads u).myturn = s.sh.ticket_lock_var.turn → t = u) ∧
    (∀ t u, (s.threads t).pc.pastWait = true → (s.threads u).pc.pastWait = true → t = u) ∧
    (∀ t, (s.threads t).pc.pastWait = true →
      (s.threads t).myturn = s.sh.ticket_lock_var.turn) := by
  have h := ticket_inv hN hs
  have hlen := pending_length_le h
  have key : ∀ t u, (s.threads t).pc.outstanding = true →
      (s.threads u).pc.outstanding = true →
      (s.threads t).myturn = (s.threads u).myturn → t = u := by
    intro t u ht hu hmy
    obtain ⟨k1, hk1, hp1, -, hm1⟩ := pending_index h ht
    obtain ⟨k2, hk2, hp2, -, hm2⟩ := pending_index h hu
    rw [hm1, hm2] at hmy
    have := wrap32_inj_window hmy (by omega) (by omega)
    have hk : k1 = k2 := by omega
    subst hk
    rw [hp1] at hp2
    simpa using hp2
  refine ⟨key, ?_, ?_, ?_⟩
  · intro t u ht hu h1 h2
    exact key t u ht hu (h1.trans h2.symm)
  · intro t u ht hu
    have h1 := h.past t ht
    have h2 := h.past u hu
    rw [h1] at h2
    simpa using h2
  · intro t ht
    have h1 := h.past t ht
    rw [List.head?_eq_getElem?] at h1
    have := h.my 0 t h1
    rw [this, h.tn]
    rfl

/-- Witness of C3: the ticket benchmark of the source after thread 0 has entered the
critical section and threads 1 and 2 have drawn tickets. -/
theorem C3_ticket_mutual_exclusion_witness :
    sourceConfig.NUM_THREADS ≤ 4294967296 ∧
    Reachable sourceConfig .TICKET programStart
      (stateAfter sourceConfig (run_test .TICKET programStart)
        [go 0, go 0, go 0, go 1, go 1, go 2, go 2, go 1]) ∧
    ∀ t u,
      ((stateAfter sourceConfig (run_test .TICKET programStart)
        [go 0, go 0, go 0, go 1, go 1, go 2, go 2, go 1]).threads t).pc.pastWait = true →
      ((stateAfter sourceConfig (run_test .TICKET programStart)
        [go 0, go 0, go 0, go 1, go 1, go 2, go 2, go 1]).threads u).pc.pastWait = true →
      t = u :=
  ⟨by decide, reachable_stateAfter (by decide),
   (C3_ticket_mutual_exclusion sourceConfig programStart _ (by decide)
      (reachable_stateAfter (by decide))).2.2.1⟩

/-- C5: in every state of a run of the ticket benchmark with at most 2^32 threads, the
threads granted the lock so far are, in order, the first threads that drew a ticket
(the N-th thread to draw is the N-th thread granted), and every thread still in the
wait loop drew its ticket after all the threads granted so far. -/
theorem C5_ticket_fifo (cfg : Config) (prev : Shared) (s : State)
    (hN : cfg.NUM_THREADS ≤ 4294967296) (hs : Reachable cfg .TICKET prev s) :
    s.sh.hist.grants <+: s.sh.hist.draws ∧
    (∀ (n t : Nat), s.sh.hist.grants[n]? = some t → s.sh.hist.draws[n]? = some t) ∧
    (∀ t, (s.threads t).pc = .ticketWait →
      ∃ k, s.sh.hist.grants.length ≤ k ∧ s.sh.hist.draws[k]? = some t ∧
        (s.threads t).myturn = wrap32 ((k : Nat) : Int)) := by
  have h := ticket_inv hN hs
  have hpre : s.sh.hist.grants <+: s.sh.hist.draws := by
    rw [h.gr]
    exact List.take_prefix _ _
  refine ⟨hpre, ?_, ?_⟩
  · intro n t hn
    obtain ⟨r, hr⟩ := hpre
    rw [← hr]
    have hnl : n < s.sh.hist.grants.length := by
      by_contra hge
      rw [List.getElem?_eq_none (by omega)] at hn
      simp at hn
    rw [List.getElem?_append_left hnl]
    exact hn
  · intro t ht
    have ho : (s.threads t).pc.outstanding = true := by simp [ht, PC.outstanding]
    obtain ⟨k, hk, hp, hd, hm⟩ := pending_index h ho
    refine ⟨s.sh.hist.releases.length + k, ?_, hd, hm⟩
    by_cases hex : ∃ u, (s.threads u).pc.pastWait = true
    · obtain ⟨u, hu⟩ := hex
      have hg := h.gl1 ⟨u, hu⟩
      have hhead := h.past u hu
      rw [List.head?_eq_getElem?] at hhead
      have hk0 : k ≠ 0 := by
        rintro rfl
        rw [hp] at hhead
        simp only [Option.some.injEq] at hhead
        subst hhead
        simp [ht, PC.pastWait] at hu
      omega
    · have hg := h.gl0 (by
        intro u
        by_contra hc
        exact hex ⟨u, by simpa using hc⟩)
      omega

/-- Witness of C5: threads 1, 0, 2 draw in this order; thread 1 is granted and releases,
then thread 0 is granted while thread 2 waits. -/
theorem C5_ticket_fifo_witness :
    sourceConfig.NUM_THREADS ≤ 4294967296 ∧
    Reachable sourceConfig .TICKET programStart
      (stateAfter sourceConfig (run_test .TICKET programStart)
        [go 1, go 1, go 0, go 0, go 2, go 2, go 0, go 2, go 1, go 1, go 1, go 1, go 2, go 0]) ∧
    (stateAfter sourceConfig (run_test .TICKET programStart)
        [go 1, go 1, go 0, go 0, go 2, go 2, go 0, go 2, go 1, go 1, go 1, go 1, go 2,
          go 0]).sh.hist.grants = [1, 0] ∧
    (stateAfter sourceConfig (run_test .TICKET programStart)
        [go 1, go 1, go 0, go 0, go 2, go 2, go 0, go 2, go 1, go 1, go 1, go 1, go 2,
          go 0]).sh.hist.grants <+:
      (stateAfter sourceConfig (run_test .TICKET programStart)
        [go 1, go 1, go 0, go 0, go 2, go 2, go 0, go 2, go 1, go 1, go 1, go 1, go 2,
          go 0]).sh.hist.draws :=
  ⟨by decide, reachable_stateAfter (by decide), by decide,
   (C5_ticket_fifo sourceConfig programStart _ (by decide)
      (reachable_stateAfter (by decide))).1⟩

/-- The two counters of the ticket lock count the fetch-and-adds performed on them, and
the captured values are the wrapped ticket numbers, for any number of threads. -/
theorem ticket_counts {cfg : Config} {prev : Shared} {s : State}
    (hs : Reachable cfg .TICKET prev s) :
    s.sh.ticket_lock_var.ticket = wrap32 s.sh.hist.draws.length ∧
    s.sh.ticket_lock_var.turn = wrap32 s.sh.hist.releases.length ∧
    s.sh.hist.drawn =
      (List.range s.sh.hist.draws.length).map (fun k : Nat => wrap32 (k : Int)) := by
  refine @Reachable.rec_on_steps cfg .TICKET prev (fun s =>
    s.sh.ticket_lock_var.ticket = wrap32 s.sh.hist.draws.length ∧
    s.sh.ticket_lock_var.turn = wrap32 s.sh.hist.releases.length ∧
    s.sh.hist.drawn =
      (List.range s.sh.hist.draws.length).map (fun k : Nat => wrap32 (k : Int))) ?_ ?_ ?_ s hs
  · simp [run_test, run_test_setup, ticket_init, wrap32]
  · intro s t pick sh' th' hr ih ht hw
    have hty := reachable_type hr
    obtain ⟨i1, i2, i3⟩ := ih
    rcases worker_cases hw with ⟨h1, h2, rfl, rfl⟩ | ⟨h1, h2, rfl, rfl⟩ | ⟨h1, rfl, rfl⟩ |
      ⟨h1, rfl, rfl⟩ | ⟨h1, rfl, rfl⟩ | ⟨n1, n2, n3, n4, n5, hl⟩
    · exact ⟨i1, i2, i3⟩
    · exact ⟨i1, i2, i3⟩
    · exact ⟨i1, i2, i3⟩
    · exact ⟨i1, i2, i3⟩
    · exact ⟨i1, i2, i3⟩
    · rcases hl with ⟨hc, hl⟩ | ⟨hc, hl⟩ | ⟨hc, hl⟩ | ⟨hc, hl⟩ | ⟨hc, hl⟩
      · rw [hty] at hc; cases hc
      · rw [hty] at hc; cases hc
      · cases ticket_step_inv hl with
        | draw hpc =>
          refine ⟨?_, i2, ?_⟩
          · simp only [List.length_append, List.length_singleton]
            rw [i1, wrap32_succ]; push_cast; rfl
          · simp only [List.length_append, List.length_singleton, List.range_succ,
              List.map_append, List.map_singleton]
            rw [i3, i1]
        | spin hpc hne => exact ⟨i1, i2, i3⟩
        | grant hpc heq => exact ⟨i1, i2, i3⟩
        | release hpc =>
          refine ⟨i1, ?_, i3⟩
          simp only [List.length_append, List.length_singleton]
          rw [i2, wrap32_succ]; push_cast; rfl
      · rw [hty] at hc; cases hc
      · rw [hty] at hc; cases hc
  · intro s t hr ih hq hm
    rw [reachable_type hr] at hq
    cases hq

theorem pairwise_range_map_wrap (n : Nat) (hn : n ≤ 2147483648) :
    ((List.range n).map (fun k : Nat => wrap32 (k : Int))).Pairwise (· < ·) := by
  rw [List.pairwise_map]
  have : (List.range n).Pairwise (· < ·) := List.pairwise_lt_range n
  refine List.Pairwise.imp_of_mem ?_ this
  intro a b ha hb hab
  simp only [List.mem_range] at ha hb
  rw [wrap32_small (by omega), wrap32_small (by omega)]
  exact_mod_cast hab

/-- C8 (amended): in a run of the ticket benchmark in which at most 2^31 tickets have
been drawn, the values of `myturn` captured so far are 0, 1, 2, ... in this order, each
strictly greater than every earlier one; a step does not decrease `ticket` when fewer
than 2^31 tickets have been drawn after it, and does not decrease `turn` when fewer than
2^31 calls of `ticket_unlock` have completed after it. -/
theorem C8_tickets_increasing (cfg : Config) (prev : Shared) (s : State)
    (hs : Reachable cfg .TICKET prev s) (hlen : s.sh.hist.draws.length ≤ 2147483648) :
    s.sh.hist.drawn = (List.range s.sh.hist.draws.length).map (fun k : Nat => (k : Int)) ∧
    s.sh.hist.drawn.Pairwise (· < ·) ∧
    (∀ l s', step cfg s l = some s' →
      (s'.sh.hist.draws.length < 2147483648 →
        s.sh.ticket_lock_var.ticket ≤ s'.sh.ticket_lock_var.ticket) ∧
      (s'.sh.hist.releases.length < 2147483648 →
        s.sh.ticket_lock_var.turn ≤ s'.sh.ticket_lock_var.turn)) := by
  obtain ⟨h1, h2, h3⟩ := ticket_counts hs
  refine ⟨?_, ?_, ?_⟩
  · rw [h3]
    apply List.map_congr_left
    intro k hk
    simp only [List.mem_range] at hk
    exact wrap32_small (by omega)
  · rw [h3]
    exact pairwise_range_map_wrap _ hlen
  · intro l s' hstep
    obtain ⟨h1', h2', -⟩ := ticket_counts (Reachable.step l hs hstep)
    have hty := reachable_type hs
    have hmono : s.sh.hist.draws.length ≤ s'.sh.hist.draws.length ∧
        s.sh.hist.releases.length ≤ s'.sh.hist.releases.length := by
      cases l with
      | spurious t =>
        obtain ⟨hq, -, -⟩ := step_spurious_inv hstep
        rw [hty] at hq
        cases hq
      | run t pick =>
        obtain ⟨ht, sh', th', hw, rfl⟩ := step_run_inv hstep
        rcases worker_cases hw with ⟨_, _, rfl, rfl⟩ | ⟨_, _, rfl, rfl⟩ | ⟨_, rfl, rfl⟩ |
          ⟨_, rfl, rfl⟩ | ⟨_, rfl, rfl⟩ | ⟨_, _, _, _, _, hl⟩
        · simp
        · simp
        · simp
        · simp
        · simp
        · rcases hl with ⟨hc, hl⟩ | ⟨hc, hl⟩ | ⟨hc, hl⟩ | ⟨hc, hl⟩ | ⟨hc, hl⟩
          · rw [hty] at hc; cases hc
          · rw [hty] at hc; cases hc
          · cases ticket_step_inv hl <;> simp
          · rw [hty] at hc; cases hc
          · rw [hty] at hc; cases hc
    constructor
    · intro hb
      rw [h1, h1', wrap32_small (by omega), wrap32_small hb]
      exact_mod_cast hmono.1
    · intro hb
      rw [h2, h2', wrap32_small (by omega), wrap32_small hb]
      exact_mod_cast hmono.2

/-- One uncontended iteration of `worker` under the ticket lock. -/
theorem ticket_solo_iteration {cfg : Config} {s : State} {t i : Nat}
    (h : TicketIdle s t i) (ht : t < cfg.NUM_THREADS) (hi : i < cfg.NUM_ITERATIONS) :
    ∃ s', run cfg s (List.replicate 7 (go t)) = some s' ∧ TicketIdle s' t (i + 1) ∧
      s'.sh.hist.draws.length = s.sh.hist.draws.length + 1 ∧
      s'.sh.counter = wrap32 (s.sh.counter + 1) ∧
      ∀ u, u ≠ t → s'.threads u = s.threads u := by
  obtain ⟨hty, hpc, hidx, hturn⟩ := h
  have hi' : (s.threads t).i < cfg.NUM_ITERATIONS := by rw [hidx]; exact hi
  have hsome : (run cfg s (List.replicate 7 (go t))).isSome = true := by
    simp [List.replicate, run, step, go, ht, worker, hpc, hi', hty, lockEntry,
      upd_same, ticket_step, ticket_lock_draw, sync_fetch_and_add, ticket_lock_wait, hturn,
      unlockEntry, ticket_unlock]
  refine ⟨stateAfter cfg s (List.replicate 7 (go t)), run_stateAfter hsome, ?_, ?_, ?_, ?_⟩
  · simp [TicketIdle, stateAfter, List.replicate, run, step, go, ht, worker, hpc, hi', hty,
      lockEntry, upd_same, ticket_step, ticket_lock_draw, sync_fetch_and_add,
      ticket_lock_wait, hturn, unlockEntry, ticket_unlock, hidx, hi]
  · simp [stateAfter, List.replicate, run, step, go, ht, worker, hpc, hi', hty,
      lockEntry, upd_same, ticket_step, ticket_lock_draw, sync_fetch_and_add,
      ticket_lock_wait, hturn, unlockEntry, ticket_unlock]
  · simp [stateAfter, List.replicate, run, step, go, ht, worker, hpc, hi', hty,
      lockEntry, upd_same, ticket_step, ticket_lock_draw, sync_fetch_and_add,
      ticket_lock_wait, hturn, unlockEntry, ticket_unlock]
  · intro u hu
    simp [stateAfter, List.replicate, run, step, go, ht, worker, hpc, hi', hty,
      lockEntry, upd_same, ticket_step, ticket_lock_draw, sync_fetch_and_add,
      ticket_lock_wait, hturn, unlockEntry, ticket_unlock, upd, hu]

/-- Uncontended iterations of one thread, one after the other. -/
theorem ticket_solo_iterations {cfg : Config} {t : Nat} (ht : t < cfg.NUM_THREADS) (n : Nat) :
    ∀ (s : State) (i : Nat) (c : Int), TicketIdle s t i → s.sh.counter = wrap32 c →
      i + n ≤ cfg.NUM_ITERATIONS →
    ∃ s', run cfg s (List.replicate (7 * n) (go t)) = some s' ∧ TicketIdle s' t (i + n) ∧
      s'.sh.hist.draws.length = s.sh.hist.draws.length + n ∧
      s'.sh.counter = wrap32 (c + n) ∧
      ∀ u, u ≠ t → s'.threads u = s.threads u := by
  induction n with
  | zero =>
    intro s i c h hc _
    exact ⟨s, by simp [run], h, rfl, by simpa using hc, fun _ _ => rfl⟩
  | succ n ih =>
    intro s i c h hc hle
    obtain ⟨s1, hr1, hi1, hd1, hc1, ho1⟩ := ticket_solo_iteration h ht (by omega)
    obtain ⟨s2, hr2, hi2, hd2, hc2, ho2⟩ := ih s1 (i + 1) (c + 1) hi1
      (by rw [hc1, hc, wrap32_succ]) (by omega)
    refine ⟨s2, ?_, ?_, ?_, ?_, ?_⟩
    · have : 7 * (n + 1) = 7 + 7 * n := by ring
      rw [this, List.replicate_add]
      exact run_append hr1 hr2
    · have : i + (n + 1) = i + 1 + n := by ring
      rw [this]; exact hi2
    · omega
    · rw [hc2]; congr 1; push_cast; ring
    · intro u hu
      rw [ho2 u hu, ho1 u hu]

/-- A thread at the loop test with iterations left enters `ticket_lock` and draws a
ticket. -/
theorem ticket_draw_only {cfg : Config} {s : State} {t i : Nat}
    (hty : s.sh.current_test_type = .TICKET) (hpc : (s.threads t).pc = .loopTest)
    (hidx : (s.threads t).i = i) (ht : t < cfg.NUM_THREADS) (hi : i < cfg.NUM_ITERATIONS) :
    ∃ s', run cfg s [go t, go t] = some s' ∧ s'.sh.current_test_type = .TICKET ∧
      s'.sh.hist.draws.length = s.sh.hist.draws.length + 1 ∧
      s'.sh.counter = s.sh.counter ∧
      ∀ u, u ≠ t → s'.threads u = s.threads u := by
  have hi' : (s.threads t).i < cfg.NUM_ITERATIONS := by rw [hidx]; exact hi
  have hsome : (run cfg s [go t, go t]).isSome = true := by
    simp [run, step, go, ht, worker, hpc, hi', hty, lockEntry, ticket_step]
  refine ⟨stateAfter cfg s [go t, go t], run_stateAfter hsome, ?_, ?_, ?_, ?_⟩
  · simp [stateAfter, run, step, go, ht, worker, hpc, hi', hty, lockEntry, ticket_step]
  · simp [stateAfter, run, step, go, ht, worker, hpc, hi', hty, lockEntry, ticket_step]
  · simp [stateAfter, run, step, go, ht, worker, hpc, hi', hty, lockEntry, ticket_step]
  · intro u hu
    simp [stateAfter, run, step, go, ht, worker, hpc, hi', hty, lockEntry, ticket_step,
      upd, hu]

/-- C8 (as stated) fails: with 2 threads and 2^30 + 1 iterations each, under
`wrapSchedule` the two threads complete 2^31 - 1 iterations between them (the counter is
2147483647 and has not overflowed), then thread 0 draws a ticket and captures
2147483647, and thread 1 draws the next ticket and captures -2147483648. -/
theorem C8_counterexample :
    Reachable wrapConfig .TICKET programStart
      (stateAfter wrapConfig (run_test .TICKET programStart) wrapSchedule) ∧
    (stateAfter wrapConfig (run_test .TICKET programStart)
      wrapSchedule).sh.hist.drawn[2147483647]? = some 2147483647 ∧
    (stateAfter wrapConfig (run_test .TICKET programStart)
      wrapSchedule).sh.hist.drawn[2147483648]? = some (-2147483648) ∧
    (stateAfter wrapConfig (run_test .TICKET programStart) wrapSchedule).sh.counter
      = 2147483647 ∧
    (stateAfter wrapConfig (run_test .TICKET programStart)
      wrapSchedule).sh.ticket_lock_var.ticket = -2147483647 := by
  have h0 : TicketIdle (run_test .TICKET programStart) 0 0 := by
    simp [TicketIdle, run_test, run_test_setup, ticket_init, workerEntry]
  obtain ⟨s1, hr1, hi1, hd1, hc1, ho1⟩ :=
    @ticket_solo_iterations wrapConfig 0 (by decide) 1073741824 _ 0 0 h0 (by rfl) (by decide)
  have h1 : TicketIdle s1 1 0 := by
    refine ⟨hi1.1, ?_, ?_, hi1.2.2.2⟩
    · rw [ho1 1 (by decide)]; rfl
    · rw [ho1 1 (by decide)]; rfl
  obtain ⟨s2, hr2, hi2, hd2, hc2, ho2⟩ :=
    @ticket_solo_iterations wrapConfig 1 (by decide) 1073741823 _ 0 _ h1 hc1 (by decide)
  obtain ⟨s3, hr3, hty3, hd3, hc3, ho3⟩ :=
    @ticket_draw_only wrapConfig s2 0 1073741824 hi2.1
      (by rw [ho2 0 (by decide)]; exact hi1.2.1)
      (by rw [ho2 0 (by decide)]; exact hi1.2.2.1) (by decide) (by decide)
  obtain ⟨s4, hr4, hty4, hd4, hc4, ho4⟩ :=
    @ticket_draw_only wrapConfig s3 1 1073741823 hty3
      (by rw [ho3 1 (by decide)]; exact hi2.2.1)
      (by rw [ho3 1 (by decide)]; exact hi2.2.2.1) (by decide) (by decide)
  have hrun : run wrapConfig (run_test .TICKET programStart) wrapSchedule = some s4 :=
    run_append (run_append hr1 hr2) (run_append hr3 hr4)
  have hst : stateAfter wrapConfig (run_test .TICKET programStart) wrapSchedule = s4 := by
    simp only [stateAfter, hrun, Option.getD_some]
  rw [hst]
  have hreach := reachable_run _ (@Reachable.init _ .TICKET _) hrun
  obtain ⟨htk, -, hdv⟩ := ticket_counts hreach
  have hlen : s4.sh.hist.draws.length = 2147483649 := by
    rw [hd4, hd3, hd2, hd1]; rfl
  refine ⟨hreach, ?_, ?_, ?_, ?_⟩
  · rw [hdv, hlen, List.getElem?_map, List.getElem?_range (by norm_num)]
    simp [wrap32]
  · rw [hdv, hlen, List.getElem?_map, List.getElem?_range (by norm_num)]
    simp [wrap32]
  · rw [hc4, hc3, hc2]
    decide
  · rw [htk, hlen]
    decide

/-- Witness of C8: threads 0, 1 and 2 of the source benchmark draw tickets 0, 1 and 2. -/
theorem C8_tickets_increasing_witness :
    Reachable sourceConfig .TICKET programStart
      (stateAfter sourceConfig (run_test .TICKET programStart)
        [go 0, go 0, go 1, go 1, go 2, go 2]) ∧
    (stateAfter sourceConfig (run_test .TICKET programStart)
        [go 0, go 0, go 1, go 1, go 2, go 2]).sh.hist.draws.length ≤ 2147483648 ∧
    (stateAfter sourceConfig (run_test .TICKET programStart)
        [go 0, go 0, go 1, go 1, go 2, go 2]).sh.hist.drawn = [0, 1, 2] ∧
    (stateAfter sourceConfig (run_test .TICKET programStart)
        [go 0, go 0, go 1, go 1, go 2, go 2]).sh.hist.drawn.Pairwise (· < ·) :=
  ⟨reachable_stateAfter (by decide), by decide, by decide,
   (C8_tickets_increasing sourceConfig programStart _ (reachable_stateAfter (by decide))
      (by decide)).2.1⟩

/-! ## The queue lock -/

theorem owner_keep {threads : Nat → Thread} {P : PC → Bool} {o : Option Nat} {t : Nat}
    {th' : Thread} (hown : ∀ u, P (threads u).pc = true ↔ o = some u)
    (hpc : P th'.pc = P (threads t).pc) :
    ∀ u, P (upd threads t th' u).pc = true ↔ o = some u := by
  intro u
  by_cases hu : u = t
  · subst hu; simp [hpc, hown]
  · simp [upd_other _ _ hu, hown]

theorem owner_acquire {threads : Nat → Thread} {P : PC → Bool} {t : Nat}
    {th' : Thread} (hown : ∀ u, P (threads u).pc = true ↔ (none : Option Nat) = some u)
    (hpc : P th'.pc = true) :
    ∀ u, P (upd threads t th' u).pc = true ↔ some t = some u := by
  intro u
  by_cases hu : u = t
  · subst hu; simp [hpc]
  · have := hown u
    simp only [reduceCtorEq, iff_false] at this
    simp [upd_other _ _ hu, this, Ne.symm hu]

theorem owner_release {threads : Nat → Thread} {P : PC → Bool} {o : Option Nat} {t : Nat}
    {th' : Thread} (hown : ∀ u, P (threads u).pc = true ↔ o = some u)
    (ho : P (threads t).pc = true) (hpc : P th'.pc = false) :
    ∀ u, P (upd threads t th' u).pc = true ↔ (none : Option Nat) = some u := by
  have hot : o = some t := (hown t).1 ho
  subst hot
  intro u
  by_cases hu : u = t
  · subst hu; simp [hpc]
  · have := hown u
    simp [upd_other _ _ hu, this, Ne.symm hu]

/-- The guard after a step of `queue_step`. -/
theorem queue_gown_step {cfg : Config} {s : State} {t pick : Nat} {sh' : Shared}
    {th' : Thread} (h : QueueInv cfg s)
    (hq : QStep t pick s.sh (s.threads t) sh' th') :
    ∃ g : Option Nat, sh'.queue_lock_var.guard = (if g.isSome then 1 else 0) ∧
      ∀ u, (upd s.threads t th' u).pc.holdsGuard = true ↔ g = some u := by
  obtain ⟨g, hg, hown⟩ := h.gown
  have hnone : s.sh.queue_lock_var.guard ≠ 1 → g = none := by
    intro hne
    cases g with
    | none => rfl
    | some x => simp at hg; exact absurd hg hne
  have hsome : ∀ {pc : PC}, (s.threads t).pc = pc → pc.holdsGuard = true → g = some t := by
    intro pc hpc hh
    exact (hown t).1 (by rw [hpc]; exact hh)
  cases hq with
  | guardSpin pc hpc hg1 hpceq =>
    subst hpceq
    exact ⟨g, by simpa [hg1] using hg, owner_keep hown rfl⟩
  | qGuardLock hpc hne =>
    have := hnone hne; subst this
    exact ⟨some t, by simp, owner_acquire hown (by simp [PC.holdsGuard])⟩
  | uGuardLock hpc hne =>
    have := hnone hne; subst this
    exact ⟨some t, by simp, owner_acquire hown (by simp [PC.holdsGuard])⟩
  | qGuardRelFast hpc =>
    exact ⟨none, by simp, owner_release hown (by simp [hpc, PC.holdsGuard])
      (by simp [PC.holdsGuard])⟩
  | qGuardRelSlow hpc =>
    exact ⟨none, by simp, owner_release hown (by simp [hpc, PC.holdsGuard])
      (by simp [PC.holdsGuard])⟩
  | uGuardRel hpc =>
    exact ⟨none, by simp, owner_release hown (by simp [hpc, PC.holdsGuard])
      (by simp [PC.holdsGuard])⟩
  | qTestFree hpc _ => exact ⟨g, hg, owner_keep hown (by simp [hpc, PC.holdsGuard])⟩
  | qTestHeld hpc _ => exact ⟨g, hg, owner_keep hown (by simp [hpc, PC.holdsGuard])⟩
  | qSetFlagFast hpc => exact ⟨g, hg, owner_keep hown (by simp [hpc, PC.holdsGuard])⟩
  | qMutexLock hpc _ => exact ⟨g, hg, owner_keep hown (by simp [hpc, PC.holdsGuard])⟩
  | qWhileHeld hpc _ => exact ⟨g, hg, owner_keep hown (by simp [hpc, PC.holdsGuard])⟩
  | qWhileFree hpc _ => exact ⟨g, hg, owner_keep hown (by simp [hpc, PC.holdsGuard])⟩
  | qCondWait hpc => exact ⟨g, hg, owner_keep hown (by simp [hpc, PC.holdsGuard])⟩
  | qWake hpc _ _ => exact ⟨g, hg, owner_keep hown (by simp [hpc, PC.holdsGuard])⟩
  | qSetFlagSlow hpc => exact ⟨g, hg, owner_keep hown (by simp [hpc, PC.holdsGuard])⟩
  | qMutexUnlockSlow hpc => exact ⟨g, hg, owner_keep hown (by simp [hpc, PC.holdsGuard])⟩
  | uClearFlag hpc => exact ⟨g, hg, owner_keep hown (by simp [hpc, PC.holdsGuard])⟩
  | uMutexLock hpc _ => exact ⟨g, hg, owner_keep hown (by simp [hpc, PC.holdsGuard])⟩
  | uSignalNone hpc _ => exact ⟨g, hg, owner_keep hown (by simp [hpc, PC.holdsGuard])⟩
  | uSignalWake hpc _ => exact ⟨g, hg, owner_keep hown (by simp [hpc, PC.holdsGuard])⟩
  | uMutexUnlock hpc => exact ⟨g, hg, owner_keep hown (by simp [hpc, PC.holdsGuard])⟩

/-- The mutex after a step of `queue_step`. -/
theorem queue_mown_step {cfg : Config} {s : State} {t pick : Nat} {sh' : Shared}
    {th' : Thread} (h : QueueInv cfg s)
    (hq : QStep t pick s.sh (s.threads t) sh' th') :
    ∀ u, (upd s.threads t th' u).pc.holdsMutex = true ↔ sh'.queue_lock_var.q_mutex = some u := by
  have hown := h.mown
  cases hq with
  | guardSpin pc hpc hg1 hpceq =>
    subst hpceq
    exact owner_keep hown rfl
  | qMutexLock hpc hm =>
    rw [hm] at hown
    exact owner_acquire hown (by simp [PC.holdsMutex])
  | uMutexLock hpc hm =>
    rw [hm] at hown
    exact owner_acquire hown (by simp [PC.holdsMutex])
  | qWake hpc _ hm =>
    rw [hm] at hown
    exact owner_acquire hown (by simp [PC.holdsMutex])
  | qCondWait hpc =>
    exact owner_release hown (by simp [hpc, PC.holdsMutex]) (by simp [PC.holdsMutex])
  | qMutexUnlockSlow hpc =>
    exact owner_release hown (by simp [hpc, PC.holdsMutex]) (by simp [PC.holdsMutex])
  | uMutexUnlock hpc =>
    exact owner_release hown (by simp [hpc, PC.holdsMutex]) (by simp [PC.holdsMutex])
  | qGuardLock hpc _ => exact owner_keep hown (by simp [hpc, PC.holdsMutex])
  | uGuardLock hpc _ => exact owner_keep hown (by simp [hpc, PC.holdsMutex])
  | qGuardRelFast hpc => exact owner_keep hown (by simp [hpc, PC.holdsMutex])
  | qGuardRelSlow hpc => exact owner_keep hown (by simp [hpc, PC.holdsMutex])
  | uGuardRel hpc => exact owner_keep hown (by simp [hpc, PC.holdsMutex])
  | qTestFree hpc _ => exact owner_keep hown (by simp [hpc, PC.holdsMutex])
  | qTestHeld hpc _ => exact owner_keep hown (by simp [hpc, PC.holdsMutex])
  | qSetFlagFast hpc => exact owner_keep hown (by simp [hpc, PC.holdsMutex])
  | qWhileHeld hpc _ => exact owner_keep hown (by simp [hpc, PC.holdsMutex])
  | qWhileFree hpc _ => exact owner_keep hown (by simp [hpc, PC.holdsMutex])
  | qSetFlagSlow hpc => exact owner_keep hown (by simp [hpc, PC.holdsMutex])
  | uClearFlag hpc => exact owner_keep hown (by simp [hpc, PC.holdsMutex])
  | uSignalNone hpc _ => exact owner_keep hown (by simp [hpc, PC.holdsMutex])
  | uSignalWake hpc _ => exact owner_keep hown (by simp [hpc, PC.holdsMutex])

theorem cnd_keep {threads : Nat → Thread} {cond : List Nat} {t : Nat} {th' : Thread}
    (hc : ∀ u, u ∈ cond → (threads u).pc = .qWaiting) (ht : t ∉ cond) :
    ∀ u, u ∈ cond → (upd threads t th' u).pc = .qWaiting := by
  intro u hu
  have hne : u ≠ t := by rintro rfl; exact ht hu
  rw [upd_other _ _ hne]
  exact hc u hu

/-- The wait set after a step of `queue_step`. -/
theorem queue_cnd_step {cfg : Config} {s : State} {t pick : Nat} {sh' : Shared}
    {th' : Thread} (h : QueueInv cfg s)
    (hq : QStep t pick s.sh (s.threads t) sh' th') :
    sh'.queue_lock_var.cond.Nodup ∧
      ∀ u, u ∈ sh'.queue_lock_var.cond → (upd s.threads t th' u).pc = .qWaiting := by
  obtain ⟨hnd, hc⟩ := h.cnd
  have hnot : (s.threads t).pc ≠ .qWaiting → t ∉ s.sh.queue_lock_var.cond := by
    intro hne hm
    exact hne (hc t hm)
  cases hq with
  | qCondWait hpc =>
    have ht := hnot (by simp [hpc])
    refine ⟨List.Nodup.append hnd (List.nodup_singleton t) (by simpa using ht), ?_⟩
    intro u hu
    simp only [List.mem_append, List.mem_singleton] at hu
    by_cases hut : u = t
    · subst hut; simp
    · rw [upd_other _ _ hut]
      rcases hu with hu | hu
      · exact hc u hu
      · exact absurd hu hut
  | uSignalWake hpc hp =>
    have ht := hnot (by simp [hpc])
    refine ⟨hnd.erase _, ?_⟩
    intro u hu
    have hu' : u ∈ s.sh.queue_lock_var.cond := List.mem_of_mem_erase hu
    exact cnd_keep hc ht u hu'
  | qWake hpc hn _ => exact ⟨hnd, cnd_keep hc hn⟩
  | guardSpin pc hpc hg1 hpceq =>
    exact ⟨hnd, cnd_keep hc (hnot (by rcases hpc with hpc | hpc <;> simp [hpc]))⟩
  | qGuardLock hpc _ => exact ⟨hnd, cnd_keep hc (hnot (by simp [hpc]))⟩
  | uGuardLock hpc _ => exact ⟨hnd, cnd_keep hc (hnot (by simp [hpc]))⟩
  | qGuardRelFast hpc => exact ⟨hnd, cnd_keep hc (hnot (by simp [hpc]))⟩
  | qGuardRelSlow hpc => exact ⟨hnd, cnd_keep hc (hnot (by simp [hpc]))⟩
  | uGuardRel hpc => exact ⟨hnd, cnd_keep hc (hnot (by simp [hpc]))⟩
  | qTestFree hpc _ => exact ⟨hnd, cnd_keep hc (hnot (by simp [hpc]))⟩
  | qTestHeld hpc _ => exact ⟨hnd, cnd_keep hc (hnot (by simp [hpc]))⟩
  | qSetFlagFast hpc => exact ⟨hnd, cnd_keep hc (hnot (by simp [hpc]))⟩
  | qMutexLock hpc _ => exact ⟨hnd, cnd_keep hc (hnot (by simp [hpc]))⟩
  | qWhileHeld hpc _ => exact ⟨hnd, cnd_keep hc (hnot (by simp [hpc]))⟩
  | qWhileFree hpc _ => exact ⟨hnd, cnd_keep hc (hnot (by simp [hpc]))⟩
  | qSetFlagSlow hpc => exact ⟨hnd, cnd_keep hc (hnot (by simp [hpc]))⟩
  | qMutexUnlockSlow hpc => exact ⟨hnd, cnd_keep hc (hnot (by simp [hpc]))⟩
  | uClearFlag hpc => exact ⟨hnd, cnd_keep hc (hnot (by simp [hpc]))⟩
  | uMutexLock hpc _ => exact ⟨hnd, cnd_keep hc (hnot (by simp [hpc]))⟩
  | uSignalNone hpc _ => exact ⟨hnd, cnd_keep hc (hnot (by simp [hpc]))⟩
  | uMutexUnlock hpc => exact ⟨hnd, cnd_keep hc (hnot (by simp [hpc]))⟩

theorem setFlag_keep {threads : Nat → Thread} {t : Nat} {th' : Thread}
    (hex : ∃ u, (threads u).pc.setFlag = true)
    (hk : (threads t).pc.setFlag = true → th'.pc.setFlag = true) :
    ∃ u, (upd threads t th' u).pc.setFlag = true := by
  obtain ⟨u, hu⟩ := hex
  by_cases hut : u = t
  · subst hut; exact ⟨u, by simpa using hk hu⟩
  · exact ⟨u, by rw [upd_other _ _ hut]; exact hu⟩

/-- The flag after a step of `queue_step`. -/
theorem queue_flagH_step {cfg : Config} {s : State} {t pick : Nat} {sh' : Shared}
    {th' : Thread} (h : QueueInv cfg s)
    (hq : QStep t pick s.sh (s.threads t) sh' th') :
    sh'.queue_lock_var.flag = 1 → ∃ u, (upd s.threads t th' u).pc.setFlag = true := by
  have hf := h.flagH
  cases hq with
  | qSetFlagFast hpc => intro _; exact ⟨t, by simp [PC.setFlag]⟩
  | qSetFlagSlow hpc => intro _; exact ⟨t, by simp [PC.setFlag]⟩
  | uClearFlag hpc => intro h0; simp at h0
  | guardSpin pc hpc hg1 hpceq =>
    subst hpceq
    intro h1; exact setFlag_keep (hf h1) (fun x => x)
  | qGuardLock hpc _ => intro h1; exact setFlag_keep (hf h1) (by simp [hpc, PC.setFlag])
  | uGuardLock hpc _ => intro h1; exact setFlag_keep (hf h1) (by simp [hpc, PC.setFlag])
  | qGuardRelFast hpc => intro h1; exact setFlag_keep (hf h1) (by simp [hpc, PC.setFlag])
  | qGuardRelSlow hpc => intro h1; exact setFlag_keep (hf h1) (by simp [hpc, PC.setFlag])
  | uGuardRel hpc => intro h1; exact setFlag_keep (hf h1) (by simp [hpc, PC.setFlag])
  | qTestFree hpc _ => intro h1; exact setFlag_keep (hf h1) (by simp [hpc, PC.setFlag])
  | qTestHeld hpc _ => intro h1; exact setFlag_keep (hf h1) (by simp [hpc, PC.setFlag])
  | qMutexLock hpc _ => intro h1; exact setFlag_keep (hf h1) (by simp [hpc, PC.setFlag])
  | qWhileHeld hpc _ => intro h1; exact setFlag_keep (hf h1) (by simp [hpc, PC.setFlag])
  | qWhileFree hpc _ => intro h1; exact setFlag_keep (hf h1) (by simp [hpc, PC.setFlag])
  | qCondWait hpc => intro h1; exact setFlag_keep (hf h1) (by simp [hpc, PC.setFlag])
  | qWake hpc _ _ => intro h1; exact setFlag_keep (hf h1) (by simp [hpc, PC.setFlag])
  | qMutexUnlockSlow hpc => intro h1; exact setFlag_keep (hf h1) (by simp [hpc, PC.setFlag])
  | uMutexLock hpc _ => intro h1; exact setFlag_keep (hf h1) (by simp [hpc, PC.setFlag])
  | uSignalNone hpc _ => intro h1; exact setFlag_keep (hf h1) (by simp [hpc, PC.setFlag])
  | uSignalWake hpc _ => intro h1; exact setFlag_keep (hf h1) (by simp [hpc, PC.setFlag])
  | uMutexUnlock hpc => intro h1; exact setFlag_keep (hf h1) (by simp [hpc, PC.setFlag])

/-- Positions after a step of `queue_step`. -/
theorem queue_valid_step {cfg : Config} {s : State} {t pick : Nat} {sh' : Shared}
    {th' : Thread} (h : QueueInv cfg s)
    (hq : QStep t pick s.sh (s.threads t) sh' th') :
    ∀ u, (upd s.threads t th' u).pc.queueValid = true := by
  intro u
  by_cases hut : u = t
  · subst hut
    have hv := h.valid u
    cases hq with
    | guardSpin pc hpc hg1 hpceq => subst hpceq; simpa using hv
    | _ => simp [PC.queueValid]
  · rw [upd_other _ _ hut]; exact h.valid u

theorem wake_self {s : State} {t : Nat} {sh' : Shared} {th' : Thread}
    (ha : th'.pc.setFlag = true ∨ th'.pc = .uMutexLock ∨ th'.pc = .uSignal ∨
      th'.pc = .qWhileTest ∨ th'.pc = .qSetFlagSlow) :
    ∃ u, active { sh := sh', threads := upd s.threads t th' } u := by
  refine ⟨t, ?_⟩
  simp only [active, upd_same]
  tauto

theorem wake_other {s : State} {t u : Nat} {sh' : Shared} {th' : Thread}
    (hu : active s u) (hne : u ≠ t)
    (hc : u ∉ s.sh.queue_lock_var.cond → u ∉ sh'.queue_lock_var.cond) :
    ∃ u, active { sh := sh', threads := upd s.threads t th' } u := by
  refine ⟨u, ?_⟩
  simp only [active, upd_other _ _ hne]
  simp only [active] at hu
  tauto

theorem wake_keep {cfg : Config} {s : State} {t : Nat} {sh' : Shared} {th' : Thread}
    (h : QueueInv cfg s) (hna : ¬ active s t)
    (hc : sh'.queue_lock_var.cond = s.sh.queue_lock_var.cond)
    (hpc : th'.pc ≠ .qCondWait ∨ (s.threads t).pc = .qCondWait) :
    (sh'.queue_lock_var.cond ≠ [] ∨ ∃ v, (upd s.threads t th' v).pc = .qCondWait) →
    ∃ u, active { sh := sh', threads := upd s.threads t th' } u := by
  intro hw
  have hw' : s.sh.queue_lock_var.cond ≠ [] ∨ ∃ v, (s.threads v).pc = .qCondWait := by
    rcases hw with hw | ⟨v, hv⟩
    · left; rwa [hc] at hw
    · right
      by_cases hvt : v = t
      · subst hvt
        rcases hpc with hpc | hpc
        · simp at hv; exact absurd hv hpc
        · exact ⟨v, hpc⟩
      · rw [upd_other _ _ hvt] at hv
        exact ⟨v, hv⟩
  obtain ⟨u, hu⟩ := h.wake hw'
  have hne : u ≠ t := by rintro rfl; exact hna hu
  exact wake_other hu hne (by rw [hc]; exact fun x => x)

theorem not_active_of {s : State} {t : Nat} {pc : PC} (hpc : (s.threads t).pc = pc)
    (h1 : pc.setFlag = false) (h2 : pc ≠ .uMutexLock) (h3 : pc ≠ .uSignal)
    (h4 : pc ≠ .qWhileTest) (h5 : pc ≠ .qSetFlagSlow) (h6 : pc ≠ .qWaiting) :
    ¬ active s t := by
  simp only [active, hpc, h1]
  simp [h2, h3, h4, h5, h6]

/-- The wake-up invariant after a step of `queue_step`. -/
theorem queue_wake_step {cfg : Config} {s : State} {t pick : Nat} {sh' : Shared}
    {th' : Thread} (h : QueueInv cfg s)
    (hq : QStep t pick s.sh (s.threads t) sh' th') :
    (sh'.queue_lock_var.cond ≠ [] ∨ ∃ v, (upd s.threads t th' v).pc = .qCondWait) →
    ∃ u, active { sh := sh', threads := upd s.threads t th' } u := by
  cases hq with
  | guardSpin pc hpc hg1 hpceq =>
    subst hpceq
    rcases hpc with hpc | hpc
    · exact wake_keep h (not_active_of hpc (by decide) (by decide) (by decide) (by decide)
        (by decide) (by decide)) rfl (Or.inl (by simp [hpc]))
    · intro _; exact wake_self (Or.inl (by simp [hpc, PC.setFlag]))
  | qGuardLock hpc _ =>
    exact wake_keep h (not_active_of hpc (by decide) (by decide) (by decide) (by decide)
      (by decide) (by decide)) rfl (Or.inl (by simp))
  | qTestFree hpc _ =>
    exact wake_keep h (not_active_of hpc (by decide) (by decide) (by decide) (by decide)
      (by decide) (by decide)) rfl (Or.inl (by simp))
  | qTestHeld hpc _ =>
    exact wake_keep h (not_active_of hpc (by decide) (by decide) (by decide) (by decide)
      (by decide) (by decide)) rfl (Or.inl (by simp))
  | qMutexLock hpc _ =>
    exact wake_keep h (not_active_of hpc (by decide) (by decide) (by decide) (by decide)
      (by decide) (by decide)) rfl (Or.inl (by simp))
  | uMutexUnlock hpc =>
    exact wake_keep h (not_active_of hpc (by decide) (by decide) (by decide) (by decide)
      (by decide) (by decide)) rfl (Or.inl (by simp))
  | uGuardRel hpc =>
    exact wake_keep h (not_active_of hpc (by decide) (by decide) (by decide) (by decide)
      (by decide) (by decide)) rfl (Or.inl (by simp))
  | qSetFlagFast hpc => intro _; exact wake_self (Or.inl (by simp [PC.setFlag]))
  | qGuardRelFast hpc => intro _; exact wake_self (Or.inl (by simp [PC.setFlag]))
  | qGuardRelSlow hpc => intro _; exact wake_self (by simp)
  | qWhileFree hpc _ => intro _; exact wake_self (by simp)
  | qWake hpc _ _ => intro _; exact wake_self (by simp)
  | qSetFlagSlow hpc => intro _; exact wake_self (Or.inl (by simp [PC.setFlag]))
  | qMutexUnlockSlow hpc => intro _; exact wake_self (Or.inl (by simp [PC.setFlag]))
  | uGuardLock hpc _ => intro _; exact wake_self (Or.inl (by simp [PC.setFlag]))
  | uClearFlag hpc => intro _; exact wake_self (by simp)
  | uMutexLock hpc _ => intro _; exact wake_self (by simp)
  | qWhileHeld hpc hf =>
    intro _
    obtain ⟨u, hu⟩ := h.flagH hf
    have hne : u ≠ t := by
      rintro rfl
      rw [hpc] at hu
      simp [PC.setFlag] at hu
    exact wake_other (Or.inl hu) hne (fun x => x)
  | qCondWait hpc =>
    intro _
    obtain ⟨u, hu⟩ := h.wake (Or.inr ⟨t, hpc⟩)
    have hne : u ≠ t := by
      rintro rfl
      exact not_active_of hpc (by decide) (by decide) (by decide) (by decide)
        (by decide) (by decide) hu
    exact wake_other hu hne (by
      intro hx
      simp only [List.mem_append, List.mem_singleton, not_or]
      exact ⟨hx, hne⟩)
  | uSignalNone hpc hc =>
    intro hw
    exfalso
    rcases hw with hw | ⟨v, hv⟩
    · exact hw hc
    · by_cases hvt : v = t
      · subst hvt; simp at hv
      · rw [upd_other _ _ hvt] at hv
        have h1 := (h.mown v).1 (by simp [hv, PC.holdsMutex])
        have h2 := (h.mown t).1 (by simp [hpc, PC.holdsMutex])
        rw [h1] at h2
        simp only [Option.some.injEq] at h2
        exact hvt h2
  | uSignalWake hpc hp =>
    intro _
    have hpw := h.cnd.2 pick hp
    have hne : pick ≠ t := by
      rintro rfl
      rw [hpc] at hpw
      cases hpw
    refine ⟨pick, ?_⟩
    simp only [active, upd_other _ _ hne, hpw]
    right; right; right; right; right
    exact ⟨trivial, by simpa using (h.cnd.1.mem_erase_iff (a := pick) (b := pick)).not.2 (by simp)⟩

/-- A step of `worker` outside the lock functions keeps the invariant of the queue lock. -/
theorem queue_keep {cfg : Config} {s : State} {t : Nat} {sh' : Shared} {th' : Thread}
    (h : QueueInv cfg s) (ht : t < cfg.NUM_THREADS)
    (hty : sh'.current_test_type = s.sh.current_test_type)
    (hq : sh'.queue_lock_var = s.sh.queue_lock_var)
    (hv : th'.pc.queueValid = true)
    (hg : th'.pc.holdsGuard = (s.threads t).pc.holdsGuard)
    (hm : th'.pc.holdsMutex = (s.threads t).pc.holdsMutex)
    (hw : (s.threads t).pc ≠ .qWaiting)
    (hf : (s.threads t).pc.setFlag = true → th'.pc.setFlag = true)
    (hwk : th'.pc.setFlag = true ∨ (¬ active s t ∧ th'.pc ≠ .qCondWait)) :
    QueueInv cfg { sh := sh', threads := upd s.threads t th' } := by
  have htc : t ∉ s.sh.queue_lock_var.cond := fun hm => hw (h.cnd.2 t hm)
  constructor
  · simpa [hty] using h.ty
  · intro u hu
    have : u ≠ t := by omega
    simpa [upd_other _ _ this] using h.idle u hu
  · intro u
    by_cases hut : u = t
    · subst hut; simpa using hv
    · simp only [upd_other _ _ hut]; exact h.valid u
  · obtain ⟨g, hgv, hown⟩ := h.gown
    exact ⟨g, by simpa [hq] using hgv, owner_keep hown hg⟩
  · simp only [hq]
    exact owner_keep h.mown hm
  · simp only [hq]
    exact ⟨h.cnd.1, cnd_keep h.cnd.2 htc⟩
  · simp only [hq]
    intro h1
    exact setFlag_keep (h.flagH h1) hf
  · rcases hwk with hwk | ⟨hna, hne⟩
    · intro _; exact wake_self (Or.inl hwk)
    · exact wake_keep h hna (by rw [hq]) (Or.inl hne)

theorem queue_inv_init (cfg : Config) (prev : Shared) :
    QueueInv cfg (run_test .QUEUE prev) := by
  constructor
  · rfl
  · intro _ _; rfl
  · intro _; rfl
  · exact ⟨none, rfl, fun t => by simp [run_test, workerEntry, PC.holdsGuard]⟩
  · intro t; simp [run_test, run_test_setup, queue_lock_init, workerEntry, PC.holdsMutex]
  · simp [run_test, run_test_setup, queue_lock_init]
  · simp [run_test, run_test_setup, queue_lock_init]
  · simp [run_test, run_test_setup, queue_lock_init, workerEntry]

/-- The invariant of the queue lock holds in every state of a run. -/
theorem queue_inv {cfg : Config} {prev : Shared} {s : State}
    (hs : Reachable cfg .QUEUE prev s) : QueueInv cfg s := by
  refine @Reachable.rec_on_steps cfg .QUEUE prev (QueueInv cfg) (queue_inv_init cfg prev)
    ?_ ?_ s hs
  · intro s t pick sh' th' hr ih ht hw
    have hty := ih.ty
    rcases worker_cases hw with ⟨h1, h2, rfl, rfl⟩ | ⟨h1, h2, rfl, rfl⟩ | ⟨h1, rfl, rfl⟩ |
      ⟨h1, rfl, rfl⟩ | ⟨h1, rfl, rfl⟩ | ⟨n1, n2, n3, n4, n5, hl⟩
    · exact queue_keep ih ht rfl rfl (by simp [hty, lockEntry, PC.queueValid])
        (by simp [h1, hty, lockEntry, PC.holdsGuard])
        (by simp [h1, hty, lockEntry, PC.holdsMutex]) (by simp [h1])
        (by simp [h1, PC.setFlag])
        (Or.inr ⟨not_active_of h1 (by decide) (by decide) (by decide) (by decide)
          (by decide) (by decide), by simp [hty, lockEntry]⟩)
    · exact queue_keep ih ht rfl rfl (by simp [PC.queueValid])
        (by simp [h1, PC.holdsGuard]) (by simp [h1, PC.holdsMutex]) (by simp [h1])
        (by simp [h1, PC.setFlag])
        (Or.inr ⟨not_active_of h1 (by decide) (by decide) (by decide) (by decide)
          (by decide) (by decide), by simp⟩)
    · exact queue_keep ih ht rfl rfl (by simp [PC.queueValid])
        (by simp [h1, PC.holdsGuard]) (by simp [h1, PC.holdsMutex]) (by simp [h1])
        (by simp [h1, PC.setFlag]) (Or.inl (by simp [PC.setFlag]))
    · exact queue_keep ih ht rfl rfl (by simp [hty, unlockEntry, PC.queueValid])
        (by simp [h1, hty, unlockEntry, PC.holdsGuard])
        (by simp [h1, hty, unlockEntry, PC.holdsMutex]) (by simp [h1])
        (by simp [h1, hty, unlockEntry, PC.setFlag])
        (Or.inl (by simp [hty, unlockEntry, PC.setFlag]))
    · exact queue_keep ih ht rfl rfl (by simp [PC.queueValid])
        (by simp [h1, PC.holdsGuard]) (by simp [h1, PC.holdsMutex]) (by simp [h1])
        (by simp [h1, PC.setFlag])
        (Or.inr ⟨not_active_of h1 (by decide) (by decide) (by decide) (by decide)
          (by decide) (by decide), by simp⟩)
    · rcases hl with ⟨hc, hl⟩ | ⟨hc, hl⟩ | ⟨hc, hl⟩ | ⟨hc, hl⟩ | ⟨hc, hl⟩
      · rw [hty] at hc; cases hc
      · rw [hty] at hc; cases hc
      · rw [hty] at hc; cases hc
      · rw [hty] at hc; cases hc
      · have hq := queue_step_inv hl
        refine ⟨?_, ?_, queue_valid_step ih hq, queue_gown_step ih hq, queue_mown_step ih hq,
          queue_cnd_step ih hq, queue_flagH_step ih hq, queue_wake_step ih hq⟩
        · rw [← hty]; exact worker_type hw
        · intro u hu
          have : u ≠ t := by omega
          simpa [upd_other _ _ this] using ih.idle u hu
  · intro s t hr ih hq hm
    have hpw := ih.cnd.2 t hm
    have hnm : t ∉ s.sh.queue_lock_var.cond.erase t := by
      simpa using (ih.cnd.1.mem_erase_iff (a := t) (b := t)).not.2 (by simp)
    constructor
    · exact ih.ty
    · exact ih.idle
    · exact ih.valid
    · exact ih.gown
    · exact ih.mown
    · exact ⟨ih.cnd.1.erase _, fun u hu => ih.cnd.2 u (List.mem_of_mem_erase hu)⟩
    · exact ih.flagH
    · intro _
      refine ⟨t, ?_⟩
      simp only [active, hpw]
      right; right; right; right; right
      exact ⟨trivial, hnm⟩

/-! ## Progress -/

theorem sum_lt_single {N : Nat} {f g : Nat → Nat} {t : Nat} (ht : t < N)
    (ho : ∀ u, u < N → u ≠ t → g u = f u) (hlt : g t < f t) :
    Finset.sum (Finset.range N) g < Finset.sum (Finset.range N) f := by
  apply Finset.sum_lt_sum
  · intro u hu
    simp only [Finset.mem_range] at hu
    by_cases hut : u = t
    · subst hut; omega
    · rw [ho u hu hut]
  · exact ⟨t, by simpa using ht, hlt⟩

theorem sum_lt_pair {N : Nat} {f g : Nat → Nat} {t w : Nat} (ht : t < N) (hw : w < N)
    (hne : w ≠ t) (ho : ∀ u, u < N → u ≠ t → u ≠ w → g u = f u)
    (hlt : g t + g w < f t + f w) :
    Finset.sum (Finset.range N) g < Finset.sum (Finset.range N) f := by
  have htm : t ∈ Finset.range N := by simpa using ht
  have hwm : w ∈ (Finset.range N).erase t := by simp [hne, hw]
  have hrest : Finset.sum (((Finset.range N).erase t).erase w) g =
      Finset.sum (((Finset.range N).erase t).erase w) f := by
    apply Finset.sum_congr rfl
    intro u hu
    simp only [Finset.mem_erase, Finset.mem_range] at hu
    exact ho u hu.2.2 hu.2.1 hu.1
  have e1 : Finset.sum (Finset.range N) g =
      g t + (g w + Finset.sum (((Finset.range N).erase t).erase w) f) := by
    rw [← Finset.add_sum_erase _ g htm, ← Finset.add_sum_erase _ g hwm, hrest]
  have e2 : Finset.sum (Finset.range N) f =
      f t + (f w + Finset.sum (((Finset.range N).erase t).erase w) f) := by
    rw [← Finset.add_sum_erase _ f htm, ← Finset.add_sum_erase _ f hwm]
  rw [e1, e2]
  omega

/-- In every state of a run a thread inside an iteration has `i < NUM_ITERATIONS`. -/
theorem reachable_iter {cfg : Config} {type : LockType} {prev : Shared} {s : State}
    (hs : Reachable cfg type prev s) :
    ∀ t, (s.threads t).pc ≠ .loopTest → (s.threads t).pc ≠ .done →
      (s.threads t).i < cfg.NUM_ITERATIONS := by
  refine @Reachable.rec_on_steps cfg type prev (fun s => ∀ t, (s.threads t).pc ≠ .loopTest →
    (s.threads t).pc ≠ .done → (s.threads t).i < cfg.NUM_ITERATIONS) ?_ ?_ ?_ s hs
  · intro t h1; simp [run_test, workerEntry] at h1
  · intro s t pick sh' th' hr ih ht hw u
    by_cases hut : u = t
    · subst hut
      simp only [upd_same]
      have ihu := ih u
      rcases worker_cases hw with ⟨h1, h2, rfl, rfl⟩ | ⟨h1, h2, rfl, rfl⟩ | ⟨h1, rfl, rfl⟩ |
        ⟨h1, rfl, rfl⟩ | ⟨h1, rfl, rfl⟩ | ⟨n1, n2, n3, n4, n5, hl⟩
      · intro _ _; exact h2
      · intro _ hd; simp at hd
      · intro _ _; exact ihu (by simp [h1]) (by simp [h1])
      · intro _ _; exact ihu (by simp [h1]) (by simp [h1])
      · intro hl; simp at hl
      · have hi := ihu n1 n5
        rcases hl with ⟨hc, hl⟩ | ⟨hc, hl⟩ | ⟨hc, hl⟩ | ⟨hc, hl⟩ | ⟨hc, hl⟩
        · unfold spin_step at hl
          split at hl <;> simp at hl <;> obtain ⟨rfl, rfl⟩ := hl <;> intro _ _ <;> exact hi
        · unfold cas_step at hl
          split at hl <;> simp at hl <;> obtain ⟨rfl, rfl⟩ := hl <;> intro _ _ <;> exact hi
        · cases ticket_step_inv hl <;> intro _ _ <;> exact hi
        · unfold yield_step at hl
          split at hl <;> simp at hl <;> obtain ⟨rfl, rfl⟩ := hl <;> intro _ _ <;> exact hi
        · cases queue_step_inv hl <;> intro _ _ <;> exact hi
    · simp only [upd_other _ _ hut]
      exact ih u
  · intro s t hr ih hq hm
    exact ih

/-- The loop index of a worker never exceeds `NUM_ITERATIONS`: it stays in the range of
the `int` that holds it in the source. -/
theorem reachable_index_le {cfg : Config} {type : LockType} {prev : Shared} {s : State}
    (hs : Reachable cfg type prev s) : ∀ t, (s.threads t).i ≤ cfg.NUM_ITERATIONS := by
  refine @Reachable.rec_on_steps cfg type prev
    (fun s => ∀ t, (s.threads t).i ≤ cfg.NUM_ITERATIONS) ?_ ?_ ?_ s hs
  · intro t; simp [run_test, workerEntry]
  · intro s t pick sh' th' hr ih ht hw u
    by_cases hut : u = t
    · subst hut
      simp only [upd_same]
      have ihu := ih u
      rcases worker_cases hw with ⟨h1, h2, rfl, rfl⟩ | ⟨h1, h2, rfl, rfl⟩ | ⟨h1, rfl, rfl⟩ |
        ⟨h1, rfl, rfl⟩ | ⟨h1, rfl, rfl⟩ | ⟨n1, n2, n3, n4, n5, hl⟩
      · exact ihu
      · exact ihu
      · exact ihu
      · exact ihu
      · have := reachable_iter hr u (by simp [h1]) (by simp [h1])
        simp only
        omega
      · rcases hl with ⟨hc, hl⟩ | ⟨hc, hl⟩ | ⟨hc, hl⟩ | ⟨hc, hl⟩ | ⟨hc, hl⟩
        · unfold spin_step at hl
          split at hl <;> simp at hl <;> obtain ⟨rfl, rfl⟩ := hl <;> exact ihu
        · unfold cas_step at hl
          split at hl <;> simp at hl <;> obtain ⟨rfl, rfl⟩ := hl <;> exact ihu
        · cases ticket_step_inv hl <;> exact ihu
        · unfold yield_step at hl
          split at hl <;> simp at hl <;> obtain ⟨rfl, rfl⟩ := hl <;> exact ihu
        · cases queue_step_inv hl <;> exact ihu
    · simp only [upd_other _ _ hut]
      exact ih u
  · intro s t hr ih hq hm
    exact ih

/-- A step that moves a thread to another position, other than into `sched_yield`,
reduces the work the thread has left. -/
theorem worker_decreases {cfg : Config} {t pick : Nat} {sh sh' : Shared} {th th' : Thread}
    (hw : worker cfg t pick sh th = some (sh', th'))
    (hi : th.pc ≠ .loopTest → th.pc ≠ .done → th.i < cfg.NUM_ITERATIONS)
    (hns : th'.pc ≠ th.pc) (hny : th'.pc ≠ .yielding) :
    remaining cfg sh' t th' < remaining cfg sh t th := by
  rcases worker_cases hw with ⟨h1, h2, rfl, rfl⟩ | ⟨h1, h2, rfl, rfl⟩ | ⟨h1, rfl, rfl⟩ |
    ⟨h1, rfl, rfl⟩ | ⟨h1, rfl, rfl⟩ | ⟨n1, n2, n3, n4, n5, hl⟩
  · cases hty : sh'.current_test_type <;> simp [remaining, weight, h1, lockEntry, hty]
  · simp [remaining, weight, h1]
  · simp [remaining, weight, h1]
  · cases hty : sh.current_test_type <;> simp [remaining, weight, h1, unlockEntry, hty]
  · have := hi (by simp [h1]) (by simp [h1])
    simp only [remaining, weight, h1]
    simp
    omega
  · have hi' := hi n1 n5
    rcases hl with ⟨hc, hl⟩ | ⟨hc, hl⟩ | ⟨hc, hl⟩ | ⟨hc, hl⟩ | ⟨hc, hl⟩
    · unfold spin_step at hl
      split at hl
      · rename_i hpc
        simp only [Option.some.injEq, Prod.mk.injEq] at hl
        obtain ⟨rfl, rfl⟩ := hl
        by_cases hr : (spinlock_lock sh.spin_lock_var).2 = true
        · simp [hr, hpc] at hns
        · simp [remaining, weight, hpc, hr]
      · rename_i hpc
        simp only [Option.some.injEq, Prod.mk.injEq] at hl
        obtain ⟨rfl, rfl⟩ := hl
        simp [remaining, weight, hpc]
      · simp at hl
    · unfold cas_step at hl
      split at hl
      · rename_i hpc
        simp only [Option.some.injEq, Prod.mk.injEq] at hl
        obtain ⟨rfl, rfl⟩ := hl
        by_cases hr : (cas_lock sh.cas_lock_var).2 = true
        · simp [hr, hpc] at hns
        · simp [remaining, weight, hpc, hr]
      · rename_i hpc
        simp only [Option.some.injEq, Prod.mk.injEq] at hl
        obtain ⟨rfl, rfl⟩ := hl
        simp [remaining, weight, hpc]
      · simp at hl
    · cases ticket_step_inv hl with
      | draw hpc => simp [remaining, weight, hpc]
      | spin hpc hne => exact absurd rfl hns
      | grant hpc heq => simp [remaining, weight, hpc]
      | release hpc => simp [remaining, weight, hpc]
    · unfold yield_step at hl
      split at hl
      · rename_i hpc
        simp only [Option.some.injEq, Prod.mk.injEq] at hl
        obtain ⟨rfl, rfl⟩ := hl
        by_cases hr : (yield_lock sh.yield_lock_var).2 = true
        · simp [hr] at hny
        · simp [remaining, weight, hpc, hr]
      · rename_i hpc
        simp only [Option.some.injEq, Prod.mk.injEq] at hl
        obtain ⟨rfl, rfl⟩ := hl
        simp [remaining, weight, hpc]
      · rename_i hpc
        simp only [Option.some.injEq, Prod.mk.injEq] at hl
        obtain ⟨rfl, rfl⟩ := hl
        simp [remaining, weight, hpc]
      · simp at hl
    · cases queue_step_inv hl with
      | guardSpin pc hpc hg1 hpceq => subst hpceq; exact absurd rfl hns
      | qWake hpc hn _ => simp [remaining, weight, hpc, hn]
      | qCondWait hpc => simp [remaining, weight, hpc]
      | qGuardLock hpc _ => simp [remaining, weight, hpc]
      | uGuardLock hpc _ => simp [remaining, weight, hpc]
      | qGuardRelFast hpc => simp [remaining, weight, hpc]
      | qGuardRelSlow hpc => simp [remaining, weight, hpc]
      | uGuardRel hpc => simp [remaining, weight, hpc]
      | qTestFree hpc _ => simp [remaining, weight, hpc]
      | qTestHeld hpc _ => simp [remaining, weight, hpc]
      | qSetFlagFast hpc => simp [remaining, weight, hpc]
      | qMutexLock hpc _ => simp [remaining, weight, hpc]
      | qWhileHeld hpc _ => simp [remaining, weight, hpc]
      | qWhileFree hpc _ => simp [remaining, weight, hpc]
      | qSetFlagSlow hpc => simp [remaining, weight, hpc]
      | qMutexUnlockSlow hpc => simp [remaining, weight, hpc]
      | uClearFlag hpc => simp [remaining, weight, hpc]
      | uMutexLock hpc _ => simp [remaining, weight, hpc]
      | uSignalNone hpc _ => simp [remaining, weight, hpc]
      | uSignalWake hpc _ => simp [remaining, weight, hpc]
      | uMutexUnlock hpc => simp [remaining, weight, hpc]

/-- The effect of a step on the wait set of the condition variable. -/
theorem worker_cond {cfg : Config} {t pick : Nat} {sh sh' : Shared} {th th' : Thread}
    (hw : worker cfg t pick sh th = some (sh', th')) :
    sh'.queue_lock_var.cond = sh.queue_lock_var.cond ∨
    sh'.queue_lock_var.cond = sh.queue_lock_var.cond ++ [t] ∨
    (sh.current_test_type = .QUEUE ∧ th.pc = .uSignal ∧ th' = { th with pc := .uMutexUnlock } ∧
      pick ∈ sh.queue_lock_var.cond ∧
      sh'.queue_lock_var.cond = sh.queue_lock_var.cond.erase pick) := by
  rcases worker_cases hw with ⟨h1, h2, rfl, rfl⟩ | ⟨h1, h2, rfl, rfl⟩ | ⟨h1, rfl, rfl⟩ |
    ⟨h1, rfl, rfl⟩ | ⟨h1, rfl, rfl⟩ | ⟨n1, n2, n3, n4, n5, hl⟩
  · exact Or.inl rfl
  · exact Or.inl rfl
  · exact Or.inl rfl
  · exact Or.inl rfl
  · exact Or.inl rfl
  · rcases hl with ⟨hc, hl⟩ | ⟨hc, hl⟩ | ⟨hc, hl⟩ | ⟨hc, hl⟩ | ⟨hc, hl⟩
    · unfold spin_step at hl
      split at hl <;> simp at hl <;> obtain ⟨rfl, rfl⟩ := hl <;> exact Or.inl rfl
    · unfold cas_step at hl
      split at hl <;> simp at hl <;> obtain ⟨rfl, rfl⟩ := hl <;> exact Or.inl rfl
    · cases ticket_step_inv hl <;> exact Or.inl rfl
    · unfold yield_step at hl
      split at hl <;> simp at hl <;> obtain ⟨rfl, rfl⟩ := hl <;> exact Or.inl rfl
    · cases queue_step_inv hl with
      | qCondWait hpc => exact Or.inr (Or.inl rfl)
      | uSignalWake hpc hp => exact Or.inr (Or.inr ⟨hc, hpc, rfl, hp, rfl⟩)
      | _ => exact Or.inl rfl

theorem remaining_congr {cfg : Config} {sh sh' : Shared} {u : Nat} {th : Thread}
    (h : u ∈ sh'.queue_lock_var.cond ↔ u ∈ sh.queue_lock_var.cond) :
    remaining cfg sh' u th = remaining cfg sh u th := by
  simp only [remaining, h]

/-- A thread that can advance makes progress. -/
theorem progress_of_advances {cfg : Config} {type : LockType} {prev : Shared} {s : State}
    {t : Nat} (pick : Nat) (hs : Reachable cfg type prev s) (ht : t < cfg.NUM_THREADS)
    (ha : advances cfg s t pick = true) : Progress cfg s := by
  unfold advances at ha
  cases hw : worker cfg t pick s.sh (s.threads t) with
  | none => simp [hw] at ha
  | some r =>
    obtain ⟨sh', th'⟩ := r
    simp only [hw, Bool.and_eq_true, decide_eq_true_eq] at ha
    obtain ⟨hns, hny⟩ := ha
    have hdec := worker_decreases (t := t) hw (reachable_iter hs t) hns hny
    have hstep : step cfg s (.run t pick) = some { sh := sh', threads := upd s.threads t th' } := by
      simp [step, ht, hw]
    refine ⟨t, pick, _, hstep, ?_⟩
    unfold potential
    rcases worker_cond hw with hc | hc | ⟨hty, hpc, hth, hp, hc⟩
    · apply sum_lt_single ht
      · intro u _ hut
        simp only [upd_other _ _ hut]
        exact remaining_congr (by rw [hc])
      · simpa using hdec
    · apply sum_lt_single ht
      · intro u _ hut
        simp only [upd_other _ _ hut]
        exact remaining_congr (by simp [hc, hut])
      · simpa using hdec
    · have htype := reachable_type hs
      rw [hty] at htype
      subst htype
      have hinv := queue_inv hs
      have hpw := hinv.cnd.2 pick hp
      have hne : pick ≠ t := by
        rintro rfl
        rw [hpc] at hpw
        cases hpw
      have hpN : pick < cfg.NUM_THREADS := by
        by_contra hge
        rw [hinv.idle pick (by omega)] at hpw
        simp [workerEntry] at hpw
      have hnm : pick ∉ sh'.queue_lock_var.cond := by
        rw [hc]
        simpa using (hinv.cnd.1.mem_erase_iff (a := pick) (b := pick)).not.2 (by simp)
      apply sum_lt_pair ht hpN hne
      · intro u _ hut hup
        simp only [upd_other _ _ hut]
        exact remaining_congr (by rw [hc]; exact List.mem_erase_of_ne hup)
      · simp only [upd_same, upd_other _ _ hne]
        subst hth
        simp [remaining, weight, hpc, hpw, hp, hnm]
        omega

/-- When every unfinished state of a run can make progress, every state of the run can
reach, by steps of threads alone, a state in which all workers have returned. -/
theorem finish_of_progress {cfg : Config} {type : LockType} {prev : Shared}
    (hp : ∀ s, Reachable cfg type prev s → ¬ Finished cfg s → Progress cfg s) :
    ∀ (n : Nat) (s : State), Reachable cfg type prev s → potential cfg s ≤ n →
      ∃ sched s', (∀ l, l ∈ sched → l.isRun = true) ∧ run cfg s sched = some s' ∧
        Finished cfg s' := by
  intro n
  induction n with
  | zero =>
    intro s hs hle
    by_cases hf : Finished cfg s
    · exact ⟨[], s, by simp, rfl, hf⟩
    · obtain ⟨t, pick, s', -, hlt⟩ := hp s hs hf
      omega
  | succ n ih =>
    intro s hs hle
    by_cases hf : Finished cfg s
    · exact ⟨[], s, by simp, rfl, hf⟩
    · obtain ⟨t, pick, s1, hstep, hlt⟩ := hp s hs hf
      obtain ⟨sched, s', hall, hrun, hfin⟩ :=
        ih s1 (Reachable.step _ hs hstep) (by omega)
      refine ⟨.run t pick :: sched, s', ?_, ?_, hfin⟩
      · intro l hl
        simp only [List.mem_cons] at hl
        rcases hl with rfl | hl
        · rfl
        · exact hall l hl
      · simp [run, hstep, hrun]

/-- Outside the lock functions a worker can always advance. -/
theorem advances_common {cfg : Config} {s : State} {t : Nat}
    (hpc : (s.threads t).pc = .loopTest ∨ (s.threads t).pc = .counterRead ∨
      (s.threads t).pc = .counterWrite ∨ (s.threads t).pc = .loopIncr) :
    advances cfg s t 0 = true := by
  rcases hpc with hpc | hpc | hpc | hpc
  · by_cases hi : (s.threads t).i < cfg.NUM_ITERATIONS <;>
      cases hty : s.sh.current_test_type <;>
      simp [advances, worker, hpc, hi, hty, lockEntry]
  · simp [advances, worker, hpc]
  · cases hty : s.sh.current_test_type <;> simp [advances, worker, hpc, hty, unlockEntry]
  · simp [advances, worker, hpc]

theorem exists_unfinished {cfg : Config} {s : State} (hf : ¬ Finished cfg s) :
    ∃ t, t < cfg.NUM_THREADS ∧ (s.threads t).pc ≠ .done := by
  unfold Finished at hf
  push_neg at hf
  exact hf

/-- Positions of the workers of a flag lock benchmark. -/
theorem flag_valid {cfg : Config} {type : LockType} {prev : Shared} {s : State}
    (hf : isFlagLock type = true) (hs : Reachable cfg type prev s) :
    ∀ t, (s.threads t).pc.flagValid = true ∧
      ((s.threads t).pc = .yielding → type = .YIELD) := by
  refine @Reachable.rec_on_steps cfg type prev (fun s => ∀ t,
    (s.threads t).pc.flagValid = true ∧ ((s.threads t).pc = .yielding → type = .YIELD))
    ?_ ?_ ?_ s hs
  · intro t; simp [run_test, workerEntry, PC.flagValid]
  · intro s t pick sh' th' hr ih ht hw u
    by_cases hut : u = t
    · subst hut
      simp only [upd_same]
      have hty := reachable_type hr
      have hf' : isFlagLock s.sh.current_test_type = true := by rw [hty]; exact hf
      obtain ⟨-, -, hc⟩ := flag_step_cases hf' hw
      rcases hc with ⟨h1, h2, rfl, rfl⟩ | ⟨h1, h2, rfl, rfl⟩ | ⟨h1, rfl, rfl⟩ |
        ⟨h1, h2, h3, rfl⟩ | ⟨h1, rfl, rfl⟩ | ⟨h1, h2, h3, h4, rfl⟩ | ⟨h1, h2, h3, h4, rfl⟩ |
        ⟨h1, h2, rfl, rfl⟩ | ⟨h1, h2, h3, rfl⟩
      · simp [PC.flagValid]
      · simp [PC.flagValid]
      · simp [PC.flagValid]
      · simp [PC.flagValid]
      · simp [PC.flagValid]
      · by_cases hy : s.sh.current_test_type = .YIELD
        · simp [hy, PC.flagValid, ← hty]
        · simp [hy, PC.flagValid]
      · simp [PC.flagValid]
      · simp [PC.flagValid]
      · simp [PC.flagValid]
    · simp only [upd_other _ _ hut]
      exact ih u
  · intro s t hr ih hq hm
    exact ih

/-- A flag lock benchmark that has not finished can make progress. -/
theorem flag_progress {cfg : Config} {type : LockType} {prev : Shared} {s : State}
    (hf : isFlagLock type = true) (hs : Reachable cfg type prev s)
    (hnf : ¬ Finished cfg s) : Progress cfg s := by
  obtain ⟨t, ht, hnd⟩ := exists_unfinished hnf
  have hown := flag_own hf hs
  have hty := hown.ty
  obtain ⟨o, hfl, hh⟩ := hown.own
  have hidle := hown.idle
  have hv := flag_valid hf hs
  have hold : ∀ h, (s.threads h).pc.holdsFlag = true → Progress cfg s := by
    intro h hh'
    have hlt : h < cfg.NUM_THREADS := by
      by_contra hge
      rw [hidle h (by omega)] at hh'
      simp [workerEntry, PC.holdsFlag] at hh'
    cases hpc : (s.threads h).pc <;> simp [hpc, PC.holdsFlag] at hh'
    · exact progress_of_advances 0 hs hlt (advances_common (Or.inr (Or.inl hpc)))
    · exact progress_of_advances 0 hs hlt (advances_common (Or.inr (Or.inr (Or.inl hpc))))
    · refine progress_of_advances 0 hs hlt ?_
      cases type <;> simp [isFlagLock] at hf <;>
        simp [advances, worker, hpc, hty, spin_step, cas_step, yield_step]
  have hvt := hv t
  cases hpc : (s.threads t).pc <;> simp [hpc, PC.flagValid] at hvt hnd
  · exact progress_of_advances 0 hs ht (advances_common (Or.inl hpc))
  · cases o with
    | some h => exact hold h ((hh h).2 rfl)
    | none =>
      have h0 : flagOf s.sh = 0 := by simpa using hfl
      refine progress_of_advances 0 hs ht ?_
      cases type <;> simp [isFlagLock] at hf
      · have : s.sh.spin_lock_var.flag = 0 := by rw [← flagOf_spin hty]; exact h0
        simp [advances, worker, hpc, hty, spin_step, spinlock_lock, sync_lock_test_and_set,
          this]
      · have : s.sh.cas_lock_var.flag = 0 := by rw [← flagOf_cas hty]; exact h0
        simp [advances, worker, hpc, hty, cas_step, cas_lock, sync_val_compare_and_swap, this]
      · have : s.sh.yield_lock_var.flag = 0 := by rw [← flagOf_yield hty]; exact h0
        simp [advances, worker, hpc, hty, yield_step, yield_lock, sync_lock_test_and_set,
          this]
  · have hy := hvt
    subst hy
    refine progress_of_advances 0 hs ht ?_
    simp [advances, worker, hpc, hty, yield_step]
  · exact hold t (by simp [hpc, PC.holdsFlag])
  · exact hold t (by simp [hpc, PC.holdsFlag])
  · exact hold t (by simp [hpc, PC.holdsFlag])
  · exact progress_of_advances 0 hs ht (advances_common (Or.inr (Or.inr (Or.inr hpc))))

/-- Positions of the workers of the ticket benchmark. -/
theorem ticket_valid {cfg : Config} {prev : Shared} {s : State}
    (hs : Reachable cfg .TICKET prev s) : ∀ t, (s.threads t).pc.ticketValid = true := by
  refine @Reachable.rec_on_steps cfg .TICKET prev
    (fun s => ∀ t, (s.threads t).pc.ticketValid = true) ?_ ?_ ?_ s hs
  · intro t; simp [run_test, workerEntry, PC.ticketValid]
  · intro s t pick sh' th' hr ih ht hw u
    by_cases hut : u = t
    · subst hut
      simp only [upd_same]
      have hty := reachable_type hr
      rcases worker_cases hw with ⟨h1, h2, rfl, rfl⟩ | ⟨h1, h2, rfl, rfl⟩ | ⟨h1, rfl, rfl⟩ |
        ⟨h1, rfl, rfl⟩ | ⟨h1, rfl, rfl⟩ | ⟨n1, n2, n3, n4, n5, hl⟩
      · simp [hty, lockEntry, PC.ticketValid]
      · simp [PC.ticketValid]
      · simp [PC.ticketValid]
      · simp [hty, unlockEntry, PC.ticketValid]
      · simp [PC.ticketValid]
      · rcases hl with ⟨hc, hl⟩ | ⟨hc, hl⟩ | ⟨hc, hl⟩ | ⟨hc, hl⟩ | ⟨hc, hl⟩
        · rw [hty] at hc; cases hc
        · rw [hty] at hc; cases hc
        · cases ticket_step_inv hl with
          | spin hpc hne => exact ih u
          | _ => simp [PC.ticketValid]
        · rw [hty] at hc; cases hc
        · rw [hty] at hc; cases hc
    · simp only [upd_other _ _ hut]
      exact ih u
  · intro s t hr ih hq hm
    exact ih

/-- When `turn` differs from `ticket`, some thread that has not completed
`ticket_unlock` holds the ticket equal to `turn`. -/
theorem ticket_turn_holder {cfg : Config} {s : State} (h : TicketInv cfg s)
    (hne : pending s ≠ []) :
    ∃ t, t < cfg.NUM_THREADS ∧ (s.threads t).pc.outstanding = true ∧
      (s.threads t).myturn = s.sh.ticket_lock_var.turn := by
  cases hp : pending s with
  | nil => exact absurd hp hne
  | cons x xs =>
    have hx : (pending s)[0]? = some x := by simp [hp]
    have hmem : x ∈ pending s := by simp [hp]
    have ho := (h.mem x).1 hmem
    refine ⟨x, outstanding_lt h.idle ho, ho, ?_⟩
    rw [h.my 0 x hx, h.tn]
    rfl

/-- A ticket benchmark that has not finished can make progress. -/
theorem ticket_progress {cfg : Config} {prev : Shared} {s : State}
    (hN : cfg.NUM_THREADS ≤ 4294967296) (hs : Reachable cfg .TICKET prev s)
    (hnf : ¬ Finished cfg s) : Progress cfg s := by
  obtain ⟨t, ht, hnd⟩ := exists_unfinished hnf
  have hinv := ticket_inv hN hs
  have hty := hinv.ty
  have hv := ticket_valid hs
  have hout : ∀ h, h < cfg.NUM_THREADS → (s.threads h).pc.outstanding = true →
      (s.threads h).myturn = s.sh.ticket_lock_var.turn → Progress cfg s := by
    intro h hlt ho hmy
    cases hpc : (s.threads h).pc <;> simp [hpc, PC.outstanding] at ho
    · refine progress_of_advances 0 hs hlt ?_
      simp [advances, worker, hpc, hty, ticket_step, ticket_lock_wait, hmy]
    · exact progress_of_advances 0 hs hlt (advances_common (Or.inr (Or.inl hpc)))
    · exact progress_of_advances 0 hs hlt (advances_common (Or.inr (Or.inr (Or.inl hpc))))
    · refine progress_of_advances 0 hs hlt ?_
      simp [advances, worker, hpc, hty, ticket_step]
  have hvt := hv t
  cases hpc : (s.threads t).pc <;> simp [hpc, PC.ticketValid] at hvt hnd
  · exact progress_of_advances 0 hs ht (advances_common (Or.inl hpc))
  · refine progress_of_advances 0 hs ht ?_
    simp [advances, worker, hpc, hty, ticket_step]
  · have hne : pending s ≠ [] := by
      intro he
      have := (hinv.mem t).2 (by simp [hpc, PC.outstanding])
      rw [he] at this
      simp at this
    obtain ⟨h, hlt, ho, hmy⟩ := ticket_turn_holder hinv hne
    exact hout h hlt ho hmy
  · exact progress_of_advances 0 hs ht (advances_common (Or.inr (Or.inl hpc)))
  · exact progress_of_advances 0 hs ht (advances_common (Or.inr (Or.inr (Or.inl hpc))))
  · refine progress_of_advances 0 hs ht ?_
    simp [advances, worker, hpc, hty, ticket_step]
  · exact progress_of_advances 0 hs ht (advances_common (Or.inr (Or.inr (Or.inr hpc))))

theorem queue_lt {cfg : Config} {s : State} (h : QueueInv cfg s) {u : Nat}
    (hpc : (s.threads u).pc ≠ .loopTest) : u < cfg.NUM_THREADS := by
  by_contra hge
  rw [h.idle u (by omega)] at hpc
  simp [workerEntry] at hpc

/-- A thread of the queue benchmark at a position that needs no lock can advance. -/
theorem queue_free_progress {cfg : Config} {prev : Shared} {s : State} {t : Nat}
    (hs : Reachable cfg .QUEUE prev s) (hfree : (s.threads t).pc.queueFree = true) :
    Progress cfg s := by
  have hinv := queue_inv hs
  have hty := hinv.ty
  have ht : t < cfg.NUM_THREADS := queue_lt hinv (by
    intro h; rw [h] at hfree; simp [PC.queueFree] at hfree)
  cases hpc : (s.threads t).pc <;> simp [hpc, PC.queueFree] at hfree
  · refine progress_of_advances 0 hs ht ?_
    by_cases hf : s.sh.queue_lock_var.flag = 0 <;>
      simp [advances, worker, hpc, hty, queue_step, hf]
  · refine progress_of_advances 0 hs ht ?_
    simp [advances, worker, hpc, hty, queue_step]
  · refine progress_of_advances 0 hs ht ?_
    simp [advances, worker, hpc, hty, queue_step]
  · refine progress_of_advances 0 hs ht ?_
    simp [advances, worker, hpc, hty, queue_step]
  · refine progress_of_advances 0 hs ht ?_
    by_cases hf : s.sh.queue_lock_var.flag = 1 <;>
      simp [advances, worker, hpc, hty, queue_step, hf]
  · refine progress_of_advances 0 hs ht ?_
    simp [advances, worker, hpc, hty, queue_step]
  · refine progress_of_advances 0 hs ht ?_
    simp [advances, worker, hpc, hty, queue_step]
  · refine progress_of_advances 0 hs ht ?_
    simp [advances, worker, hpc, hty, queue_step]
  · refine progress_of_advances 0 hs ht ?_
    simp [advances, worker, hpc, hty, queue_step]
  · cases hc : s.sh.queue_lock_var.cond with
    | nil =>
      refine progress_of_advances 0 hs ht ?_
      simp [advances, worker, hpc, hty, queue_step, hc]
    | cons w ws =>
      refine progress_of_advances w hs ht ?_
      simp [advances, worker, hpc, hty, queue_step, hc]
  · refine progress_of_advances 0 hs ht ?_
    simp [advances, worker, hpc, hty, queue_step]
  · refine progress_of_advances 0 hs ht ?_
    simp [advances, worker, hpc, hty, queue_step]

/-- A thread of the queue benchmark that needs `q_mutex` can advance, or the owner of
`q_mutex` can. -/
theorem queue_mutex_progress {cfg : Config} {prev : Shared} {s : State} {t : Nat}
    (hs : Reachable cfg .QUEUE prev s)
    (hpc : (s.threads t).pc = .qMutexLock ∨ (s.threads t).pc = .uMutexLock ∨
      ((s.threads t).pc = .qWaiting ∧ t ∉ s.sh.queue_lock_var.cond)) :
    Progress cfg s := by
  have hinv := queue_inv hs
  have hty := hinv.ty
  have ht : t < cfg.NUM_THREADS := queue_lt hinv (by
    rcases hpc with h | h | ⟨h, -⟩ <;> simp [h])
  cases hm : s.sh.queue_lock_var.q_mutex with
  | none =>
    refine progress_of_advances 0 hs ht ?_
    rcases hpc with h | h | ⟨h, hn⟩
    · simp [advances, worker, h, hty, queue_step, hm]
    · simp [advances, worker, h, hty, queue_step, hm]
    · simp [advances, worker, h, hty, queue_step, hm, hn]
  | some m =>
    have hmm := (hinv.mown m).2 hm
    apply @queue_free_progress cfg prev s m hs
    cases hpm : (s.threads m).pc <;> simp [hpm, PC.holdsMutex] at hmm <;> simp [PC.queueFree]

/-- A thread of the queue benchmark that needs `guard` can advance, or the owner of
`guard` can, or the owner of `q_mutex` can. -/
theorem queue_guard_progress {cfg : Config} {prev : Shared} {s : State} {t : Nat}
    (hs : Reachable cfg .QUEUE prev s)
    (hpc : (s.threads t).pc = .qGuardLock ∨ (s.threads t).pc = .uGuardLock) :
    Progress cfg s := by
  have hinv := queue_inv hs
  have hty := hinv.ty
  have ht : t < cfg.NUM_THREADS := queue_lt hinv (by
    rcases hpc with h | h <;> simp [h])
  obtain ⟨g, hg, hown⟩ := hinv.gown
  cases g with
  | none =>
    have hg0 : s.sh.queue_lock_var.guard = 0 := by simpa using hg
    refine progress_of_advances 0 hs ht ?_
    rcases hpc with h | h <;>
      simp [advances, worker, h, hty, queue_step, sync_lock_test_and_set, hg0]
  | some o =>
    have hoo := (hown o).2 rfl
    by_cases hfree : (s.threads o).pc.queueFree = true
    · exact queue_free_progress hs hfree
    · apply @queue_mutex_progress cfg prev s o hs
      cases hpo : (s.threads o).pc <;> simp [hpo, PC.holdsGuard] at hoo <;>
        simp [hpo, PC.queueFree] at hfree <;> simp

/-- A queue benchmark that has not finished can make progress. -/
theorem queue_progress {cfg : Config} {prev : Shared} {s : State}
    (hs : Reachable cfg .QUEUE prev s) (hnf : ¬ Finished cfg s) : Progress cfg s := by
  obtain ⟨t, ht, hnd⟩ := exists_unfinished hnf
  have hinv := queue_inv hs
  have key : ∀ u, u < cfg.NUM_THREADS → (s.threads u).pc ≠ .done →
      ¬ ((s.threads u).pc = .qWaiting ∧ u ∈ s.sh.queue_lock_var.cond) → Progress cfg s := by
    intro u hu hud hnw
    have hv := hinv.valid u
    by_cases hfree : (s.threads u).pc.queueFree = true
    · exact queue_free_progress hs hfree
    · cases hpc : (s.threads u).pc <;> simp [hpc, PC.queueValid] at hv <;>
        simp [hpc, PC.queueFree] at hfree <;> simp [hpc] at hud hnw
      · exact progress_of_advances 0 hs hu (advances_common (Or.inl hpc))
      · exact queue_guard_progress hs (Or.inl hpc)
      · exact queue_mutex_progress hs (Or.inl hpc)
      · exact queue_mutex_progress hs (Or.inr (Or.inr ⟨hpc, hnw⟩))
      · exact progress_of_advances 0 hs hu (advances_common (Or.inr (Or.inl hpc)))
      · exact progress_of_advances 0 hs hu (advances_common (Or.inr (Or.inr (Or.inl hpc))))
      · exact queue_guard_progress hs (Or.inr hpc)
      · exact queue_mutex_progress hs (Or.inr (Or.inl hpc))
      · exact progress_of_advances 0 hs hu (advances_common (Or.inr (Or.inr (Or.inr hpc))))
  by_cases hw : (s.threads t).pc = .qWaiting ∧ t ∈ s.sh.queue_lock_var.cond
  · have hne : s.sh.queue_lock_var.cond ≠ [] := by
      intro he
      rw [he] at hw
      simp at hw
    obtain ⟨u, hu⟩ := hinv.wake (Or.inl hne)
    simp only [active] at hu
    have hnl : (s.threads u).pc ≠ .loopTest := by
      rcases hu with h | h | h | h | h | ⟨h, -⟩
      · intro hc; rw [hc] at h; simp [PC.setFlag] at h
      all_goals simp [h]
    have hnd' : (s.threads u).pc ≠ .done := by
      rcases hu with h | h | h | h | h | ⟨h, -⟩
      · intro hc; rw [hc] at h; simp [PC.setFlag] at h
      all_goals simp [h]
    refine key u (queue_lt hinv hnl) hnd' ?_
    rintro ⟨hq, hm⟩
    rcases hu with h | h | h | h | h | ⟨-, h⟩
    · rw [hq] at h; simp [PC.setFlag] at h
    · rw [hq] at h; cases h
    · rw [hq] at h; cases h
    · rw [hq] at h; cases h
    · rw [hq] at h; cases h
    · exact h hm
  · exact key t ht hnd hw

/-- In the queue benchmark some unfinished worker is neither blocked in
`pthread_cond_wait` nor blocked on `q_mutex`. -/
theorem queue_not_all_blocked {cfg : Config} {prev : Shared} {s : State}
    (hs : Reachable cfg .QUEUE prev s) (hnf : ¬ Finished cfg s) :
    ∃ t, t < cfg.NUM_THREADS ∧ (s.threads t).pc ≠ .done ∧ ¬ blockedInCondWait s t ∧
      ¬ blockedOnMutex s t := by
  obtain ⟨t, ht, hnd⟩ := exists_unfinished hnf
  have hinv := queue_inv hs
  cases hm : s.sh.queue_lock_var.q_mutex with
  | some m =>
    have hmm := (hinv.mown m).2 hm
    have hlt : m < cfg.NUM_THREADS := queue_lt hinv (by
      intro hc; rw [hc] at hmm; simp [PC.holdsMutex] at hmm)
    refine ⟨m, hlt, ?_, ?_, ?_⟩
    · intro hc; rw [hc] at hmm; simp [PC.holdsMutex] at hmm
    · rintro ⟨hc, -⟩; rw [hc] at hmm; simp [PC.holdsMutex] at hmm
    · rintro ⟨hc | hc | ⟨hc, -⟩, -⟩ <;> rw [hc] at hmm <;> simp [PC.holdsMutex] at hmm
  | none =>
    by_cases hw : blockedInCondWait s t
    · have hne : s.sh.queue_lock_var.cond ≠ [] := by
        intro he
        have := hw.2
        rw [he] at this
        simp at this
      obtain ⟨u, hu⟩ := hinv.wake (Or.inl hne)
      simp only [active] at hu
      have hnl : (s.threads u).pc ≠ .loopTest := by
        rcases hu with h | h | h | h | h | ⟨h, -⟩
        · intro hc; rw [hc] at h; simp [PC.setFlag] at h
        all_goals simp [h]
      refine ⟨u, queue_lt hinv hnl, ?_, ?_, ?_⟩
      · rcases hu with h | h | h | h | h | ⟨h, -⟩
        · intro hc; rw [hc] at h; simp [PC.setFlag] at h
        all_goals simp [h]
      · rintro ⟨hq, hmem⟩
        rcases hu with h | h | h | h | h | ⟨-, h⟩
        · rw [hq] at h; simp [PC.setFlag] at h
        · rw [hq] at h; cases h
        · rw [hq] at h; cases h
        · rw [hq] at h; cases h
        · rw [hq] at h; cases h
        · exact h hmem
      · rintro ⟨-, hc⟩; exact hc hm
    · exact ⟨t, ht, hnd, hw, fun hb => hb.2 hm⟩

/-- C7: from every state of a run of any of the five benchmarks (for the ticket
benchmark with at most 2^32 threads; the `int` thread count of `run_test` is below 2^31)
the state in which all workers have returned can be reached by steps of the threads
alone, without spurious wake-ups; in the queue benchmark some unfinished worker is always
neither blocked in `pthread_cond_wait` nor blocked on `q_mutex`; in the ticket benchmark,
whenever `turn != ticket`, some thread that has not completed `ticket_unlock` holds the
ticket equal to `turn`. -/
theorem C7_no_deadlock (cfg : Config) (type : LockType) (prev : Shared) (s : State)
    (hN : type = .TICKET → cfg.NUM_THREADS ≤ 4294967296)
    (hs : Reachable cfg type prev s) :
    (∃ sched s', (∀ l, l ∈ sched → l.isRun = true) ∧ run cfg s sched = some s' ∧
      Finished cfg s') ∧
    (type = .QUEUE → ¬ Finished cfg s →
      ∃ t, t < cfg.NUM_THREADS ∧ (s.threads t).pc ≠ .done ∧ ¬ blockedInCondWait s t ∧
        ¬ blockedOnMutex s t) ∧
    (type = .TICKET → s.sh.ticket_lock_var.turn ≠ s.sh.ticket_lock_var.ticket →
      ∃ t, t < cfg.NUM_THREADS ∧ (s.threads t).pc.outstanding = true ∧
        (s.threads t).myturn = s.sh.ticket_lock_var.turn) := by
  refine ⟨?_, ?_, ?_⟩
  · apply finish_of_progress ?_ (potential cfg s) s hs (le_refl _)
    intro s1 hs1 hnf
    cases type with
    | SPIN => exact flag_progress (by rfl) hs1 hnf
    | CAS => exact flag_progress (by rfl) hs1 hnf
    | TICKET => exact ticket_progress (hN rfl) hs1 hnf
    | YIELD => exact flag_progress (by rfl) hs1 hnf
    | QUEUE => exact queue_progress hs1 hnf
  · rintro rfl hnf
    exact queue_not_all_blocked hs hnf
  · rintro rfl hne
    have hinv := ticket_inv (hN rfl) hs
    apply ticket_turn_holder hinv
    intro hp
    apply hne
    have hlen := draws_length_eq hinv
    rw [hp] at hlen
    simp only [List.length_nil, add_zero] at hlen
    rw [hinv.tn, hinv.tk, hlen]

/-- Witness of C7: the ticket benchmark of the source while thread 0 is in the critical
section and thread 1 spins in the wait loop of `ticket_lock`. -/
theorem C7_no_deadlock_witness :
    (LockType.TICKET = .TICKET → sourceConfig.NUM_THREADS ≤ 4294967296) ∧
    Reachable sourceConfig .TICKET programStart
      (stateAfter sourceConfig (run_test .TICKET programStart)
        [go 0, go 0, go 0, go 1, go 1, go 1]) ∧
    (stateAfter sourceConfig (run_test .TICKET programStart)
        [go 0, go 0, go 0, go 1, go 1, go 1]).sh.ticket_lock_var.turn ≠
      (stateAfter sourceConfig (run_test .TICKET programStart)
        [go 0, go 0, go 0, go 1, go 1, go 1]).sh.ticket_lock_var.ticket ∧
    (∃ sched s', (∀ l, l ∈ sched → l.isRun = true) ∧
      run sourceConfig
        (stateAfter sourceConfig (run_test .TICKET programStart)
          [go 0, go 0, go 0, go 1, go 1, go 1])
        sched = some s' ∧
      Finished sourceConfig s') ∧
    ∃ t, t < sourceConfig.NUM_THREADS ∧
      ((stateAfter sourceConfig (run_test .TICKET programStart)
        [go 0, go 0, go 0, go 1, go 1, go 1]).threads t).pc.outstanding = true ∧
      ((stateAfter sourceConfig (run_test .TICKET programStart)
        [go 0, go 0, go 0, go 1, go 1, go 1]).threads t).myturn =
      (stateAfter sourceConfig (run_test .TICKET programStart)
        [go 0, go 0, go 0, go 1, go 1, go 1]).sh.ticket_lock_var.turn :=
  ⟨fun _ => by decide, reachable_stateAfter (by decide), by decide,
   (C7_no_deadlock sourceConfig .TICKET programStart _ (fun _ => by decide)
      (reachable_stateAfter (by decide))).1,
   (C7_no_deadlock sourceConfig .TICKET programStart _ (fun _ => by decide)
      (reachable_stateAfter (by decide))).2.2 rfl (by decide)⟩

/-! ## The lost update of the queue benchmark -/

/-- One uncontended iteration of `worker` under the queue lock. -/
theorem queue_solo_iteration {cfg : Config} {s : State} {t i : Nat}
    (hq : QueueFree s) (h : AtLoop s t i) (ht : t < cfg.NUM_THREADS)
    (hi : i < cfg.NUM_ITERATIONS) :
    ∃ s', run cfg s (List.replicate 14 (go t)) = some s' ∧ QueueFree s' ∧
      AtLoop s' t (i + 1) ∧ s'.sh.counter = wrap32 (s.sh.counter + 1) ∧
      ∀ u, u ≠ t → s'.threads u = s.threads u := by
  obtain ⟨hty, hfl, hg, hc, hm⟩ := hq
  obtain ⟨hpc, hidx⟩ := h
  have hi' : (s.threads t).i < cfg.NUM_ITERATIONS := by rw [hidx]; exact hi
  have hsome : (run cfg s (List.replicate 14 (go t))).isSome = true := by
    simp [List.replicate, run, step, go, ht, worker, hpc, hi', hty, lockEntry, unlockEntry,
      queue_step, sync_lock_test_and_set, hfl, hg, hc, hm]
  refine ⟨stateAfter cfg s (List.replicate 14 (go t)), run_stateAfter hsome, ?_, ?_, ?_, ?_⟩
  · simp [QueueFree, stateAfter, List.replicate, run, step, go, ht, worker, hpc, hi', hty,
      lockEntry, unlockEntry, queue_step, sync_lock_test_and_set, hfl, hg, hc, hm, hidx, hi]
  · simp [AtLoop, stateAfter, List.replicate, run, step, go, ht, worker, hpc, hi', hty,
      lockEntry, unlockEntry, queue_step, sync_lock_test_and_set, hfl, hg, hc, hm, hidx, hi]
  · simp [stateAfter, List.replicate, run, step, go, ht, worker, hpc, hi', hty,
      lockEntry, unlockEntry, queue_step, sync_lock_test_and_set, hfl, hg, hc, hm, hidx, hi]
  · intro u hu
    simp [stateAfter, List.replicate, run, step, go, ht, worker, hpc, hi', hty,
      lockEntry, unlockEntry, queue_step, sync_lock_test_and_set, hfl, hg, hc, hm, hidx, hi,
      upd, hu]

/-- Uncontended iterations of one thread under the queue lock, one after the other. -/
theorem queue_solo_iterations {cfg : Config} {t : Nat} (ht : t < cfg.NUM_THREADS) (n : Nat) :
    ∀ (s : State) (i : Nat) (c : Int), QueueFree s → AtLoop s t i →
      s.sh.counter = wrap32 c → i + n ≤ cfg.NUM_ITERATIONS →
    ∃ s', run cfg s (List.replicate (14 * n) (go t)) = some s' ∧ QueueFree s' ∧
      AtLoop s' t (i + n) ∧ s'.sh.counter = wrap32 (c + n) ∧
      ∀ u, u ≠ t → s'.threads u = s.threads u := by
  induction n with
  | zero =>
    intro s i c hq h hc _
    exact ⟨s, by simp [run], hq, h, by simpa using hc, fun _ _ => rfl⟩
  | succ n ih =>
    intro s i c hq h hc hle
    obtain ⟨s1, hr1, hq1, hi1, hc1, ho1⟩ := queue_solo_iteration hq h ht (by omega)
    obtain ⟨s2, hr2, hq2, hi2, hc2, ho2⟩ := ih s1 (i + 1) (c + 1) hq1 hi1
      (by rw [hc1, hc, wrap32_succ]) (by omega)
    refine ⟨s2, ?_, hq2, ?_, ?_, ?_⟩
    · have : 14 * (n + 1) = 14 + 14 * n := by ring
      rw [this, List.replicate_add]
      exact run_append hr1 hr2
    · have : i + (n + 1) = i + 1 + n := by ring
      rw [this]; exact hi2
    · rw [hc2]; congr 1; push_cast; ring
    · intro u hu
      rw [ho2 u hu, ho1 u hu]

/-- A thread at the loop test with `i == NUM_ITERATIONS` returns. -/
theorem worker_returns {cfg : Config} {s : State} {t : Nat} (ht : t < cfg.NUM_THREADS)
    (h : AtLoop s t cfg.NUM_ITERATIONS) :
    ∃ s', run cfg s [go t] = some s' ∧ (s'.threads t).pc = .done ∧ s'.sh = s.sh ∧
      ∀ u, u ≠ t → s'.threads u = s.threads u := by
  obtain ⟨hpc, hidx⟩ := h
  refine ⟨{ sh := s.sh, threads := upd s.threads t { s.threads t with pc := .done } },
    ?_, by simp, rfl, fun u hu => by simp [upd, hu]⟩
  simp [run, step, go, ht, worker, hpc, hidx]

/-- C2 at the failing input: in the queue benchmark of the source, after `raceSchedule`
threads 0 and 1 have both returned from `queue_lock` and neither has cleared `flag`;
after `lostFlagSchedule` the flag is 0 while thread 1 still holds the lock. -/
theorem C2_queue_two_holders :
    Reachable sourceConfig .QUEUE programStart
      (stateAfter sourceConfig (run_test .QUEUE programStart) raceSchedule) ∧
    ((stateAfter sourceConfig (run_test .QUEUE programStart) raceSchedule).threads 0).pc
      = .counterRead ∧
    ((stateAfter sourceConfig (run_test .QUEUE programStart) raceSchedule).threads 1).pc
      = .counterRead ∧
    ((stateAfter sourceConfig (run_test .QUEUE programStart)
      raceSchedule).threads 0).pc.holdsQueue = true ∧
    ((stateAfter sourceConfig (run_test .QUEUE programStart)
      raceSchedule).threads 1).pc.holdsQueue = true ∧
    Reachable sourceConfig .QUEUE programStart
      (stateAfter sourceConfig (run_test .QUEUE programStart) lostFlagSchedule) ∧
    (stateAfter sourceConfig (run_test .QUEUE programStart)
      lostFlagSchedule).sh.queue_lock_var.flag = 0 ∧
    ((stateAfter sourceConfig (run_test .QUEUE programStart)
      lostFlagSchedule).threads 1).pc.holdsQueue = true :=
  ⟨reachable_stateAfter (by decide), by decide, by decide, by decide, by decide,
   reachable_stateAfter (by decide), by decide, by decide⟩

/-- C6 at the failing input: in the queue benchmark of the source, after
`slowPathSchedule` the next step of thread 1 reads `flag` in `while (m->flag == 1)`
while `guard` is 0 and thread 1 does not hold it; the step runs and reads the flag. -/
theorem C6_queue_flag_without_guard :
    Reachable sourceConfig .QUEUE programStart
      (stateAfter sourceConfig (run_test .QUEUE programStart) slowPathSchedule) ∧
    ((stateAfter sourceConfig (run_test .QUEUE programStart) slowPathSchedule).threads 1).pc
      = .qWhileTest ∧
    ((stateAfter sourceConfig (run_test .QUEUE programStart)
      slowPathSchedule).threads 1).pc.accessesFlag = true ∧
    ((stateAfter sourceConfig (run_test .QUEUE programStart)
      slowPathSchedule).threads 1).pc.holdsGuard = false ∧
    (stateAfter sourceConfig (run_test .QUEUE programStart)
      slowPathSchedule).sh.queue_lock_var.guard = 0 ∧
    (stateAfter sourceConfig (run_test .QUEUE programStart)
      slowPathSchedule).sh.queue_lock_var.flag = 1 ∧
    ((stateAfter sourceConfig (run_test .QUEUE programStart)
      (slowPathSchedule ++ [go 1])).threads 1).pc = .qCondWait :=
  ⟨reachable_stateAfter (by decide), by decide, by decide, by decide, by decide, by decide,
   by decide⟩

/-- C1 at the failing input: the queue benchmark with the constants of the source
(4 threads, 100000 iterations) run under `lostUpdateSchedule` ends with all workers
returned and the counter at 399999 instead of 400000. -/
theorem C1_queue_lost_update :
    Reachable sourceConfig .QUEUE programStart
      (stateAfter sourceConfig (run_test .QUEUE programStart) lostUpdateSchedule) ∧
    Finished sourceConfig
      (stateAfter sourceConfig (run_test .QUEUE programStart) lostUpdateSchedule) ∧
    (stateAfter sourceConfig (run_test .QUEUE programStart) lostUpdateSchedule).sh.counter
      = 399999 ∧
    (sourceConfig.NUM_THREADS * sourceConfig.NUM_ITERATIONS : Int) = 400000 := by
  have hpre : (run sourceConfig (run_test .QUEUE programStart)
      (lostFlagSchedule ++ [go 0, go 0, go 0, go 0, go 0] ++ List.replicate 7 (go 1))).isSome
      = true := by decide
  have hr0 := run_stateAfter hpre
  generalize hs0 : stateAfter sourceConfig (run_test .QUEUE programStart)
      (lostFlagSchedule ++ [go 0, go 0, go 0, go 0, go 0] ++ List.replicate 7 (go 1)) = s0
      at hr0
  have hq0 : QueueFree s0 := by
    subst hs0
    exact ⟨by decide, by decide, by decide, by decide, by decide⟩
  have ha0 : AtLoop s0 0 2 := by subst hs0; exact ⟨by decide, by decide⟩
  have ha1 : AtLoop s0 1 1 := by subst hs0; exact ⟨by decide, by decide⟩
  have ha2 : AtLoop s0 2 0 := by subst hs0; exact ⟨by decide, by decide⟩
  have ha3 : AtLoop s0 3 0 := by subst hs0; exact ⟨by decide, by decide⟩
  have hc0 : s0.sh.counter = wrap32 2 := by subst hs0; decide
  obtain ⟨s1, hr1, hq1, hb0, hc1, ho1⟩ :=
    @queue_solo_iterations sourceConfig 0 (by decide) 99998 s0 2 2 hq0 ha0 hc0 (by decide)
  obtain ⟨s2, hr2, hq2, hb1, hc2, ho2⟩ :=
    @queue_solo_iterations sourceConfig 1 (by decide) 99999 s1 1 _ hq1
      (by unfold AtLoop; rw [ho1 1 (by decide)]; exact ha1) hc1 (by decide)
  obtain ⟨s3, hr3, hq3, hb2, hc3, ho3⟩ :=
    @queue_solo_iterations sourceConfig 2 (by decide) 100000 s2 0 _ hq2
      (by unfold AtLoop; rw [ho2 2 (by decide), ho1 2 (by decide)]; exact ha2) hc2 (by decide)
  obtain ⟨s4, hr4, hq4, hb3, hc4, ho4⟩ :=
    @queue_solo_iterations sourceConfig 3 (by decide) 100000 s3 0 _ hq3
      (by
        unfold AtLoop
        rw [ho3 3 (by decide), ho2 3 (by decide), ho1 3 (by decide)]; exact ha3)
      hc3 (by decide)
  have hd0 : AtLoop s4 0 sourceConfig.NUM_ITERATIONS := by
    unfold AtLoop
    rw [ho4 0 (by decide), ho3 0 (by decide), ho2 0 (by decide)]; exact hb0
  have hd1 : AtLoop s4 1 sourceConfig.NUM_ITERATIONS := by
    unfold AtLoop
    rw [ho4 1 (by decide), ho3 1 (by decide)]; exact hb1
  have hd2 : AtLoop s4 2 sourceConfig.NUM_ITERATIONS := by
    unfold AtLoop
    rw [ho4 2 (by decide)]; exact hb2
  have hd3 : AtLoop s4 3 sourceConfig.NUM_ITERATIONS := hb3
  obtain ⟨s5, hr5, hp0, hsh5, ho5⟩ := @worker_returns sourceConfig s4 0 (by decide) hd0
  obtain ⟨s6, hr6, hp1, hsh6, ho6⟩ := @worker_returns sourceConfig s5 1 (by decide)
    (by unfold AtLoop; rw [ho5 1 (by decide)]; exact hd1)
  obtain ⟨s7, hr7, hp2, hsh7, ho7⟩ := @worker_returns sourceConfig s6 2 (by decide)
    (by unfold AtLoop; rw [ho6 2 (by decide), ho5 2 (by decide)]; exact hd2)
  obtain ⟨s8, hr8, hp3, hsh8, ho8⟩ := @worker_returns sourceConfig s7 3 (by decide)
    (by unfold AtLoop; rw [ho7 3 (by decide), ho6 3 (by decide), ho5 3 (by decide)]; exact hd3)
  have hfin : run sourceConfig s4 [go 0, go 1, go 2, go 3] = some s8 :=
    run_append hr5 (run_append hr6 (run_append hr7 hr8))
  have hrun : run sourceConfig (run_test .QUEUE programStart) lostUpdateSchedule = some s8 :=
    run_append (run_append (run_append (run_append (run_append hr0 hr1) hr2) hr3) hr4) hfin
  have hst : stateAfter sourceConfig (run_test .QUEUE programStart) lostUpdateSchedule = s8 := by
    simp only [stateAfter, hrun, Option.getD_some]
  rw [hst]
  refine ⟨reachable_run _ Reachable.init hrun, ?_, ?_, by decide⟩
  · intro t ht
    have : t = 0 ∨ t = 1 ∨ t = 2 ∨ t = 3 := by
      have : t < 4 := ht
      omega
    rcases this with rfl | rfl | rfl | rfl
    · rw [ho8 0 (by decide), ho7 0 (by decide), ho6 0 (by decide)]; exact hp0
    · rw [ho8 1 (by decide), ho7 1 (by decide)]; exact hp1
    · rw [ho8 2 (by decide)]; exact hp2
    · exact hp3
  · rw [hsh8, hsh7, hsh6, hsh5, hc4]
    decide

/-! ## The counter under the four locks that exclude -/

/-- In the benchmarks other than the queue benchmark at most one thread is inside
`counter++`. -/
theorem increment_exclusive {cfg : Config} {type : LockType} {prev : Shared} {s : State}
    (hN : cfg.NUM_THREADS ≤ 4294967296) (hq : type ≠ .QUEUE)
    (hs : Reachable cfg type prev s) :
    ∀ t u, (s.threads t).pc.inIncrement = true → (s.threads u).pc.inIncrement = true →
      t = u := by
  intro t u ht hu
  have key : ∀ pc : PC, pc.inIncrement = true → pc.holdsFlag = true ∧ pc.pastWait = true := by
    intro pc h
    cases pc <;> simp_all [PC.inIncrement, PC.holdsFlag, PC.pastWait]
  cases type with
  | QUEUE => exact absurd rfl hq
  | TICKET =>
    have h := ticket_inv hN hs
    have h1 := h.past t (key _ ht).2
    have h2 := h.past u (key _ hu).2
    rw [h1] at h2
    simpa using h2
  | SPIN =>
    obtain ⟨o, -, hown⟩ := (flag_own (by rfl) hs).own
    have h1 := (hown t).1 (key _ ht).1
    have h2 := (hown u).1 (key _ hu).1
    rw [h1] at h2
    simpa using h2
  | CAS =>
    obtain ⟨o, -, hown⟩ := (flag_own (by rfl) hs).own
    have h1 := (hown t).1 (key _ ht).1
    have h2 := (hown u).1 (key _ hu).1
    rw [h1] at h2
    simpa using h2
  | YIELD =>
    obtain ⟨o, -, hown⟩ := (flag_own (by rfl) hs).own
    have h1 := (hown t).1 (key _ ht).1
    have h2 := (hown u).1 (key _ hu).1
    rw [h1] at h2
    simpa using h2

/-- What a step inside the lock functions of a benchmark other than the queue benchmark
leaves unchanged. -/
theorem lock_step_frame {cfg : Config} {t pick : Nat} {sh sh' : Shared} {th th' : Thread}
    (hq : sh.current_test_type ≠ .QUEUE)
    (hw : worker cfg t pick sh th = some (sh', th'))
    (n1 : th.pc ≠ .loopTest) (n2 : th.pc ≠ .counterRead) (n3 : th.pc ≠ .counterWrite)
    (n4 : th.pc ≠ .loopIncr) :
    sh'.counter = sh.counter ∧ th'.i = th.i ∧ th'.pc.afterWrite = th.pc.afterWrite ∧
    th'.pc ≠ .counterWrite ∧ th'.pc ≠ .done := by
  rcases worker_cases hw with ⟨h1, _⟩ | ⟨h1, _⟩ | ⟨h1, _⟩ | ⟨h1, _⟩ | ⟨h1, _⟩ |
    ⟨_, _, _, _, n5, hl⟩
  · exact absurd h1 n1
  · exact absurd h1 n1
  · exact absurd h1 n2
  · exact absurd h1 n3
  · exact absurd h1 n4
  · rcases hl with ⟨hc, hl⟩ | ⟨hc, hl⟩ | ⟨hc, hl⟩ | ⟨hc, hl⟩ | ⟨hc, hl⟩
    · unfold spin_step at hl
      split at hl
      · rename_i hpc
        simp only [Option.some.injEq, Prod.mk.injEq] at hl
        obtain ⟨rfl, rfl⟩ := hl
        by_cases hr : (spinlock_lock sh.spin_lock_var).2 = true <;>
          simp [hr, hpc, PC.afterWrite]
      · rename_i hpc
        simp only [Option.some.injEq, Prod.mk.injEq] at hl
        obtain ⟨rfl, rfl⟩ := hl
        simp [hpc, PC.afterWrite, spinlock_unlock]
      · simp at hl
    · unfold cas_step at hl
      split at hl
      · rename_i hpc
        simp only [Option.some.injEq, Prod.mk.injEq] at hl
        obtain ⟨rfl, rfl⟩ := hl
        by_cases hr : (cas_lock sh.cas_lock_var).2 = true <;>
          simp [hr, hpc, PC.afterWrite]
      · rename_i hpc
        simp only [Option.some.injEq, Prod.mk.injEq] at hl
        obtain ⟨rfl, rfl⟩ := hl
        simp [hpc, PC.afterWrite]
      · simp at hl
    · cases ticket_step_inv hl with
      | draw hpc => simp [hpc, PC.afterWrite]
      | spin hpc hne => simp [hpc, PC.afterWrite, n3, n5]
      | grant hpc heq => simp [hpc, PC.afterWrite]
      | release hpc => simp [hpc, PC.afterWrite]
    · unfold yield_step at hl
      split at hl
      · rename_i hpc
        simp only [Option.some.injEq, Prod.mk.injEq] at hl
        obtain ⟨rfl, rfl⟩ := hl
        by_cases hr : (yield_lock sh.yield_lock_var).2 = true <;>
          simp [hr, hpc, PC.afterWrite]
      · rename_i hpc
        simp only [Option.some.injEq, Prod.mk.injEq] at hl
        obtain ⟨rfl, rfl⟩ := hl
        simp [hpc, PC.afterWrite]
      · rename_i hpc
        simp only [Option.some.injEq, Prod.mk.injEq] at hl
        obtain ⟨rfl, rfl⟩ := hl
        simp [hpc, PC.afterWrite]
      · simp at hl
    · exact absurd hc hq


theorem sum_update_add {N : Nat} {f g : Nat → Nat} {t d : Nat} (ht : t < N)
    (ho : ∀ u, u < N → u ≠ t → g u = f u) (hg : g t = f t + d) :
    Finset.sum (Finset.range N) g = Finset.sum (Finset.range N) f + d := by
  have htm : t ∈ Finset.range N := by simpa using ht
  have hrest : Finset.sum ((Finset.range N).erase t) g =
      Finset.sum ((Finset.range N).erase t) f := by
    apply Finset.sum_congr rfl
    intro u hu
    simp only [Finset.mem_erase, Finset.mem_range] at hu
    exact ho u hu.2 hu.1
  rw [← Finset.add_sum_erase _ g htm, ← Finset.add_sum_erase _ f htm, hrest, hg]
  ring

/-- A step that changes neither the counter nor the number of increments of the thread
keeps the invariant of the counter. -/
theorem counter_keep {cfg : Config} {s : State} {t : Nat} {sh' : Shared} {th' : Thread}
    (h : CounterInv cfg s) (ht : t < cfg.NUM_THREADS)
    (hc : sh'.counter = s.sh.counter)
    (hinc : increments th' = increments (s.threads t))
    (hfresh : th'.pc = .counterWrite → th'.tmp = s.sh.counter)
    (hb : th'.i ≤ cfg.NUM_ITERATIONS)
    (hfin : th'.pc = .done → th'.i = cfg.NUM_ITERATIONS) :
    CounterInv cfg { sh := sh', threads := upd s.threads t th' } := by
  constructor
  · simp only [hc, h.total]
    congr 1
    symm
    have := @sum_update_add cfg.NUM_THREADS (fun u => increments (s.threads u))
      (fun u => increments (upd s.threads t th' u)) t 0 ht
      (fun u _ hu => by simp only [upd_other _ _ hu]) (by simpa using hinc)
    simpa using this
  · intro u
    by_cases hu : u = t
    · subst hu; simpa [hc] using hfresh
    · simp only [upd_other _ _ hu, hc]; exact h.fresh u
  · intro u
    by_cases hu : u = t
    · subst hu; simpa using hb
    · simp only [upd_other _ _ hu]; exact h.bound u
  · intro u
    by_cases hu : u = t
    · subst hu; simpa using hfin
    · simp only [upd_other _ _ hu]; exact h.fin u

theorem increments_le {cfg : Config} {type : LockType} {prev : Shared} {s : State}
    (hs : Reachable cfg type prev s) (hb : ∀ t, (s.threads t).i ≤ cfg.NUM_ITERATIONS)
    (t : Nat) : increments (s.threads t) ≤ cfg.NUM_ITERATIONS := by
  unfold increments
  by_cases ha : (s.threads t).pc.afterWrite = true
  · have := reachable_iter hs t (by intro hc; rw [hc] at ha; simp [PC.afterWrite] at ha)
      (by intro hc; rw [hc] at ha; simp [PC.afterWrite] at ha)
    simp [ha]
    omega
  · simp [ha]
    exact hb t

theorem sum_increments_le {cfg : Config} {type : LockType} {prev : Shared} {s : State}
    (hs : Reachable cfg type prev s) (hb : ∀ t, (s.threads t).i ≤ cfg.NUM_ITERATIONS) :
    Finset.sum (Finset.range cfg.NUM_THREADS) (fun t => increments (s.threads t)) ≤
      cfg.NUM_THREADS * cfg.NUM_ITERATIONS := by
  have := Finset.sum_le_card_nsmul (Finset.range cfg.NUM_THREADS)
    (fun t => increments (s.threads t)) cfg.NUM_ITERATIONS
    (fun t _ => increments_le hs hb t)
  simpa using this

theorem counter_inv_init (cfg : Config) (type : LockType) (prev : Shared) :
    CounterInv cfg (run_test type prev) := by
  constructor
  · cases type <;> simp [run_test, run_test_setup, workerEntry, increments, PC.afterWrite]
  · intro t h; simp [run_test, workerEntry] at h
  · intro t; simp [run_test, workerEntry]
  · intro t h; simp [run_test, workerEntry] at h

/-- The invariant of the counter holds in every state of a run of a benchmark other
than the queue benchmark, when the counter cannot overflow. -/
theorem counter_inv {cfg : Config} {type : LockType} {prev : Shared} {s : State}
    (hN : cfg.NUM_THREADS ≤ 4294967296) (hq : type ≠ .QUEUE)
    (hprod : cfg.NUM_THREADS * cfg.NUM_ITERATIONS < 2147483648)
    (hs : Reachable cfg type prev s) : CounterInv cfg s := by
  refine @Reachable.rec_on_steps cfg type prev (CounterInv cfg) (counter_inv_init cfg type prev)
    ?_ ?_ s hs
  · intro s t pick sh' th' hr ih ht hw
    have hty := reachable_type hr
    have hqs : s.sh.current_test_type ≠ .QUEUE := by rw [hty]; exact hq
    rcases worker_cases hw with ⟨h1, h2, rfl, rfl⟩ | ⟨h1, h2, rfl, rfl⟩ | ⟨h1, rfl, rfl⟩ |
      ⟨h1, rfl, rfl⟩ | ⟨h1, rfl, rfl⟩ | ⟨n1, n2, n3, n4, n5, hl⟩
    · refine counter_keep ih ht rfl ?_ ?_ (ih.bound t) ?_
      · cases hc : s.sh.current_test_type <;>
          simp [increments, h1, lockEntry, hc, PC.afterWrite]
      · cases hc : s.sh.current_test_type <;> simp [lockEntry, hc]
      · cases hc : s.sh.current_test_type <;> simp [lockEntry, hc]
    · refine counter_keep ih ht rfl ?_ ?_ (ih.bound t) ?_
      · simp [increments, h1, PC.afterWrite]
      · simp
      · intro _
        have := ih.bound t
        simp only
        omega
    · refine counter_keep ih ht rfl ?_ ?_ (ih.bound t) ?_
      · simp [increments, h1, PC.afterWrite]
      · simp
      · simp
    · -- the write of `counter++`
      have htmp := ih.fresh t h1
      have hi := reachable_iter hr t (by simp [h1]) (by simp [h1])
      have hnew : Reachable cfg type prev
          { sh := { s.sh with counter := wrap32 ((s.threads t).tmp + 1) },
            threads := upd s.threads t
              { s.threads t with pc := unlockEntry s.sh.current_test_type } } := by
        refine Reachable.step (.run t pick) hr ?_
        simp [step, ht, hw]
      have hinc : increments { s.threads t with pc := unlockEntry s.sh.current_test_type } =
          increments (s.threads t) + 1 := by
        cases hc : s.sh.current_test_type <;>
          simp [increments, h1, unlockEntry, hc, PC.afterWrite]
        exact absurd hc hqs
      have hsum := @sum_update_add cfg.NUM_THREADS (fun u => increments (s.threads u))
        (fun u => increments (upd s.threads t
          { s.threads t with pc := unlockEntry s.sh.current_test_type } u)) t 1 ht
        (fun u _ hu => by simp only [upd_other _ _ hu]) (by simpa using hinc)
      have hbnd : ∀ u, ((upd s.threads t
          { s.threads t with pc := unlockEntry s.sh.current_test_type }) u).i ≤
          cfg.NUM_ITERATIONS := by
        intro u
        by_cases hu : u = t
        · subst hu; simpa using ih.bound u
        · simp only [upd_other _ _ hu]; exact ih.bound u
      have hle := sum_increments_le hnew hbnd
      simp only at hle
      rw [hsum] at hle
      constructor
      · simp only
        rw [hsum, htmp, ih.total]
        generalize Finset.sum (Finset.range cfg.NUM_THREADS)
          (fun u => increments (s.threads u)) = S at hle ⊢
        have hS : S + 1 < 2147483648 := by omega
        unfold wrap32
        push_cast
        omega
      · intro u hu
        by_cases hut : u = t
        · subst hut
          exfalso
          simp only [upd_same] at hu
          cases hc : s.sh.current_test_type <;> simp [unlockEntry, hc] at hu
        · exfalso
          simp only [upd_other _ _ hut] at hu
          exact hut (increment_exclusive hN hq hr u t (by simp [hu, PC.inIncrement])
            (by simp [h1, PC.inIncrement]))
      · exact hbnd
      · intro u
        by_cases hut : u = t
        · subst hut
          simp only [upd_same]
          intro hd
          cases hc : s.sh.current_test_type <;> simp [unlockEntry, hc] at hd
        · simp only [upd_other _ _ hut]; exact ih.fin u
    · have hi := reachable_iter hr t (by simp [h1]) (by simp [h1])
      refine counter_keep ih ht rfl ?_ ?_ ?_ ?_
      · simp [increments, h1, PC.afterWrite]
      · simp
      · simp only; omega
      · simp
    · obtain ⟨f1, f2, f3, f4, f5⟩ := lock_step_frame hqs hw n1 n2 n3 n4
      refine counter_keep ih ht f1 ?_ ?_ ?_ ?_
      · simp [increments, f2, f3]
      · intro hc; exact absurd hc f4
      · rw [f2]; exact ih.bound t
      · intro hc; exact absurd hc f5
  · intro s t hr ih hq' hm
    rw [reachable_type hr] at hq'
    exact absurd hq' hq

/-- For the test-and-set, compare-and-swap, ticket and yield benchmarks, every thread
count, every iteration count of at least 1 with `NUM_THREADS * NUM_ITERATIONS` below
2^31, and every interleaving: when all workers have returned, the counter equals
`NUM_THREADS * NUM_ITERATIONS`. -/
theorem counter_total (cfg : Config) (type : LockType) (prev : Shared) (s : State)
    (hq : type ≠ .QUEUE) (hI : 1 ≤ cfg.NUM_ITERATIONS)
    (hprod : cfg.NUM_THREADS * cfg.NUM_ITERATIONS < 2147483648)
    (hs : Reachable cfg type prev s) (hfin : Finished cfg s) :
    s.sh.counter = ((cfg.NUM_THREADS * cfg.NUM_ITERATIONS : Nat) : Int) := by
  have hN : cfg.NUM_THREADS ≤ 4294967296 := by
    have : cfg.NUM_THREADS * 1 ≤ cfg.NUM_THREADS * cfg.NUM_ITERATIONS :=
      Nat.mul_le_mul_left _ hI
    omega
  have h := counter_inv hN hq hprod hs
  rw [h.total]
  congr 1
  have : ∀ t, t ∈ Finset.range cfg.NUM_THREADS →
      increments (s.threads t) = cfg.NUM_ITERATIONS := by
    intro t ht
    simp only [Finset.mem_range] at ht
    have hd := hfin t ht
    simp [increments, hd, PC.afterWrite, h.fin t hd]
  rw [Finset.sum_congr rfl this]
  simp

/-- The test-and-set benchmark with 2 threads and 1 iteration, run to completion. -/
theorem counter_total_witness :
    Finished { NUM_THREADS := 2, NUM_ITERATIONS := 1 }
      (stateAfter { NUM_THREADS := 2, NUM_ITERATIONS := 1 } (run_test .SPIN programStart)
        [go 0, go 1, go 0, go 1, go 0, go 0, go 0, go 1, go 0, go 0, go 1, go 1, go 1, go 1,
         go 1]) ∧
    (stateAfter { NUM_THREADS := 2, NUM_ITERATIONS := 1 } (run_test .SPIN programStart)
        [go 0, go 1, go 0, go 1, go 0, go 0, go 0, go 1, go 0, go 0, go 1, go 1, go 1, go 1,
         go 1]).sh.counter = 2 := by
  have hr : Reachable { NUM_THREADS := 2, NUM_ITERATIONS := 1 } .SPIN programStart
      (stateAfter { NUM_THREADS := 2, NUM_ITERATIONS := 1 } (run_test .SPIN programStart)
        [go 0, go 1, go 0, go 1, go 0, go 0, go 0, go 1, go 0, go 0, go 1, go 1, go 1, go 1,
         go 1]) := reachable_stateAfter (by decide)
  have hf : Finished { NUM_THREADS := 2, NUM_ITERATIONS := 1 }
      (stateAfter { NUM_THREADS := 2, NUM_ITERATIONS := 1 } (run_test .SPIN programStart)
        [go 0, go 1, go 0, go 1, go 0, go 0, go 0, go 1, go 0, go 0, go 1, go 1, go 1, go 1,
         go 1]) := by
    intro t ht
    have : t = 0 ∨ t = 1 := by
      have : t < 2 := ht
      omega
    rcases this with rfl | rfl <;> decide
  exact ⟨hf, counter_total _ .SPIN programStart _ (by decide) (by decide) (by decide) hr hf⟩

end Locks
